import Mathlib

/-!
# gorchid: ancestry closure, layering and plotting of the RHS orchid register

A shallow embedding of `rhs.go` (`Register.FuzzyLookup`, `Register.Lookup`,
`Register.Pull`, `Register.Plot`, `Sort`).

Modelling conventions.

* A Go `map[string]V` is an association list with distinct keys
  (`AList`).  Reading a missing key yields the zero value (`getD`).
* Go leaves the iteration order of `range` over a map unspecified.  Every
  `range` over a map therefore takes an *order oracle* (a list of naturals)
  and visits the entries in the order `rangeOrder oracle entries`; every
  permutation of the entries is produced by some oracle.  The two worklist
  loops (`for len(todo) > 0 { for x := range todo {...} }`) delete the entry
  they visit, so they are modelled as: while `todo` is non-empty, take the
  entry the oracle points at and run the loop body on it.
* Go `int` is modelled by `Int`; all values here are bounded by the number
  of nodes, so wrap-around is not modelled.
* A Go `(value, error)` result is a pair of options; loops that need fuel
  return `Run.outOfFuel` when it is exhausted and an out-of-range slice index
  is `Run.panicked`.
-/

namespace Gorchid

/-- A Go `map[string]V`. -/
abbrev GoMap (V : Type) := AList (fun _ : String => V)

/-- The order in which a `range` loop visits `xs`, as chosen by the oracle:
the head of the oracle selects (modulo the length) the element visited first. -/
def rangeOrder {α : Type} : List Nat → List α → List α
  | _, [] => []
  | [], x :: xs => x :: xs
  | c :: cs, x :: xs =>
    (x :: xs).getD (c % (xs.length + 1)) x ::
      rangeOrder cs ((x :: xs).eraseIdx (c % (xs.length + 1)))

/-- Outcome of running a loop with fuel. -/
inductive Run (α : Type) where
  | done (a : α)
  | panicked
  | outOfFuel
  deriving DecidableEq, Repr

/-- Go `type Grex struct`. -/
structure Grex where
  Name : String
  Seed : String
  Pollen : String
  Originator : String
  Date : String
  deriving DecidableEq, Repr

/-- Go `type Register struct`. -/
structure Register where
  Grexes : GoMap Grex

/-- The ancestry graph `map[string][]string`: node name to parent names. -/
abbrev Graph := GoMap (List String)

/-- Go `func (r Register) FuzzyLookup(name string) (Grex, bool)`; `lower` is
`strings.ToLower`, `o` the order in which `r.Grexes` is ranged over. -/
def Register.FuzzyLookup (lower : String → String) (o : List Nat) (r : Register)
    (name : String) : Option Grex :=
  ((rangeOrder o r.Grexes.entries).find?
    (fun e => decide (lower name = lower e.2.Name))).map (fun e => e.2)

/-- Go `func (r Register) Lookup(name string) (Grex, bool)`. -/
def Register.Lookup (r : Register) (name : String) : Option Grex :=
  r.Grexes.lookup name

/-! ## Pull -/

/-- Local variables of `Pull`. -/
structure PullState where
  graph : Graph
  todo : GoMap Bool
  unknown : GoMap Bool

/-- First loop of `Pull`: resolve every query name with `FuzzyLookup` and put
the canonical name in `todo`; the first unresolved name aborts.  `os` gives the
registry iteration order of each successive `FuzzyLookup` call. -/
def pullSeed (lower : String → String) (r : Register) :
    List (List Nat) → List String → GoMap Bool → Except String (GoMap Bool)
  | _, [], todo => .ok todo
  | os, grex :: rest, todo =>
    match r.FuzzyLookup lower (os.headD []) grex with
    | none => .error ("not found: " ++ grex)
    | some g => pullSeed lower r os.tail rest (todo.insert g.Name true)

/-- The treatment of one parent reference (`g.Seed`, then `g.Pollen`) in the
body of the worklist loop of `Pull`. -/
def pullParent (r : Register) (s : PullState) (ref : String) : PullState :=
  match r.Lookup ref with
  | some parent =>
    if (s.graph.lookup parent.Name).isSome then s
    else { s with todo := s.todo.insert parent.Name true }
  | none => { s with unknown := s.unknown.insert ref true }

/-- Body of the worklist loop of `Pull` for the entry `name` of `todo`. -/
def pullVisit (r : Register) (name : String) (s : PullState) : Except String PullState :=
  match r.Lookup name with
  | none => .error ("not found: " ++ name)
  | some g =>
    let s1 : PullState := { s with graph := s.graph.insert g.Name [g.Seed, g.Pollen] }
    let s2 := pullParent r s1 g.Seed
    let s3 := pullParent r s2 g.Pollen
    .ok { s3 with todo := s3.todo.erase name }

/-- The worklist loop of `Pull`: `for len(todo) > 0 { for name := range todo {...} }`. -/
def pullLoop (r : Register) : Nat → List Nat → PullState → Run (Except String PullState)
  | fuel, picks, s =>
    match s.todo.keys with
    | [] => .done (.ok s)
    | t :: ts =>
      match fuel with
      | 0 => .outOfFuel
      | fuel + 1 =>
        match pullVisit r ((t :: ts).getD (picks.headD 0 % (ts.length + 1)) t) s with
        | .error e => .done (.error e)
        | .ok s' => pullLoop r fuel picks.tail s'

/-- The names taken from `todo` and expanded by the worklist loop of `Pull`, in
the order in which they are taken (same recursion as `pullLoop`). -/
def pullExpanded (r : Register) : Nat → List Nat → PullState → List String
  | fuel, picks, s =>
    match s.todo.keys with
    | [] => []
    | t :: ts =>
      match fuel with
      | 0 => []
      | fuel + 1 =>
        (t :: ts).getD (picks.headD 0 % (ts.length + 1)) t ::
          match pullVisit r ((t :: ts).getD (picks.headD 0 % (ts.length + 1)) t) s with
          | .error _ => []
          | .ok s' => pullExpanded r fuel picks.tail s'

/-- Iteration orders of the map ranges of one call of `Pull`. -/
structure PullSched where
  fuzzy : List (List Nat)
  picks : List Nat
  unknown : List Nat

/-- Go `func (r Register) Pull(grexes []string) (graph map[string][]string, err error)`. -/
def Register.Pull (lower : String → String) (σ : PullSched) (fuel : Nat) (r : Register)
    (grexes : List String) : Run (Option Graph × Option String) :=
  match pullSeed lower r σ.fuzzy grexes ∅ with
  | .error e => .done (none, some e)
  | .ok todo =>
    match pullLoop r fuel σ.picks ⟨∅, todo, ∅⟩ with
    | .outOfFuel => .outOfFuel
    | .panicked => .panicked
    | .done (.error e) => .done (none, some e)
    | .done (.ok s) =>
      .done (some ((rangeOrder σ.unknown s.unknown.keys).foldl
        (fun graph name => graph.insert name []) s.graph), none)

/-! ## Sort -/

/-- Local variables of the worklist loop of `Sort`. -/
structure SortState where
  todo : GoMap Bool
  inc : GoMap Int
  height : GoMap Int
  maxHeight : Int

/-- Body of the first loop of `Sort` (`inc[name] = len(deps)`, seed `todo`). -/
def sortInit (s : GoMap Bool × GoMap Int) (e : Sigma (fun _ : String => List String)) :
    GoMap Bool × GoMap Int :=
  if e.2.length = 0 then (s.1.insert e.1 true, s.2.insert e.1 (e.2.length : Int))
  else (s.1, s.2.insert e.1 (e.2.length : Int))

/-- Body of the second loop of `Sort`: `out[x] = append(out[x], node)` for each
parent `x` of `node`. -/
def sortOut (out : GoMap (List String)) (e : Sigma (fun _ : String => List String)) :
    GoMap (List String) :=
  e.2.foldl (fun out x => out.insert x ((out.lookup x).getD [] ++ [e.1])) out

/-- The scan `h := -1; for _, dep := range graph[node] { if h < height[dep] { h = height[dep] } }`. -/
def sortScan (height : GoMap Int) (deps : List String) : Int :=
  deps.foldl (fun h dep =>
    if h < (height.lookup dep).getD 0 then (height.lookup dep).getD 0 else h) (-1)

/-- Body of `for _, x := range out[node]`. -/
def sortRelax (node : String) (s : GoMap Bool × GoMap Int) (x : String) :
    GoMap Bool × GoMap Int :=
  let inc := s.2.insert x ((s.2.lookup x).getD 0 - 1)
  if (inc.lookup x).getD 0 = 0 then (s.1.insert x true, inc.erase node) else (s.1, inc)

/-- Body of the worklist loop of `Sort` for the entry `node` of `todo`. -/
def sortVisit (graph : Graph) (out : GoMap (List String)) (node : String) (s : SortState) :
    SortState :=
  let todo := s.todo.erase node
  let inc := s.inc.erase node
  let height := s.height.insert node (sortScan s.height ((graph.lookup node).getD []) + 1)
  let maxHeight :=
    if (height.lookup node).getD 0 > s.maxHeight then (height.lookup node).getD 0
    else s.maxHeight
  let ti := ((out.lookup node).getD []).foldl (sortRelax node) (todo, inc)
  ⟨ti.1, ti.2, height, maxHeight⟩

/-- The worklist loop of `Sort`: `for len(todo) > 0 { for node := range todo {...} }`. -/
def sortLoop (graph : Graph) (out : GoMap (List String)) :
    Nat → List Nat → SortState → Option SortState
  | fuel, picks, s =>
    match s.todo.keys with
    | [] => some s
    | t :: ts =>
      match fuel with
      | 0 => none
      | fuel + 1 =>
        sortLoop graph out fuel picks.tail
          (sortVisit graph out ((t :: ts).getD (picks.headD 0 % (ts.length + 1)) t) s)

/-- Body of the last loop of `Sort`: `layers[h] = append(layers[h], node)`;
`none` is the index-out-of-range panic. -/
def sortBucket (layers : Option (List (List String))) (e : Sigma (fun _ : String => Int)) :
    Option (List (List String)) :=
  match layers with
  | none => none
  | some ls =>
    if 0 ≤ e.2 ∧ e.2.toNat < ls.length then
      some (ls.set e.2.toNat (ls.getD e.2.toNat [] ++ [e.1]))
    else none

/-- Iteration orders of the map ranges of one call of `Sort`. -/
structure SortSched where
  first : List Nat
  second : List Nat
  picks : List Nat
  last : List Nat

/-- Go `func Sort(graph map[string][]string) ([][]string, error)` (`Sort` is a reserved word
of Lean, hence the name). -/
def GoSort (σ : SortSched) (fuel : Nat) (graph : Graph) :
    Run (Option (List (List String)) × Option String) :=
  let ti := (rangeOrder σ.first graph.entries).foldl sortInit (∅, ∅)
  let out := (rangeOrder σ.second graph.entries).foldl sortOut ∅
  match sortLoop graph out fuel σ.picks ⟨ti.1, ti.2, ∅, 0⟩ with
  | none => .outOfFuel
  | some s =>
    match (rangeOrder σ.last s.height.entries).foldl sortBucket
        (some (List.replicate (s.maxHeight + 1).toNat [])) with
    | none => .panicked
    | some layers =>
      if s.inc.entries.length > 0 then .done (none, some "graph has cycles")
      else .done (some layers, none)

/-! ## Plot -/

/-- Local variables of the node loop of `Plot`: the `id` map and the chunks
written to the buffer so far. -/
structure PlotState where
  id : GoMap Int
  buff : List String

/-- Body of `for _, node := range layer` in `Plot`. -/
def plotNode (lower : String → String) (r : Register) (highlight : GoMap Bool)
    (s : PlotState) (node : String) : PlotState :=
  let id := s.id.insert node (s.id.entries.length : Int)
  let label :=
    match r.Lookup node with
    | some grex => node ++ "\\n" ++ grex.Originator ++ "\\n" ++ grex.Date
    | none => node
  let style := if (highlight.lookup (lower node)).getD false then " style=filled" else ""
  ⟨id, s.buff ++ ["\t\tN" ++ toString ((id.lookup node).getD 0) ++ " [label=\"" ++ label
    ++ "\"" ++ style ++ "]\n"]⟩

/-- Body of `for _, layer := range layers` in `Plot`. -/
def plotLayer (lower : String → String) (r : Register) (highlight : GoMap Bool)
    (s : PlotState) (layer : List String) : PlotState :=
  let s1 : PlotState := ⟨s.id, s.buff ++ ["\t\x7brank=same;\n"]⟩
  let s2 := layer.foldl (plotNode lower r highlight) s1
  ⟨s2.id, s2.buff ++ ["\t\x7d\n"]⟩

/-- Body of `for node, deps := range graph` in `Plot`: one edge line per parent. -/
def plotEdges (id : GoMap Int) (buff : List String)
    (e : Sigma (fun _ : String => List String)) : List String :=
  e.2.foldl (fun buff dep =>
    buff ++ ["\tN" ++ toString ((id.lookup dep).getD 0) ++ " -> N"
      ++ toString ((id.lookup e.1).getD 0) ++ "\n"]) buff

/-- The chunks `Plot` writes to its buffer, in order, for the layers `layers`. -/
def plotChunks (lower : String → String) (edgeOrder : List Nat) (r : Register) (graph : Graph)
    (sources : List String) (layers : List (List String)) : List String :=
  let highlight := sources.foldl (fun (hl : GoMap Bool) name => hl.insert (lower name) true) ∅
  let s := layers.foldl (plotLayer lower r highlight) ⟨∅, ["digraph \x7b\n"]⟩
  (rangeOrder edgeOrder graph.entries).foldl (plotEdges s.id) s.buff ++ ["\x7d\n"]

/-- Go `func (r Register) Plot(graph map[string][]string, sources []string) (output string, err error)`. -/
def Register.Plot (lower : String → String) (σ : SortSched) (edgeOrder : List Nat) (fuel : Nat)
    (r : Register) (graph : Graph) (sources : List String) : Run (String × Option String) :=
  match GoSort σ fuel graph with
  | .outOfFuel => .outOfFuel
  | .panicked => .panicked
  | .done (_, some err) => .done ("", some err)
  | .done (layers, none) =>
    .done (String.join (plotChunks lower edgeOrder r graph sources (layers.getD [])), none)

/-! ## The name list of `plotHandler` (`main.go`) -/

/-- Go `unicode.IsSpace`: the white space characters trimmed by `strings.TrimSpace`. -/
def goIsSpace (c : Char) : Bool :=
  c = '\t' || c = '\n' || c.val = 0x0B || c.val = 0x0C || c = '\r' || c = ' '
    || c.val = 0x85 || c.val = 0xA0 || c.val = 0x1680
    || (0x2000 ≤ c.val && c.val ≤ 0x200A) || c.val = 0x2028 || c.val = 0x2029
    || c.val = 0x202F || c.val = 0x205F || c.val = 0x3000

/-- Go `strings.TrimSpace`: drop the leading and the trailing white space. -/
def trimSpace (s : String) : String :=
  String.mk ((s.data.dropWhile goIsSpace).reverse.dropWhile goIsSpace).reverse

/-- Go `strings.Split(s, ",")` on the characters of `s`: the pieces between commas
(one more piece than there are commas). -/
def splitCommaChars : List Char → List (List Char)
  | [] => [[]]
  | c :: cs =>
    if c = ',' then [] :: splitCommaChars cs
    else
      match splitCommaChars cs with
      | [] => [[c]]
      | w :: ws => (c :: w) :: ws

/-- Go `strings.Split(s, ",")`. -/
def splitComma (s : String) : List String := (splitCommaChars s.data).map String.mk

/-- Body of the loop of `plotHandler` over the pieces of the form value: trim
the piece and keep it if it is non-empty and not yet `seen`. -/
def handlerStep (s : List String × GoMap Bool) (piece : String) : List String × GoMap Bool :=
  if (trimSpace piece).utf8ByteSize > 0 ∧ (s.2.lookup (trimSpace piece)).getD false = false then
    (s.1 ++ [trimSpace piece], s.2.insert (trimSpace piece) true)
  else s

/-- The list `names` that `plotHandler` builds from the form value `grexes`. -/
def handlerNames (formNames : String) : List String :=
  ((splitComma formNames).foldl handlerStep ([], ∅)).1

/-! ## Notions used to state the properties -/

/-- Index of the first layer that contains `n`. -/
def layerOf (n : String) : List (List String) → Option Nat
  | [] => none
  | l :: ls => if n ∈ l then some 0 else (layerOf n ls).map (· + 1)

/-- Build a graph from a list of entries (later entries override earlier ones). -/
def mkGraph (es : List (String × List String)) : Graph :=
  es.foldl (fun g e => g.insert e.1 e.2) ∅

/-- Build a register storing each record under its own name. -/
def mkRegister (gs : List Grex) : Register :=
  ⟨gs.foldl (fun m g => m.insert g.Name g) ∅⟩

/-- The parent list `graph[n]` (the zero value, empty, when `n` is not a key). -/
def parents (graph : Graph) (n : String) : List String := (graph.lookup n).getD []

/-- An edge parent→child of the graph: `child` is a key and `parent` is listed in
`graph[child]`. -/
def Edge (graph : Graph) (parent child : String) : Prop := parent ∈ parents graph child

/-- The graph contains a cycle: some node reaches itself by following one or
more parent references. -/
def HasCycle (graph : Graph) : Prop := ∃ k, Relation.TransGen (Edge graph) k k

/-- The graph is closed: every name listed as a parent is itself a key. -/
def Closed (graph : Graph) : Prop := ∀ n p, p ∈ parents graph n → p ∈ graph

/-- Invariant of the worklist loop of `Sort`.  `pending` lists the children of
the node being visited whose counter has not been decremented yet (empty
between two iterations of the loop). -/
structure SortInv (graph : Graph) (pending : List String) (todo : GoMap Bool)
    (inc height : GoMap Int) (maxHeight : Int) : Prop where
  keys : ∀ x, x ∈ graph ↔ (x ∈ inc ∨ x ∈ height)
  disj : ∀ x, x ∈ inc → x ∉ height
  inc_eq : ∀ x v, inc.lookup x = some v →
    v = (((parents graph x).filter (fun p => decide (p ∉ height))).length : Int)
      + (pending.count x : Int)
  todo_iff : ∀ x, x ∈ todo ↔ inc.lookup x = some 0
  pend : ∀ x ∈ pending, x ∈ inc
  height_eq : ∀ x h, height.lookup x = some h →
    (∀ p ∈ parents graph x, p ∈ height) ∧ h = sortScan height (parents graph x) + 1
  bound : ∀ x h, height.lookup x = some h → h ≤ maxHeight
  attained : maxHeight = 0 ∨ ∃ x, height.lookup x = some maxHeight

/-- The largest layer index among the nodes `deps` (0 when there is none). -/
def maxLayer (layers : List (List String)) (deps : List String) : Nat :=
  (deps.map (fun p => (layerOf p layers).getD 0)).foldr max 0

/-- The schedule in which every `range` visits the entries in stored order. -/
def sched0 : SortSched := ⟨[], [], [], []⟩

/-- The graph `{A: [B, C], B: [], C: []}`. -/
def graphABC : Graph := mkGraph [("A", ["B", "C"]), ("B", []), ("C", [])]

/-- The graph `{A: [A, X], X: []}`, with a self-loop on `A`. -/
def graphLoop : Graph := mkGraph [("A", ["A", "X"]), ("X", [])]

/-- Every record of the register is stored under its own name (what
`ReadRegister` builds: `grexes[grex.Name] = grex`). -/
def RegWF (r : Register) : Prop := ∀ k g, r.Grexes.lookup k = some g → g.Name = k

/-- The query name `q` has a case-insensitive match in the register. -/
def hasMatch (lower : String → String) (r : Register) (q : String) : Bool :=
  r.Grexes.entries.any (fun e => decide (lower q = lower e.2.Name))

/-- The canonical names of the records `FuzzyLookup` returns for the query
names, the successive calls ranging over the register in the orders `os`. -/
def fuzzyNames (lower : String → String) (r : Register) :
    List (List Nat) → List String → List String
  | _, [] => []
  | os, q :: qs =>
    match r.FuzzyLookup lower (os.headD []) q with
    | some g => g.Name :: fuzzyNames lower r os.tail qs
    | none => fuzzyNames lower r os.tail qs

/-- The ancestry closure of `roots`: the smallest set of names that contains
`roots` and, with the name of a register record, that record's `Seed` and
`Pollen` references. -/
inductive Closure (r : Register) (roots : List String) : String → Prop where
  | root {n : String} : n ∈ roots → Closure r roots n
  | seed {n : String} {g : Grex} : Closure r roots n → r.Lookup n = some g →
      Closure r roots g.Seed
  | pollen {n : String} {g : Grex} : Closure r roots n → r.Lookup n = some g →
      Closure r roots g.Pollen

/-- Invariant of the worklist loop of `Pull` on a register storing each record
under its own name; `roots` are the names put in `todo` by the first loop. -/
structure PullInv (r : Register) (roots : List String) (s : PullState) : Prop where
  graph_reg : ∀ n deps, s.graph.lookup n = some deps →
    ∃ g, r.Lookup n = some g ∧ deps = [g.Seed, g.Pollen]
  todo_reg : ∀ n, n ∈ s.todo → (∃ g, r.Lookup n = some g) ∧ n ∉ s.graph
  unknown_reg : ∀ n, n ∈ s.unknown → r.Lookup n = none
  closed : ∀ n g, n ∈ s.graph → r.Lookup n = some g → ∀ p, p = g.Seed ∨ p = g.Pollen →
    p ∈ s.graph ∨ p ∈ s.todo ∨ p ∈ s.unknown
  roots_in : ∀ n ∈ roots, n ∈ s.graph ∨ n ∈ s.todo
  sound : ∀ n, n ∈ s.graph ∨ n ∈ s.todo ∨ n ∈ s.unknown → Closure r roots n

/-- Lower-casing of ASCII letters, an instance of `strings.ToLower` on ASCII
names. -/
def asciiLower (s : String) : String := String.mk (s.data.map Char.toLower)

/-- Every query name matches at most one record name of the register up to case. -/
def UniqueMatch (lower : String → String) (r : Register) (qs : List String) : Prop :=
  ∀ q ∈ qs, ∀ e1 ∈ r.Grexes.entries, ∀ e2 ∈ r.Grexes.entries,
    lower q = lower e1.2.Name → lower q = lower e2.2.Name → e1.2.Name = e2.2.Name

/-- The schedule of `Pull` in which every `range` visits the entries in stored order. -/
def pullSched0 : PullSched := ⟨[], [], []⟩

/-- The register with the single record `A` (seed `B`, pollen `C`), whose
parents are not registered. -/
def regRoot : Register := mkRegister [⟨"A", "B", "C", "O", "1900"⟩]

/-- The register with the single record `A` (seed `A`, pollen `X`): `A` is its
own parent. -/
def regLoop : Register := mkRegister [⟨"A", "A", "X", "", ""⟩]

/-- A register with two records whose names differ only by case. -/
def regCase : Register := mkRegister [⟨"Ab", "X", "", "", ""⟩, ⟨"ab", "Y", "", "", ""⟩]

/-- A register that does not store its records under their own names: the
records named `P2` and `Q2` are filed under the keys `P` and `Q`. -/
def regMisfiled : Register :=
  ⟨(((∅ : GoMap Grex).insert "A" ⟨"A", "P", "Q", "", ""⟩).insert "P"
    ⟨"P2", "", "", "", ""⟩).insert "Q" ⟨"Q2", "", "", "", ""⟩⟩

/-! ## The expected shape of the output of `Plot` -/

/-- The label of a node declaration: name, originator and date for a register
record, the bare name otherwise. -/
def plotLabel (r : Register) (node : String) : String :=
  match r.Lookup node with
  | some grex => node ++ "\\n" ++ grex.Originator ++ "\\n" ++ grex.Date
  | none => node

/-- The declaration of `node` with identifier `k`; a highlighted node carries
the attribute ` style=filled`. -/
def nodeDecl (r : Register) (k : Nat) (node : String) (highlighted : Bool) : String :=
  "\t\tN" ++ toString k ++ " [label=\"" ++ plotLabel r node ++ "\""
    ++ (if highlighted then " style=filled" else "") ++ "]\n"

/-- The edge line from the node with identifier `parentId` to the one with
identifier `childId`. -/
def edgeLine (parentId childId : Nat) : String :=
  "\tN" ++ toString parentId ++ " -> N" ++ toString childId ++ "\n"

/-- The name `node` matches one of the source names up to case. -/
def isSource (lower : String → String) (sources : List String) (node : String) : Bool :=
  sources.any (fun s => decide (lower s = lower node))

/-- Number the nodes of the layers consecutively from `k`, layer by layer and
node by node within a layer. -/
def numberLayers : Nat → List (List String) → List (List (Nat × String))
  | _, [] => []
  | k, layer :: rest => layer.enumFrom k :: numberLayers (k + layer.length) rest

/-- One block per layer: the grouping directive, the declarations of the
numbered nodes of the layer, the closing brace. -/
def layerBlocks (r : Register) (highlighted : String → Bool)
    (numbered : List (List (Nat × String))) : List String :=
  numbered.flatMap (fun layer =>
    ["\t\x7brank=same;\n"] ++ layer.map (fun kn => nodeDecl r kn.1 kn.2 (highlighted kn.2))
      ++ ["\t\x7d\n"])

/-- One edge line per entry of a parent list: for each node of `es` and each
parent listed for it, the line from the parent's identifier to the node's, an
identifier being the position in `nodes`. -/
def edgeLines (nodes : List String) (es : List (Sigma (fun _ : String => List String))) :
    List String :=
  es.flatMap (fun e => e.2.map (fun dep => edgeLine (nodes.indexOf dep) (nodes.indexOf e.1)))

/-- The register with exactly the records `A` (seed `B`, pollen `C`), `B` and `C`
(no parents recorded: both fields empty). -/
def regABC : Register :=
  mkRegister [⟨"A", "B", "C", "", ""⟩, ⟨"B", "", "", "", ""⟩, ⟨"C", "", "", "", ""⟩]

/-- The graph `{A: [B, C], B: ["", ""], C: ["", ""], "": []}`. -/
def graphABCFull : Graph :=
  mkGraph [("A", ["B", "C"]), ("C", ["", ""]), ("B", ["", ""]), ("", [])]

/-- The graph `{A: [X]}`: `A` lists a parent that is not a key; there is no cycle. -/
def graphOpen : Graph := mkGraph [("A", ["X"])]

/-- The graph `{A: [B, B], B: []}`: `A` lists the same parent as seed and as pollen. -/
def graphSelfing : Graph := mkGraph [("A", ["B", "B"]), ("B", [])]

/-- The parent→child pairs of the entries `es`, one per entry of a parent list:
for each node and each parent listed for it, the pair of the parent and the
node. -/
def edgePairs (es : List (Sigma (fun _ : String => List String))) : List (String × String) :=
  es.flatMap (fun e => e.2.map (fun dep => (dep, e.1)))

/-! # Theorems -/

/-! ## Go maps -/

theorem lookup_insert_ite {V : Type} (m : GoMap V) (a x : String) (b : V) :
    (m.insert a b).lookup x = if x = a then some b else m.lookup x := by
  by_cases h : x = a
  · subst h; simp [AList.lookup_insert]
  · simp [h, AList.lookup_insert_ne h]

theorem lookup_erase_ite {V : Type} (m : GoMap V) (a x : String) :
    (m.erase a).lookup x = if x = a then none else m.lookup x := by
  by_cases h : x = a
  · subst h; simp [AList.lookup_erase]
  · simp [h, AList.lookup_erase_ne h]

theorem mem_iff_lookup_ne_none {V : Type} (m : GoMap V) (x : String) :
    x ∈ m ↔ m.lookup x ≠ none := by
  rw [Ne, AList.lookup_eq_none]; simp

theorem mem_of_lookup_eq_some {V : Type} {m : GoMap V} {x : String} {v : V}
    (h : m.lookup x = some v) : x ∈ m := by
  rw [mem_iff_lookup_ne_none, h]; simp

theorem exists_lookup_of_mem {V : Type} {m : GoMap V} {x : String} (h : x ∈ m) :
    ∃ v, m.lookup x = some v := by
  rw [mem_iff_lookup_ne_none] at h
  exact Option.ne_none_iff_exists'.mp h

theorem keys_length_insert_of_mem {V : Type} {m : GoMap V} {a : String} (b : V) (h : a ∈ m) :
    (m.insert a b).keys.length = m.keys.length := by
  rw [AList.keys_insert, List.length_cons, List.length_erase_of_mem (AList.mem_keys.mp h)]
  have : 0 < m.keys.length := List.length_pos_of_mem (AList.mem_keys.mp h)
  omega

theorem keys_length_erase_of_mem {V : Type} {m : GoMap V} {a : String} (h : a ∈ m) :
    (m.erase a).keys.length + 1 = m.keys.length := by
  rw [AList.keys_erase, List.length_erase_of_mem (AList.mem_keys.mp h)]
  have : 0 < m.keys.length := List.length_pos_of_mem (AList.mem_keys.mp h)
  omega

theorem keys_erase_of_not_mem {V : Type} {m : GoMap V} {a : String} (h : a ∉ m) :
    (m.erase a).keys = m.keys := by
  rw [AList.keys_erase, List.erase_of_not_mem (fun h' => h (AList.mem_keys.mpr h'))]

theorem keys_eq_nil_iff {V : Type} (m : GoMap V) : m.keys = [] ↔ ∀ x, x ∉ m := by
  constructor
  · intro h x hx
    have := AList.mem_keys.mp hx
    rw [h] at this; simp at this
  · intro h
    apply List.eq_nil_iff_forall_not_mem.mpr
    intro x hx
    exact h x (AList.mem_keys.mpr hx)

theorem mem_entries_iff_lookup {V : Type} (m : GoMap V) (x : String) (v : V) :
    (⟨x, v⟩ : Sigma fun _ : String => V) ∈ m.entries ↔ m.lookup x = some v := by
  rw [← Option.mem_def, AList.mem_lookup_iff]

/-! ## Iteration order -/

theorem getD_cons_eraseIdx_perm {α : Type} :
    ∀ (l : List α) (i : Nat) (d : α), i < l.length → (l.getD i d :: l.eraseIdx i).Perm l
  | [], _, _, h => by simp at h
  | a :: l, 0, _, _ => by simp
  | a :: l, i + 1, d, h => by
    have ih := getD_cons_eraseIdx_perm l i d (by simpa using h)
    simp only [List.getD_cons_succ, List.eraseIdx_cons_succ]
    exact (List.Perm.swap a (l.getD i d) (l.eraseIdx i)).trans (ih.cons a)

theorem rangeOrder_perm {α : Type} : ∀ (o : List Nat) (xs : List α), (rangeOrder o xs).Perm xs
  | [], [] => by simp [rangeOrder]
  | _ :: _, [] => by simp [rangeOrder]
  | [], x :: xs => by simp [rangeOrder]
  | c :: cs, x :: xs => by
    have hlt : c % (xs.length + 1) < (x :: xs).length := by
      simpa using Nat.mod_lt c (Nat.succ_pos xs.length)
    have h1 := rangeOrder_perm cs ((x :: xs).eraseIdx (c % (xs.length + 1)))
    have h2 := getD_cons_eraseIdx_perm (x :: xs) (c % (xs.length + 1)) x hlt
    simp only [rangeOrder]
    exact (h1.cons _).trans h2

theorem getD_mod_mem {α : Type} (t : α) (ts : List α) (c : Nat) :
    (t :: ts).getD (c % (ts.length + 1)) t ∈ t :: ts := by
  have hlt : c % (ts.length + 1) < (t :: ts).length := by
    simpa using Nat.mod_lt c (Nat.succ_pos ts.length)
  rw [List.getD_eq_getElem _ _ hlt]
  exact List.getElem_mem _

theorem rangeOrder_entries_nodupKeys {V : Type} (o : List Nat) (m : GoMap V) :
    (rangeOrder o m.entries).NodupKeys :=
  (List.perm_nodupKeys (rangeOrder_perm o m.entries)).mpr m.nodupKeys

theorem mem_rangeOrder_entries {V : Type} (o : List Nat) (m : GoMap V) (x : String) (v : V) :
    (⟨x, v⟩ : Sigma fun _ : String => V) ∈ rangeOrder o m.entries ↔ m.lookup x = some v := by
  rw [(rangeOrder_perm o m.entries).mem_iff, mem_entries_iff_lookup]

/-- Every order of the entries is the visiting order of some oracle. -/
theorem rangeOrder_complete {α : Type} :
    ∀ (ys xs : List α), ys.Perm xs → ∃ o, rangeOrder o xs = ys := by
  intro ys
  induction ys with
  | nil =>
    intro xs h
    have : xs = [] := List.Perm.eq_nil h.symm
    subst this
    exact ⟨[], rfl⟩
  | cons y ys ih =>
    intro xs h
    have hy : y ∈ xs := h.subset (List.mem_cons_self _ _)
    obtain ⟨i, hi, hget⟩ := List.mem_iff_getElem.mp hy
    cases xs with
    | nil => simp at hy
    | cons x xs =>
      have hmod : i % (xs.length + 1) = i := Nat.mod_eq_of_lt (by simpa using hi)
      have hgetD : (x :: xs).getD i x = y := by
        rw [List.getD_eq_getElem _ _ hi, hget]
      have hperm := getD_cons_eraseIdx_perm (x :: xs) i x hi
      rw [hgetD] at hperm
      have hrest : ys.Perm ((x :: xs).eraseIdx i) :=
        List.Perm.cons_inv (h.trans hperm.symm)
      obtain ⟨cs, hcs⟩ := ih _ hrest
      refine ⟨i :: cs, ?_⟩
      simp only [rangeOrder, hmod, hgetD, hcs]

/-! ## The two initial loops of `Sort` -/

theorem sortInit_foldl (es : List (Sigma fun _ : String => List String)) :
    ∀ (s : GoMap Bool × GoMap Int), es.NodupKeys →
      (∀ x, (es.foldl sortInit s).2.lookup x =
        (match es.dlookup x with
          | some deps => some (deps.length : Int)
          | none => s.2.lookup x)) ∧
      (∀ x, x ∈ (es.foldl sortInit s).1 ↔ es.dlookup x = some [] ∨ x ∈ s.1) := by
  induction es with
  | nil => intro s _; simp
  | cons e es ih =>
    intro s hnd
    obtain ⟨a, b⟩ := e
    rw [List.nodupKeys_cons] at hnd
    obtain ⟨ha, hnd⟩ := hnd
    have hnone : es.dlookup a = none := List.dlookup_eq_none.mpr ha
    obtain ⟨ih1, ih2⟩ := ih (sortInit s ⟨a, b⟩) hnd
    simp only [List.foldl_cons]
    refine ⟨fun x => ?_, fun x => ?_⟩
    · rw [ih1 x]
      by_cases hx : x = a
      · subst hx
        rw [hnone, List.dlookup_cons_eq]
        simp only [sortInit]
        split <;> simp [lookup_insert_ite]
      · rw [List.dlookup_cons_ne _ _ hx]
        cases es.dlookup x with
        | some d => rfl
        | none =>
          simp only [sortInit]
          split <;> simp [lookup_insert_ite, hx]
    · rw [ih2 x]
      by_cases hx : x = a
      · subst hx
        rw [hnone, List.dlookup_cons_eq]
        simp only [sortInit]
        split
        · rename_i h0
          have : b = [] := List.length_eq_zero.mp h0
          simp [AList.mem_insert, this]
        · rename_i h0
          have : b ≠ [] := fun h => h0 (by simp [h])
          simp [this]
      · rw [List.dlookup_cons_ne _ _ hx]
        simp only [sortInit]
        split <;> simp [AList.mem_insert, hx]

theorem sortOut_inner (n : String) (ds : List String) :
    ∀ (out : GoMap (List String)) (p m : String),
      List.count m (((ds.foldl (fun out x => out.insert x ((out.lookup x).getD [] ++ [n]))
        out).lookup p).getD []) =
      List.count m ((out.lookup p).getD []) + (if m = n then List.count p ds else 0) := by
  induction ds with
  | nil => intro out p m; simp
  | cons d ds ih =>
    intro out p m
    simp only [List.foldl_cons]
    rw [ih, lookup_insert_ite]
    by_cases hp : p = d
    · subst hp
      by_cases hm : m = n
      · subst hm; simp [List.count_append, List.count_singleton]; omega
      · simp [List.count_append, List.count_singleton, hm]
    · have hp' : ¬ d = p := fun h => hp h.symm
      by_cases hm : m = n
      · subst hm; simp [hp, List.count_cons, hp']
      · simp [hp, hm]

theorem sortOut_foldl (es : List (Sigma fun _ : String => List String)) :
    ∀ (out : GoMap (List String)), es.NodupKeys → ∀ p m,
      List.count m (((es.foldl sortOut out).lookup p).getD []) =
        List.count m ((out.lookup p).getD []) + List.count p ((es.dlookup m).getD []) := by
  induction es with
  | nil => intro out _ p m; simp
  | cons e es ih =>
    intro out hnd p m
    obtain ⟨a, b⟩ := e
    rw [List.nodupKeys_cons] at hnd
    obtain ⟨ha, hnd⟩ := hnd
    have hnone : es.dlookup a = none := List.dlookup_eq_none.mpr ha
    simp only [List.foldl_cons]
    rw [ih _ hnd, sortOut, sortOut_inner]
    by_cases hm : m = a
    · subst hm; simp [hnone, List.dlookup_cons_eq]
    · rw [List.dlookup_cons_ne _ _ hm]; simp [hm]

/-- The reverse adjacency computed by the second loop of `Sort`. -/
theorem sortOut_spec (o : List Nat) (graph : Graph) (p m : String) :
    List.count m ((((rangeOrder o graph.entries).foldl sortOut ∅).lookup p).getD []) =
      List.count p (parents graph m) := by
  rw [sortOut_foldl _ _ (rangeOrder_entries_nodupKeys o graph)]
  have : (rangeOrder o graph.entries).dlookup m = graph.lookup m :=
    List.perm_dlookup m (rangeOrder_entries_nodupKeys o graph) graph.nodupKeys
      (rangeOrder_perm o graph.entries)
  simp [this, parents]

theorem sortInit_spec (o : List Nat) (graph : Graph) :
    (∀ x, ((rangeOrder o graph.entries).foldl sortInit (∅, ∅)).2.lookup x =
      (graph.lookup x).map (fun deps => (deps.length : Int))) ∧
    (∀ x, x ∈ ((rangeOrder o graph.entries).foldl sortInit (∅, ∅)).1 ↔
      graph.lookup x = some []) := by
  obtain ⟨h1, h2⟩ := sortInit_foldl _ (∅, ∅) (rangeOrder_entries_nodupKeys o graph)
  have hd : ∀ x, (rangeOrder o graph.entries).dlookup x = graph.lookup x := fun x =>
    List.perm_dlookup x (rangeOrder_entries_nodupKeys o graph) graph.nodupKeys
      (rangeOrder_perm o graph.entries)
  refine ⟨fun x => ?_, fun x => ?_⟩
  · rw [h1 x, hd x]
    cases graph.lookup x <;> simp
  · rw [h2 x, hd x]; simp

/-! ## The worklist loop of `Sort` -/

theorem sortScan_foldl_ge (height : GoMap Int) (deps : List String) :
    ∀ h0 : Int, h0 ≤ deps.foldl (fun h dep =>
      if h < (height.lookup dep).getD 0 then (height.lookup dep).getD 0 else h) h0 := by
  induction deps with
  | nil => intro h0; simp
  | cons d ds ih =>
    intro h0
    simp only [List.foldl_cons]
    refine le_trans ?_ (ih _)
    split <;> omega

theorem sortScan_ge (height : GoMap Int) (deps : List String) : -1 ≤ sortScan height deps :=
  sortScan_foldl_ge height deps (-1)

theorem sortScan_congr (height height' : GoMap Int) (deps : List String)
    (h : ∀ p ∈ deps, height'.lookup p = height.lookup p) :
    sortScan height' deps = sortScan height deps := by
  unfold sortScan
  generalize (-1 : Int) = h0
  induction deps generalizing h0 with
  | nil => rfl
  | cons d ds ih =>
    simp only [List.foldl_cons]
    rw [h d (List.mem_cons_self _ _)]
    exact ih (fun p hp => h p (List.mem_cons_of_mem _ hp)) _

theorem filter_not_mem_insert {V : Type} (height : GoMap V) (node : String) (v : V)
    (hn : node ∉ height) (l : List String) :
    (l.filter (fun p => decide (p ∉ height))).length =
      (l.filter (fun p => decide (p ∉ height.insert node v))).length + l.count node := by
  induction l with
  | nil => simp
  | cons a l ih =>
    by_cases ha : a = node
    · subst ha
      have h1 : decide (a ∉ height) = true := by simpa using hn
      have h2 : decide (a ∉ height.insert a v) = false := by simp [AList.mem_insert]
      simp only [List.filter_cons, h1, h2, if_true, Bool.false_eq_true, if_false,
        List.length_cons, List.count_cons_self]
      omega
    · have hc : List.count node (a :: l) = List.count node l :=
        List.count_cons_of_ne (fun h => ha h.symm) l
      by_cases hh : a ∈ height
      · have h1 : decide (a ∉ height) = false := by simpa using hh
        have h2 : decide (a ∉ height.insert node v) = false := by
          simp [AList.mem_insert, hh]
        simp only [List.filter_cons, h1, h2, Bool.false_eq_true, if_false, hc]
        exact ih
      · have h1 : decide (a ∉ height) = true := by simpa using hh
        have h2 : decide (a ∉ height.insert node v) = true := by
          simp [AList.mem_insert, hh, ha]
        simp only [List.filter_cons, h1, h2, if_true, List.length_cons, hc]
        omega

theorem sortRelax_inv {graph : Graph} {x : String} {rest : List String} {todo : GoMap Bool}
    {inc height : GoMap Int} {mh : Int} (node : String)
    (inv : SortInv graph (x :: rest) todo inc height mh) (hnode : node ∉ inc) :
    SortInv graph rest (sortRelax node (todo, inc) x).1 (sortRelax node (todo, inc) x).2 height mh
      ∧ node ∉ (sortRelax node (todo, inc) x).2
      ∧ (sortRelax node (todo, inc) x).2.keys.length = inc.keys.length := by
  have hx : x ∈ inc := inv.pend x (List.mem_cons_self _ _)
  have hne : node ≠ x := fun h => hnode (h ▸ hx)
  obtain ⟨v, hv⟩ := exists_lookup_of_mem hx
  have hveq := inv.inc_eq x v hv
  have hvpos : 1 ≤ v := by
    rw [hveq, List.count_cons_self]; push_cast; omega
  have hnx : x ∉ todo := fun h => by
    have := (inv.todo_iff x).mp h
    rw [hv] at this
    simp at this; omega
  have hnode_none : inc.lookup node = none := AList.lookup_eq_none.mpr hnode
  have hlk : ∀ y, (sortRelax node (todo, inc) x).2.lookup y =
      if y = x then some (v - 1) else inc.lookup y := by
    intro y
    simp only [sortRelax, hv, Option.getD_some, lookup_insert_ite, if_true]
    split
    · simp only [lookup_erase_ite, lookup_insert_ite]
      by_cases hy : y = node
      · subst hy; simp [hne, hnode_none]
      · simp [hy]
    · simp only [lookup_insert_ite]
  have hmem : ∀ y, y ∈ (sortRelax node (todo, inc) x).2 ↔ y ∈ inc := by
    intro y
    rw [mem_iff_lookup_ne_none, mem_iff_lookup_ne_none, hlk y]
    by_cases hy : y = x
    · subst hy; simp [hv]
    · simp [hy]
  have htd : ∀ y, y ∈ (sortRelax node (todo, inc) x).1 ↔ (y = x ∧ v - 1 = 0) ∨ y ∈ todo := by
    intro y
    simp only [sortRelax, hv, Option.getD_some, lookup_insert_ite, if_true]
    split
    · rename_i h0; simp [AList.mem_insert, h0]
    · rename_i h0; simp [h0]
  refine ⟨⟨?_, ?_, ?_, ?_, ?_, inv.height_eq, inv.bound, inv.attained⟩, ?_, ?_⟩
  · intro y; rw [hmem y]; exact inv.keys y
  · intro y hy; exact inv.disj y ((hmem y).mp hy)
  · intro y w hw
    rw [hlk y] at hw
    by_cases hy : y = x
    · subst hy
      simp only [if_true, Option.some.injEq] at hw
      rw [← hw, hveq, List.count_cons_self]; push_cast; omega
    · simp only [hy, if_false] at hw
      have := inv.inc_eq y w hw
      rw [List.count_cons_of_ne hy] at this
      exact this
  · intro y
    rw [htd y, hlk y]
    by_cases hy : y = x
    · subst hy; simp [hnx]
    · simp [hy]; exact inv.todo_iff y
  · intro y hy
    exact (hmem y).mpr (inv.pend y (List.mem_cons_of_mem _ hy))
  · rw [hmem]; exact hnode
  · simp only [sortRelax, hv, Option.getD_some, lookup_insert_ite, if_true]
    have hnode' : node ∉ inc.insert x (v - 1) := by
      rw [AList.mem_insert]; simp [hne, hnode]
    split
    · rw [keys_erase_of_not_mem hnode', keys_length_insert_of_mem _ hx]
    · rw [keys_length_insert_of_mem _ hx]

theorem sortRelax_foldl_inv {graph : Graph} (node : String) {height : GoMap Int} {mh : Int} :
    ∀ (pending : List String) (todo : GoMap Bool) (inc : GoMap Int),
      SortInv graph pending todo inc height mh → node ∉ inc →
      SortInv graph [] (pending.foldl (sortRelax node) (todo, inc)).1
        (pending.foldl (sortRelax node) (todo, inc)).2 height mh
      ∧ (pending.foldl (sortRelax node) (todo, inc)).2.keys.length = inc.keys.length := by
  intro pending
  induction pending with
  | nil => intro todo inc inv _; exact ⟨inv, rfl⟩
  | cons x rest ih =>
    intro todo inc inv hnode
    obtain ⟨inv', hnode', hlen⟩ := sortRelax_inv node inv hnode
    obtain ⟨inv'', hlen'⟩ := ih _ _ inv' hnode'
    simp only [List.foldl_cons]
    exact ⟨inv'', hlen'.trans hlen⟩

theorem mem_graph_of_mem_parents {graph : Graph} {p x : String} (h : p ∈ parents graph x) :
    x ∈ graph := by
  rw [mem_iff_lookup_ne_none]
  intro hn
  simp [parents, hn] at h

theorem sortVisit_inv {graph : Graph} {out : GoMap (List String)} {s : SortState}
    (hout : ∀ p m, List.count m ((out.lookup p).getD []) = List.count p (parents graph m))
    (inv : SortInv graph [] s.todo s.inc s.height s.maxHeight) {node : String}
    (hnode : node ∈ s.todo) :
    SortInv graph [] (sortVisit graph out node s).todo (sortVisit graph out node s).inc
        (sortVisit graph out node s).height (sortVisit graph out node s).maxHeight
      ∧ (sortVisit graph out node s).inc.keys.length + 1 = s.inc.keys.length := by
  have hinc0 : s.inc.lookup node = some 0 := (inv.todo_iff node).mp hnode
  have hninc : node ∈ s.inc := mem_of_lookup_eq_some hinc0
  have hnh : node ∉ s.height := inv.disj node hninc
  have hpar : ∀ p ∈ parents graph node, p ∈ s.height := by
    intro p hp
    have h0 := inv.inc_eq node 0 hinc0
    simp only [List.count_nil, Nat.cast_zero, add_zero] at h0
    have h1 : (List.filter (fun p => decide (p ∉ s.height)) (parents graph node)) = [] := by
      apply List.length_eq_zero.mp
      exact_mod_cast h0.symm
    by_contra hc
    have : p ∈ List.filter (fun p => decide (p ∉ s.height)) (parents graph node) := by
      simp [List.mem_filter, hp, hc]
    rw [h1] at this
    simp at this
  have hnself : node ∉ parents graph node := fun h => hnh (hpar node h)
  set hv := sortScan s.height (parents graph node) + 1 with hvdef
  have hlkh : ∀ y, (s.height.insert node hv).lookup y =
      if y = node then some hv else s.height.lookup y := fun y => lookup_insert_ite _ _ _ _
  have hcongr : ∀ x, (∀ p ∈ parents graph x, p ∈ s.height) →
      sortScan (s.height.insert node hv) (parents graph x) = sortScan s.height (parents graph x) := by
    intro x hx
    apply sortScan_congr
    intro p hp
    have : p ≠ node := fun h => hnh (h ▸ hx p hp)
    rw [hlkh]; simp [this]
  have hpre : SortInv graph ((out.lookup node).getD []) (s.todo.erase node) (s.inc.erase node)
      (s.height.insert node hv)
      (if ((s.height.insert node hv).lookup node).getD 0 > s.maxHeight
        then ((s.height.insert node hv).lookup node).getD 0 else s.maxHeight) := by
    refine ⟨?_, ?_, ?_, ?_, ?_, ?_, ?_, ?_⟩
    · intro x
      rw [inv.keys x, AList.mem_erase, AList.mem_insert]
      by_cases hx : x = node
      · subst hx; simp [hninc]
      · simp [hx]
    · intro x hx
      rw [AList.mem_erase] at hx
      rw [AList.mem_insert]
      simp [hx.1, inv.disj x hx.2]
    · intro x v hxv
      rw [lookup_erase_ite] at hxv
      by_cases hx : x = node
      · simp [hx] at hxv
      · simp only [hx, if_false] at hxv
        have := inv.inc_eq x v hxv
        simp only [List.count_nil, Nat.cast_zero, add_zero] at this
        rw [this, filter_not_mem_insert s.height node hv hnh, hout node x]
        push_cast; rfl
    · intro x
      rw [AList.mem_erase, lookup_erase_ite, inv.todo_iff x]
      by_cases hx : x = node
      · simp [hx]
      · simp [hx]
    · intro x hx
      have hcnt : 0 < List.count x ((out.lookup node).getD []) := List.count_pos_iff.mpr hx
      rw [hout node x] at hcnt
      have hmem : node ∈ parents graph x := List.count_pos_iff.mp hcnt
      have hxg : x ∈ graph := mem_graph_of_mem_parents hmem
      have hxne : x ≠ node := fun h => hnself (h ▸ hmem)
      rw [AList.mem_erase]
      refine ⟨hxne, ?_⟩
      rcases (inv.keys x).mp hxg with h | h
      · exact h
      · obtain ⟨w, hw⟩ := exists_lookup_of_mem h
        exact absurd ((inv.height_eq x w hw).1 node hmem) hnh
    · intro x h hxh
      rw [hlkh] at hxh
      by_cases hx : x = node
      · subst hx
        simp only [if_true, Option.some.injEq] at hxh
        refine ⟨fun p hp => ?_, ?_⟩
        · rw [AList.mem_insert]; exact Or.inr (hpar p hp)
        · rw [hcongr x hpar, ← hxh]
      · simp only [hx, if_false] at hxh
        obtain ⟨h1, h2⟩ := inv.height_eq x h hxh
        refine ⟨fun p hp => ?_, ?_⟩
        · rw [AList.mem_insert]; exact Or.inr (h1 p hp)
        · rw [hcongr x h1, h2]
    · intro x h hxh
      rw [hlkh] at hxh
      simp only [hlkh, if_true, Option.getD_some]
      by_cases hx : x = node
      · simp only [hx, if_true, Option.some.injEq] at hxh
        subst hxh
        split <;> omega
      · simp only [hx, if_false] at hxh
        have := inv.bound x h hxh
        split <;> omega
    · simp only [hlkh, if_true, Option.getD_some]
      split
      · exact Or.inr ⟨node, by simp⟩
      · rcases inv.attained with h | ⟨x, hx⟩
        · exact Or.inl h
        · refine Or.inr ⟨x, ?_⟩
          have : x ≠ node := fun h => hnh (h ▸ mem_of_lookup_eq_some hx)
          simp [this, hx]
  have hnode' : node ∉ s.inc.erase node := by
    rw [AList.mem_erase]; simp
  obtain ⟨h1, h2⟩ := sortRelax_foldl_inv node _ _ _ hpre hnode'
  refine ⟨h1, ?_⟩
  show (List.foldl (sortRelax node) (s.todo.erase node, s.inc.erase node)
    ((out.lookup node).getD [])).2.keys.length + 1 = s.inc.keys.length
  rw [h2, keys_length_erase_of_mem hninc]

theorem sortLoop_inv {graph : Graph} {out : GoMap (List String)}
    (hout : ∀ p m, List.count m ((out.lookup p).getD []) = List.count p (parents graph m)) :
    ∀ (fuel : Nat) (picks : List Nat) (s s' : SortState),
      SortInv graph [] s.todo s.inc s.height s.maxHeight →
      sortLoop graph out fuel picks s = some s' →
      SortInv graph [] s'.todo s'.inc s'.height s'.maxHeight ∧ s'.todo.keys = [] := by
  intro fuel
  induction fuel with
  | zero =>
    intro picks s s' inv h
    unfold sortLoop at h
    split at h
    · rename_i hk
      simp only [Option.some.injEq] at h
      subst h
      exact ⟨inv, hk⟩
    · simp at h
  | succ fuel ih =>
    intro picks s s' inv h
    unfold sortLoop at h
    split at h
    · rename_i hk
      simp only [Option.some.injEq] at h
      subst h
      exact ⟨inv, hk⟩
    · rename_i t ts hk
      have hmem : (t :: ts).getD (picks.headD 0 % (ts.length + 1)) t ∈ s.todo := by
        rw [AList.mem_keys, hk]; exact getD_mod_mem t ts _
      exact ih _ _ _ (sortVisit_inv hout inv hmem).1 h

theorem sortLoop_terminates {graph : Graph} {out : GoMap (List String)}
    (hout : ∀ p m, List.count m ((out.lookup p).getD []) = List.count p (parents graph m)) :
    ∀ (fuel : Nat) (picks : List Nat) (s : SortState),
      SortInv graph [] s.todo s.inc s.height s.maxHeight →
      s.inc.keys.length ≤ fuel →
      ∃ s', sortLoop graph out fuel picks s = some s' := by
  intro fuel
  induction fuel with
  | zero =>
    intro picks s inv hlen
    unfold sortLoop
    split
    · exact ⟨s, rfl⟩
    · rename_i t ts hk
      exfalso
      have ht : t ∈ s.todo := by rw [AList.mem_keys, hk]; simp
      have := mem_of_lookup_eq_some ((inv.todo_iff t).mp ht)
      have := List.length_pos_of_mem (AList.mem_keys.mp this)
      omega
  | succ fuel ih =>
    intro picks s inv hlen
    unfold sortLoop
    split
    · exact ⟨s, rfl⟩
    · rename_i t ts hk
      have hmem : (t :: ts).getD (picks.headD 0 % (ts.length + 1)) t ∈ s.todo := by
        rw [AList.mem_keys, hk]; exact getD_mod_mem t ts _
      obtain ⟨h1, h2⟩ := sortVisit_inv hout inv hmem
      exact ih _ _ h1 (by omega)

theorem sortInit_inv (o : List Nat) (graph : Graph) :
    SortInv graph [] ((rangeOrder o graph.entries).foldl sortInit (∅, ∅)).1
      ((rangeOrder o graph.entries).foldl sortInit (∅, ∅)).2 ∅ 0 := by
  obtain ⟨h1, h2⟩ := sortInit_spec o graph
  have hmem : ∀ x, x ∈ ((rangeOrder o graph.entries).foldl sortInit (∅, ∅)).2 ↔ x ∈ graph := by
    intro x
    rw [mem_iff_lookup_ne_none, mem_iff_lookup_ne_none, h1 x]
    cases graph.lookup x <;> simp
  refine ⟨?_, ?_, ?_, ?_, ?_, ?_, ?_, Or.inl rfl⟩
  · intro x; rw [hmem x]; simp
  · intro x _; exact AList.not_mem_empty x
  · intro x v hv
    rw [h1 x] at hv
    cases hg : graph.lookup x with
    | none => simp [hg] at hv
    | some deps =>
      simp only [hg, Option.map_some', Option.some.injEq] at hv
      have : (parents graph x).filter (fun p => decide (p ∉ (∅ : GoMap Int))) = deps := by
        simp [parents, hg]
      rw [this, ← hv]; simp
  · intro x
    rw [h2 x, h1 x]
    cases hg : graph.lookup x with
    | none => simp
    | some deps => simp
  · intro x hx; simp at hx
  · intro x h hx; simp at hx
  · intro x h hx; simp at hx

/-! ## The bucketing loop of `Sort` -/

theorem flatten_set_perm (n : String) :
    ∀ (ls : List (List String)) (k : Nat), k < ls.length →
      (ls.set k (ls.getD k [] ++ [n])).flatten.Perm (ls.flatten ++ [n])
  | [], _, h => by simp at h
  | l :: ls, 0, _ => by
    simp only [List.set_cons_zero, List.getD_cons_zero, List.flatten_cons, List.append_assoc]
    exact List.Perm.append_left l List.perm_append_comm
  | l :: ls, k + 1, h => by
    have ih := flatten_set_perm n ls k (by simpa using h)
    simp only [List.set_cons_succ, List.getD_cons_succ, List.flatten_cons, List.append_assoc]
    exact List.Perm.append_left l ih

theorem getD_set_append (n : String) (ls : List (List String)) (k i : Nat) (h : k < ls.length) :
    (ls.set k (ls.getD k [] ++ [n])).getD i [] =
      if i = k then ls.getD k [] ++ [n] else ls.getD i [] := by
  by_cases hik : i = k
  · subst hik
    simp [List.getD_eq_getElem?_getD, List.getElem?_set_self, h]
  · have : k ≠ i := fun h => hik h.symm
    simp [List.getD_eq_getElem?_getD, List.getElem?_set_ne this, hik]

theorem sortBucket_foldl (es : List (Sigma fun _ : String => Int)) :
    ∀ (ls0 : List (List String)), (∀ e ∈ es, 0 ≤ e.2 ∧ e.2.toNat < ls0.length) →
      ∃ ls, es.foldl sortBucket (some ls0) = some ls ∧ ls.length = ls0.length ∧
        (∀ i n, n ∈ ls.getD i [] ↔ n ∈ ls0.getD i [] ∨ ∃ e ∈ es, e.1 = n ∧ e.2.toNat = i) ∧
        ls.flatten.Perm (ls0.flatten ++ es.map (fun e => e.1)) := by
  induction es with
  | nil => intro ls0 _; exact ⟨ls0, rfl, rfl, by simp, by simp⟩
  | cons e es ih =>
    intro ls0 hb
    have he := hb e (List.mem_cons_self _ _)
    have hstep : sortBucket (some ls0) e =
        some (ls0.set e.2.toNat (ls0.getD e.2.toNat [] ++ [e.1])) := by
      simp only [sortBucket]
      rw [if_pos he]
    obtain ⟨ls, h1, h2, h3, h4⟩ := ih (ls0.set e.2.toNat (ls0.getD e.2.toNat [] ++ [e.1]))
      (fun e' he' => by
        rw [List.length_set]; exact hb e' (List.mem_cons_of_mem _ he'))
    refine ⟨ls, ?_, ?_, ?_, ?_⟩
    · rw [List.foldl_cons, hstep, h1]
    · rw [h2, List.length_set]
    · intro i n
      rw [h3 i n, getD_set_append _ _ _ _ he.2]
      by_cases hi : i = e.2.toNat
      · subst hi
        simp only [if_true, List.mem_append, List.mem_cons, List.not_mem_nil, or_false,
          exists_eq_or_imp]
        constructor
        · rintro ((h | h) | h)
          · exact Or.inl h
          · exact Or.inr (Or.inl ⟨h.symm, trivial⟩)
          · exact Or.inr (Or.inr h)
        · rintro (h | h | h)
          · exact Or.inl (Or.inl h)
          · exact Or.inl (Or.inr h.1.symm)
          · exact Or.inr h
      · simp only [hi, if_false, List.mem_cons, exists_eq_or_imp]
        constructor
        · rintro (h | h)
          · exact Or.inl h
          · exact Or.inr (Or.inr h)
        · rintro (h | h | h)
          · exact Or.inl h
          · exact absurd h.2.symm hi
          · exact Or.inr h
    · refine h4.trans ?_
      simp only [List.map_cons]
      have := flatten_set_perm e.1 ls0 e.2.toNat he.2
      refine (List.Perm.append_right _ this).trans ?_
      simp

/-! ## `layerOf` -/

theorem layerOf_eq_some (n : String) :
    ∀ (ls : List (List String)) (k : Nat), n ∈ ls.getD k [] →
      (∀ j, j < k → n ∉ ls.getD j []) → layerOf n ls = some k
  | [], _, h, _ => by simp at h
  | l :: ls, 0, h, _ => by
    simp only [List.getD_cons_zero] at h
    simp [layerOf, h]
  | l :: ls, k + 1, h, hj => by
    have h0 : n ∉ l := by simpa using hj 0 (Nat.succ_pos k)
    have ih := layerOf_eq_some n ls k (by simpa using h)
      (fun j hjk => by simpa using hj (j + 1) (Nat.succ_lt_succ hjk))
    simp [layerOf, h0, ih]

theorem layerOf_eq_none (n : String) :
    ∀ (ls : List (List String)), (∀ j, n ∉ ls.getD j []) → layerOf n ls = none
  | [], _ => rfl
  | l :: ls, hj => by
    have h0 : n ∉ l := by simpa using hj 0
    have ih := layerOf_eq_none n ls (fun j => by simpa using hj (j + 1))
    simp [layerOf, h0, ih]

/-! ## What `Sort` returns -/

theorem height_nonneg {graph : Graph} {s : SortState}
    (inv : SortInv graph [] s.todo s.inc s.height s.maxHeight) {x : String} {h : Int}
    (hx : s.height.lookup x = some h) : 0 ≤ h := by
  have := (inv.height_eq x h hx).2
  have := sortScan_ge s.height (parents graph x)
  omega

theorem sortBucket_spec {graph : Graph} {s : SortState} (o : List Nat)
    (inv : SortInv graph [] s.todo s.inc s.height s.maxHeight) :
    ∃ layers, (rangeOrder o s.height.entries).foldl sortBucket
        (some (List.replicate (s.maxHeight + 1).toNat [])) = some layers ∧
      (∀ i n, n ∈ layers.getD i [] ↔ s.height.lookup n = some (i : Int)) ∧
      layers.flatten.Perm s.height.keys ∧ layers.length = (s.maxHeight + 1).toNat := by
  have hb : ∀ e ∈ rangeOrder o s.height.entries,
      0 ≤ e.2 ∧ e.2.toNat < (List.replicate (s.maxHeight + 1).toNat ([] : List String)).length := by
    rintro ⟨x, h⟩ he
    have hx := (mem_rangeOrder_entries o s.height x h).mp he
    have h0 := height_nonneg inv hx
    have h1 := inv.bound x h hx
    simp only [List.length_replicate]
    refine ⟨h0, ?_⟩
    omega
  obtain ⟨ls, h1, h2, h3, h4⟩ := sortBucket_foldl _ _ hb
  refine ⟨ls, h1, ?_, ?_, ?_⟩
  · intro i n
    rw [h3 i n]
    have hrep : n ∉ (List.replicate (s.maxHeight + 1).toNat ([] : List String)).getD i [] := by
      rw [List.getD_eq_getElem?_getD, List.getElem?_replicate]
      split <;> simp
    constructor
    · rintro (h | ⟨⟨x, h⟩, he, hxn, hi⟩)
      · exact absurd h hrep
      · have hx := (mem_rangeOrder_entries o s.height x h).mp he
        have h0 := height_nonneg inv hx
        simp only at hxn hi
        subst hxn
        rw [hx]
        congr 1
        omega
    · intro h
      refine Or.inr ⟨⟨n, (i : Int)⟩, (mem_rangeOrder_entries o s.height n i).mpr h, rfl, ?_⟩
      simp
  · refine h4.trans ?_
    have : (List.replicate (s.maxHeight + 1).toNat ([] : List String)).flatten = [] := by
      induction (s.maxHeight + 1).toNat with
      | zero => rfl
      | succ k ih => simp [List.replicate_succ]
    rw [this, List.nil_append]
    exact (rangeOrder_perm o s.height.entries).map _
  · rw [h2, List.length_replicate]

/-- A run of `Sort` that returns does so from a final state of the worklist loop
in which the invariant holds and `todo` is empty; it reports a cycle exactly
when `inc` is non-empty, and otherwise returns the nodes bucketed by height. -/
theorem GoSort_done {σ : SortSched} {fuel : Nat} {graph : Graph}
    {res : Option (List (List String)) × Option String}
    (h : GoSort σ fuel graph = .done res) :
    ∃ s : SortState, SortInv graph [] s.todo s.inc s.height s.maxHeight ∧ s.todo.keys = [] ∧
      ((s.inc.keys ≠ [] ∧ res = (none, some "graph has cycles")) ∨
       (s.inc.keys = [] ∧ ∃ layers, res = (some layers, none) ∧
          (∀ i n, n ∈ layers.getD i [] ↔ s.height.lookup n = some (i : Int)) ∧
          layers.flatten.Perm s.height.keys ∧ layers.length = (s.maxHeight + 1).toNat)) := by
  unfold GoSort at h
  dsimp only at h
  split at h
  · simp at h
  · rename_i s hs
    obtain ⟨inv, htodo⟩ := sortLoop_inv (sortOut_spec σ.second graph) fuel σ.picks _ s
      (sortInit_inv σ.first graph) hs
    obtain ⟨layers, hl, hmem, hperm, hlen⟩ := sortBucket_spec σ.last inv
    rw [hl] at h
    dsimp only at h
    refine ⟨s, inv, htodo, ?_⟩
    split at h
    · rename_i hpos
      left
      refine ⟨?_, ?_⟩
      · intro hk
        have : s.inc.entries.length = s.inc.keys.length := by simp [AList.keys, List.keys]
        rw [this, hk] at hpos
        simp at hpos
      · simpa using h.symm
    · rename_i hpos
      right
      refine ⟨?_, layers, ?_, hmem, hperm, hlen⟩
      · have : s.inc.entries.length = s.inc.keys.length := by simp [AList.keys, List.keys]
        rw [this] at hpos
        exact List.length_eq_zero.mp (by omega)
      · simpa using h.symm

/-- The function `Sort` returns: its worklist loop needs at most one round per key, and the
bucketing loop never indexes out of range. -/
theorem GoSort_total (σ : SortSched) (fuel : Nat) (graph : Graph)
    (hfuel : graph.keys.length ≤ fuel) : ∃ res, GoSort σ fuel graph = .done res := by
  have inv0 := sortInit_inv σ.first graph
  have hlen : ((rangeOrder σ.first graph.entries).foldl sortInit (∅, ∅)).2.keys.length
      ≤ graph.keys.length := by
    apply List.Subperm.length_le
    apply List.subperm_of_subset (AList.keys_nodup _)
    intro x hx
    have := (inv0.keys x).mpr (Or.inl (AList.mem_keys.mpr hx))
    exact AList.mem_keys.mp this
  obtain ⟨s, hs⟩ := sortLoop_terminates (sortOut_spec σ.second graph) fuel σ.picks
    ⟨_, _, ∅, 0⟩ inv0 (le_trans hlen hfuel)
  obtain ⟨inv, _⟩ := sortLoop_inv (sortOut_spec σ.second graph) fuel σ.picks _ s inv0 hs
  obtain ⟨layers, hl, _⟩ := sortBucket_spec σ.last inv
  unfold GoSort
  dsimp only
  rw [hs]
  dsimp only
  rw [hl]
  dsimp only
  split
  · exact ⟨_, rfl⟩
  · exact ⟨_, rfl⟩

/-! ## Consequences for a successful `Sort` -/

theorem sortScan_foldl_ge_of_mem (height : GoMap Int) (deps : List String) (p : String)
    (hp : p ∈ deps) : ∀ h0 : Int, (height.lookup p).getD 0 ≤ deps.foldl (fun h dep =>
      if h < (height.lookup dep).getD 0 then (height.lookup dep).getD 0 else h) h0 := by
  induction deps with
  | nil => simp at hp
  | cons d ds ih =>
    intro h0
    simp only [List.foldl_cons]
    rcases List.mem_cons.mp hp with h | h
    · subst h
      refine le_trans ?_ (sortScan_foldl_ge height ds _)
      split <;> omega
    · exact ih h _

theorem sortScan_ge_of_mem (height : GoMap Int) (deps : List String) (p : String)
    (hp : p ∈ deps) : (height.lookup p).getD 0 ≤ sortScan height deps :=
  sortScan_foldl_ge_of_mem height deps p hp (-1)

theorem sortScan_foldl_eq_max (height : GoMap Int) (deps : List String)
    (hnn : ∀ p ∈ deps, 0 ≤ (height.lookup p).getD 0) :
    ∀ h0 : Int, deps.foldl (fun h dep =>
      if h < (height.lookup dep).getD 0 then (height.lookup dep).getD 0 else h) h0 =
      if deps = [] then h0 else
        max h0 (((deps.map (fun p => ((height.lookup p).getD 0).toNat)).foldr max 0 : Nat) : Int) := by
  induction deps with
  | nil => intro h0; simp
  | cons d ds ih =>
    intro h0
    have hd := hnn d (List.mem_cons_self _ _)
    simp only [List.foldl_cons]
    rw [ih (fun p hp => hnn p (List.mem_cons_of_mem _ hp))]
    simp only [List.map_cons, List.foldr_cons, if_neg (List.cons_ne_nil d ds)]
    by_cases hds : ds = []
    · subst hds
      simp only [if_true, List.map_nil, List.foldr_nil]
      split <;> omega
    · simp only [hds, if_false]
      split <;> omega

/-- The facts about a successful run of `Sort` from which the layering
properties follow: the nodes are bucketed by a height map defined on exactly
the keys, every parent of a key is a key, and the height of a node is one more
than the scan of its parents' heights. -/
theorem GoSort_ok {σ : SortSched} {fuel : Nat} {graph : Graph} {layers : List (List String)}
    (h : GoSort σ fuel graph = .done (some layers, none)) :
    ∃ height : GoMap Int, (∀ n, n ∈ height ↔ n ∈ graph) ∧
      (∀ n v, height.lookup n = some v → 0 ≤ v ∧ layerOf n layers = some v.toNat ∧
        (∀ p ∈ parents graph n, p ∈ height) ∧ v = sortScan height (parents graph n) + 1) ∧
      (∀ n, n ∉ graph → layerOf n layers = none) ∧ layers.flatten.Perm graph.keys ∧
      (∃ maxHeight : Int, layers.length = (maxHeight + 1).toNat ∧
        (∀ n v, height.lookup n = some v → v ≤ maxHeight) ∧
        (maxHeight = 0 ∨ ∃ x, height.lookup x = some maxHeight)) := by
  obtain ⟨s, inv, _, hres⟩ := GoSort_done h
  rcases hres with ⟨_, hres⟩ | ⟨hinc, layers', hres, hmem, hperm, hlen⟩
  · simp at hres
  · simp only [Prod.mk.injEq, Option.some.injEq, and_true] at hres
    subst hres
    have hkeys : ∀ n, n ∈ s.height ↔ n ∈ graph := by
      intro n
      rw [inv.keys n]
      have : n ∉ s.inc := (keys_eq_nil_iff s.inc).mp hinc n
      simp [this]
    have hlayer : ∀ n v, s.height.lookup n = some v → layerOf n layers = some v.toNat := by
      intro n v hv
      have h0 := height_nonneg inv hv
      apply layerOf_eq_some
      · rw [hmem, hv]; congr 1; omega
      · intro j hj hc
        rw [hmem, hv] at hc
        simp only [Option.some.injEq] at hc
        omega
    refine ⟨s.height, hkeys, ?_, ?_, ?_, ⟨s.maxHeight, hlen, inv.bound, inv.attained⟩⟩
    · intro n v hv
      exact ⟨height_nonneg inv hv, hlayer n v hv, inv.height_eq n v hv⟩
    · intro n hn
      apply layerOf_eq_none
      intro j hc
      rw [hmem] at hc
      exact hn ((hkeys n).mp (mem_of_lookup_eq_some hc))
    · refine hperm.trans ?_
      rw [List.perm_ext_iff_of_nodup (AList.keys_nodup _) (AList.keys_nodup _)]
      intro a
      rw [← AList.mem_keys, ← AList.mem_keys, hkeys a]

/-- In the height map of a successful run, a parent is strictly lower than its child. -/
theorem height_parent_lt {graph : Graph} {height : GoMap Int}
    (hh : ∀ n v, height.lookup n = some v → 0 ≤ v ∧
      (∀ p ∈ parents graph n, p ∈ height) ∧ v = sortScan height (parents graph n) + 1)
    {p c : String} (he : Edge graph p c) {vc : Int} (hc : height.lookup c = some vc) :
    ∃ vp, height.lookup p = some vp ∧ vp < vc := by
  obtain ⟨_, h1, h2⟩ := hh c vc hc
  obtain ⟨vp, hvp⟩ := exists_lookup_of_mem (h1 p he)
  refine ⟨vp, hvp, ?_⟩
  have := sortScan_ge_of_mem height (parents graph c) p he
  rw [hvp] at this
  simp only [Option.getD_some] at this
  omega

theorem height_transGen_lt {graph : Graph} {height : GoMap Int}
    (hh : ∀ n v, height.lookup n = some v → 0 ≤ v ∧
      (∀ p ∈ parents graph n, p ∈ height) ∧ v = sortScan height (parents graph n) + 1)
    {a b : String} (hab : Relation.TransGen (Edge graph) a b) :
    ∀ vb, height.lookup b = some vb → ∃ va, height.lookup a = some va ∧ va < vb := by
  induction hab with
  | single he => intro vb hb; exact height_parent_lt hh he hb
  | tail _ he ih =>
    intro vc hc
    obtain ⟨vb, hb, hlt⟩ := height_parent_lt hh he hc
    obtain ⟨va, ha, hlt'⟩ := ih vb hb
    exact ⟨va, ha, by omega⟩

theorem mem_graph_of_transGen {graph : Graph} {a b : String}
    (hab : Relation.TransGen (Edge graph) a b) : b ∈ graph := by
  cases hab with
  | single he => exact mem_graph_of_mem_parents he
  | tail _ he => exact mem_graph_of_mem_parents he

/-- No run of `Sort` succeeds on a graph with a cycle. -/
theorem GoSort_cycle_not_ok {σ : SortSched} {fuel : Nat} {graph : Graph}
    (hcyc : HasCycle graph) (layers : List (List String)) :
    GoSort σ fuel graph ≠ .done (some layers, none) := by
  intro h
  obtain ⟨height, hkeys, hh, _⟩ := GoSort_ok h
  obtain ⟨k, hk⟩ := hcyc
  have hkg : k ∈ height := (hkeys k).mpr (mem_graph_of_transGen hk)
  obtain ⟨v, hv⟩ := exists_lookup_of_mem hkg
  obtain ⟨v', hv', hlt⟩ := height_transGen_lt
    (fun n w hw => ⟨(hh n w hw).1, (hh n w hw).2.2⟩) hk v hv
  rw [hv] at hv'
  simp only [Option.some.injEq] at hv'
  omega

/-- A rank that strictly increases from every parent to its child excludes cycles. -/
theorem not_hasCycle_of_rank (graph : Graph) (rank : String → Nat)
    (h : ∀ c ∈ graph.keys, ∀ p ∈ parents graph c, rank p < rank c) : ¬ HasCycle graph := by
  have hstep : ∀ a b, Relation.TransGen (Edge graph) a b → rank a < rank b := by
    intro a b hab
    induction hab with
    | single he => exact h _ (AList.mem_keys.mp (mem_graph_of_mem_parents he)) _ he
    | tail _ he ih =>
      exact lt_trans ih (h _ (AList.mem_keys.mp (mem_graph_of_mem_parents he)) _ he)
  rintro ⟨k, hk⟩
  exact lt_irrefl _ (hstep k k hk)

theorem closed_of_keys (graph : Graph)
    (h : ∀ c ∈ graph.keys, ∀ p ∈ parents graph c, p ∈ graph) : Closed graph := by
  intro n p hp
  exact h n (AList.mem_keys.mp (mem_graph_of_mem_parents hp)) p hp

/-- On a closed graph without cycle the worklist loop of `Sort` leaves no key
unvisited. -/
theorem sortInv_complete {graph : Graph} {s : SortState}
    (inv : SortInv graph [] s.todo s.inc s.height s.maxHeight) (htodo : s.todo.keys = [])
    (hclosed : Closed graph) (hacyc : ¬ HasCycle graph) : s.inc.keys = [] := by
  let r : {x // x ∈ graph.keys} → {x // x ∈ graph.keys} → Prop :=
    fun a b => Relation.TransGen (Edge graph) a.1 b.1
  haveI : IsTrans _ r := ⟨fun _ _ _ hab hbc => Relation.TransGen.trans hab hbc⟩
  haveI : IsIrrefl _ r := ⟨fun a ha => hacyc ⟨a.1, ha⟩⟩
  have wf : WellFounded r := Finite.wellFounded_of_trans_of_irrefl r
  have hall : ∀ a : {x // x ∈ graph.keys}, a.1 ∈ s.height := by
    intro a
    induction a using wf.induction with
    | _ a ih =>
      rcases (inv.keys a.1).mp (AList.mem_keys.mpr a.2) with hi | hh
      · exfalso
        obtain ⟨v, hv⟩ := exists_lookup_of_mem hi
        have hveq := inv.inc_eq a.1 v hv
        have hnil : (parents graph a.1).filter (fun p => decide (p ∉ s.height)) = [] := by
          rw [List.filter_eq_nil_iff]
          intro p hp
          have hpg : p ∈ graph := hclosed a.1 p hp
          have := ih ⟨p, AList.mem_keys.mp hpg⟩ (Relation.TransGen.single hp)
          simpa using this
        rw [hnil] at hveq
        simp only [List.length_nil, Nat.cast_zero, List.count_nil, add_zero] at hveq
        subst hveq
        have : a.1 ∈ s.todo := (inv.todo_iff a.1).mpr hv
        exact (keys_eq_nil_iff s.todo).mp htodo a.1 this
      · exact hh
  rw [keys_eq_nil_iff]
  intro x hx
  have hxg : x ∈ graph := (inv.keys x).mpr (Or.inl hx)
  exact inv.disj x hx (hall ⟨x, AList.mem_keys.mp hxg⟩)

/-! ## Layering properties -/

/-- C1. On every graph on which `Sort` succeeds, for every edge parent→child
(`child` a key of the graph, `parent` listed in `graph[child]`) the layer that
contains the parent has a strictly smaller index than the layer that contains
the child. -/
theorem sort_edge_layer_lt (σ : SortSched) (fuel : Nat) (graph : Graph)
    (layers : List (List String)) (h : GoSort σ fuel graph = .done (some layers, none))
    (parent child : String) (hc : child ∈ graph) (he : parent ∈ parents graph child) :
    ∃ i j, layerOf parent layers = some i ∧ layerOf child layers = some j ∧ i < j := by
  obtain ⟨height, hkeys, hh, _⟩ := GoSort_ok h
  obtain ⟨vc, hvc⟩ := exists_lookup_of_mem ((hkeys child).mpr hc)
  obtain ⟨vp, hvp, hlt⟩ := height_parent_lt
    (fun n w hw => ⟨(hh n w hw).1, (hh n w hw).2.2⟩) he hvc
  refine ⟨vp.toNat, vc.toNat, (hh parent vp hvp).2.1, (hh child vc hvc).2.1, ?_⟩
  have := (hh parent vp hvp).1
  omega

theorem sort_edge_layer_lt_witness :
    ∃ i j, layerOf "B" [["C", "B"], ["A"]] = some i ∧
      layerOf "A" [["C", "B"], ["A"]] = some j ∧ i < j :=
  sort_edge_layer_lt sched0 3 graphABC [["C", "B"], ["A"]] (by decide) "B" "A"
    (by decide) (by decide)

/-- C2. On every graph that contains a cycle (some node reaches itself by one
or more parent references, self-loops included), `Sort` returns, with no layers
and the error "graph has cycles", whatever the iteration orders; `Plot` on such
a graph returns the empty string and the same error. -/
theorem sort_cycle_error (σ : SortSched) (fuel : Nat) (graph : Graph)
    (hcyc : HasCycle graph) (hfuel : graph.keys.length ≤ fuel) :
    GoSort σ fuel graph = .done (none, some "graph has cycles") ∧
    ∀ (lower : String → String) (edgeOrder : List Nat) (r : Register) (sources : List String),
      r.Plot lower σ edgeOrder fuel graph sources = .done ("", some "graph has cycles") := by
  have hsort : GoSort σ fuel graph = .done (none, some "graph has cycles") := by
    obtain ⟨res, hres⟩ := GoSort_total σ fuel graph hfuel
    obtain ⟨s, _, _, hcase⟩ := GoSort_done hres
    rcases hcase with ⟨_, h⟩ | ⟨_, layers, h, _⟩
    · rw [hres, h]
    · rw [h] at hres
      exact absurd hres (GoSort_cycle_not_ok hcyc layers)
  refine ⟨hsort, fun lower edgeOrder r sources => ?_⟩
  unfold Register.Plot
  rw [hsort]

theorem sort_cycle_error_witness :
    GoSort sched0 2 graphLoop = .done (none, some "graph has cycles") ∧
    ∀ (lower : String → String) (edgeOrder : List Nat) (r : Register) (sources : List String),
      r.Plot lower sched0 edgeOrder 2 graphLoop sources = .done ("", some "graph has cycles") :=
  sort_cycle_error sched0 2 graphLoop
    ⟨"A", Relation.TransGen.single (show "A" ∈ parents graphLoop "A" by decide)⟩ (by decide)

/-- C3. On every graph that is closed (every listed parent is a key) and has no
cycle, `Sort` returns without error and the concatenation of its layers is a
permutation of the graph's keys: every key occurs exactly once and nothing
else occurs. -/
theorem sort_closed_acyclic_cover (σ : SortSched) (fuel : Nat) (graph : Graph)
    (hclosed : Closed graph) (hacyc : ¬ HasCycle graph) (hfuel : graph.keys.length ≤ fuel) :
    ∃ layers, GoSort σ fuel graph = .done (some layers, none) ∧
      layers.flatten.Perm graph.keys := by
  obtain ⟨res, hres⟩ := GoSort_total σ fuel graph hfuel
  obtain ⟨s, inv, htodo, hcase⟩ := GoSort_done hres
  rcases hcase with ⟨hne, _⟩ | ⟨_, layers, h, _⟩
  · exact absurd (sortInv_complete inv htodo hclosed hacyc) hne
  · rw [h] at hres
    obtain ⟨_, _, _, _, hperm, _⟩ := GoSort_ok hres
    exact ⟨layers, hres, hperm⟩

theorem sort_closed_acyclic_cover_witness :
    ∃ layers, GoSort sched0 3 graphABC = .done (some layers, none) ∧
      layers.flatten.Perm graphABC.keys :=
  sort_closed_acyclic_cover sched0 3 graphABC
    (closed_of_keys graphABC (by decide))
    (not_hasCycle_of_rank graphABC (fun n => if n = "A" then 1 else 0) (by decide))
    (by decide)

/-- The layer of a node after a successful `Sort`, in terms of the layers of its
parents. -/
theorem GoSort_layer_eq (σ : SortSched) (fuel : Nat) (graph : Graph)
    (layers : List (List String)) (h : GoSort σ fuel graph = .done (some layers, none))
    (n : String) (hn : n ∈ graph) :
    layerOf n layers =
        some (if parents graph n = [] then 0 else 1 + maxLayer layers (parents graph n)) ∧
      ∀ p ∈ parents graph n, ∃ j, layerOf p layers = some j := by
  obtain ⟨height, hkeys, hh, _⟩ := GoSort_ok h
  obtain ⟨v, hv⟩ := exists_lookup_of_mem ((hkeys n).mpr hn)
  obtain ⟨hv0, hlay, hpar, hveq⟩ := hh n v hv
  have hparv : ∀ p ∈ parents graph n, ∃ w, height.lookup p = some w ∧ 0 ≤ w ∧
      layerOf p layers = some w.toNat := by
    intro p hp
    obtain ⟨w, hw⟩ := exists_lookup_of_mem (hpar p hp)
    exact ⟨w, hw, (hh p w hw).1, (hh p w hw).2.1⟩
  refine ⟨?_, fun p hp => ?_⟩
  · rw [hlay]
    congr 1
    have hmap : (parents graph n).map (fun p => (layerOf p layers).getD 0) =
        (parents graph n).map (fun p => ((height.lookup p).getD 0).toNat) := by
      apply List.map_congr_left
      intro p hp
      obtain ⟨w, hw, _, hl⟩ := hparv p hp
      simp [hw, hl]
    have hscan := sortScan_foldl_eq_max height (parents graph n)
      (fun p hp => by
        obtain ⟨w, hw, hw0, _⟩ := hparv p hp
        simpa [hw] using hw0) (-1)
    have hscan' : sortScan height (parents graph n) = _ := hscan
    rw [hveq, hscan']
    unfold maxLayer
    rw [hmap]
    split
    · simp
    · omega
  · obtain ⟨w, _, _, hl⟩ := hparv p hp
    exact ⟨_, hl⟩

/-- C4. On every graph on which `Sort` succeeds, the layer index of a node `n`
is its longest-path distance from a parentless node: 0 when `graph[n]` is
empty, and otherwise one more than the largest layer index of the parents
listed in `graph[n]` (each of which has a layer). -/
theorem sort_layer_longest_path (σ : SortSched) (fuel : Nat) (graph : Graph)
    (layers : List (List String)) (h : GoSort σ fuel graph = .done (some layers, none))
    (n : String) (hn : n ∈ graph) :
    layerOf n layers =
        some (if parents graph n = [] then 0 else 1 + maxLayer layers (parents graph n)) ∧
      ∀ p ∈ parents graph n, ∃ j, layerOf p layers = some j := by
  obtain ⟨hlayer, hparents⟩ := GoSort_layer_eq σ fuel graph layers h n hn
  exact ⟨hlayer, hparents⟩

theorem sort_layer_longest_path_witness :
    layerOf "A" [["C", "B"], ["A"]] =
        some (if parents graphABC "A" = [] then 0
          else 1 + maxLayer [["C", "B"], ["A"]] (parents graphABC "A")) ∧
      ∀ p ∈ parents graphABC "A", ∃ j, layerOf p [["C", "B"], ["A"]] = some j :=
  sort_layer_longest_path sched0 3 graphABC [["C", "B"], ["A"]] (by decide) "A" (by decide)

/-! ## FuzzyLookup and the first loop of `Pull` -/

theorem fuzzyLookup_eq_none_iff (lower : String → String) (o : List Nat) (r : Register)
    (q : String) : r.FuzzyLookup lower o q = none ↔ hasMatch lower r q = false := by
  unfold Register.FuzzyLookup hasMatch
  rw [Option.map_eq_none', List.find?_eq_none, List.any_eq_false]
  constructor
  · intro h e he
    exact h e ((rangeOrder_perm o _).mem_iff.mpr he)
  · intro h e he
    exact h e ((rangeOrder_perm o _).mem_iff.mp he)

theorem fuzzyLookup_some {lower : String → String} {o : List Nat} {r : Register}
    {q : String} {g : Grex} (h : r.FuzzyLookup lower o q = some g) :
    (∃ k, r.Grexes.lookup k = some g) ∧ lower q = lower g.Name := by
  unfold Register.FuzzyLookup at h
  rw [Option.map_eq_some'] at h
  obtain ⟨⟨k, g'⟩, hfind, hg⟩ := h
  simp only at hg
  subst hg
  have hmem := List.mem_of_find?_eq_some hfind
  have hp := List.find?_some hfind
  refine ⟨⟨k, (mem_rangeOrder_entries o r.Grexes k g').mp hmem⟩, ?_⟩
  simpa using hp

theorem fuzzyLookup_lookup {lower : String → String} {o : List Nat} {r : Register}
    (hwf : RegWF r) {q : String} {g : Grex} (h : r.FuzzyLookup lower o q = some g) :
    r.Lookup g.Name = some g := by
  obtain ⟨⟨k, hk⟩, _⟩ := fuzzyLookup_some h
  have := hwf k g hk
  subst this
  exact hk

theorem pullSeed_ok (lower : String → String) (r : Register) :
    ∀ (qs : List String) (os : List (List Nat)) (todo0 todo : GoMap Bool),
      pullSeed lower r os qs todo0 = .ok todo →
      (∀ q ∈ qs, hasMatch lower r q = true) ∧
      (∀ n, n ∈ todo ↔ n ∈ fuzzyNames lower r os qs ∨ n ∈ todo0) := by
  intro qs
  induction qs with
  | nil =>
    intro os todo0 todo h
    simp only [pullSeed, Except.ok.injEq] at h
    subst h
    simp [fuzzyNames]
  | cons q qs ih =>
    intro os todo0 todo h
    unfold pullSeed at h
    split at h
    · simp at h
    · rename_i g hg
      obtain ⟨h1, h2⟩ := ih _ _ _ h
      refine ⟨?_, fun n => ?_⟩
      · intro q' hq'
        rcases List.mem_cons.mp hq' with rfl | hq'
        · by_contra hc
          have := (fuzzyLookup_eq_none_iff lower (os.headD []) r q').mpr (by simpa using hc)
          rw [hg] at this
          simp at this
        · exact h1 q' hq'
      · rw [h2 n, AList.mem_insert]
        simp only [fuzzyNames, hg, List.mem_cons]
        tauto

theorem pullSeed_error (lower : String → String) (r : Register) :
    ∀ (qs : List String) (os : List (List Nat)) (todo0 : GoMap Bool) (e : String),
      pullSeed lower r os qs todo0 = .error e →
      ∃ q, qs.find? (fun q => !hasMatch lower r q) = some q ∧ e = "not found: " ++ q := by
  intro qs
  induction qs with
  | nil => intro os todo0 e h; simp [pullSeed] at h
  | cons q qs ih =>
    intro os todo0 e h
    unfold pullSeed at h
    split at h
    · rename_i hg
      have hm := (fuzzyLookup_eq_none_iff lower (os.headD []) r q).mp hg
      simp only [Except.error.injEq] at h
      exact ⟨q, by simp [List.find?_cons, hm], h.symm⟩
    · rename_i g hg
      have hm : hasMatch lower r q = true := by
        by_contra hc
        have := (fuzzyLookup_eq_none_iff lower (os.headD []) r q).mpr (by simpa using hc)
        rw [hg] at this
        simp at this
      obtain ⟨q', hq', he⟩ := ih _ _ _ h
      exact ⟨q', by simp [List.find?_cons, hm, hq'], he⟩

theorem pullSeed_total (lower : String → String) (r : Register) :
    ∀ (qs : List String) (os : List (List Nat)) (todo0 : GoMap Bool),
      (∀ q ∈ qs, hasMatch lower r q = true) →
      ∃ todo, pullSeed lower r os qs todo0 = .ok todo := by
  intro qs
  induction qs with
  | nil => intro os todo0 _; exact ⟨todo0, rfl⟩
  | cons q qs ih =>
    intro os todo0 h
    unfold pullSeed
    split
    · rename_i hg
      have hm := (fuzzyLookup_eq_none_iff lower (os.headD []) r q).mp hg
      rw [h q (List.mem_cons_self _ _)] at hm
      simp at hm
    · exact ih _ _ (fun q' hq' => h q' (List.mem_cons_of_mem _ hq'))

theorem fuzzyNames_lookup {lower : String → String} {r : Register} (hwf : RegWF r) :
    ∀ (qs : List String) (os : List (List Nat)) (n : String),
      n ∈ fuzzyNames lower r os qs → ∃ g, r.Lookup n = some g := by
  intro qs
  induction qs with
  | nil => intro os n h; simp [fuzzyNames] at h
  | cons q qs ih =>
    intro os n h
    unfold fuzzyNames at h
    split at h
    · rename_i g hg
      rcases List.mem_cons.mp h with rfl | h
      · exact ⟨g, fuzzyLookup_lookup hwf hg⟩
      · exact ih _ _ h
    · exact ih _ _ h

/-! ## The worklist loop of `Pull` -/

theorem pullParent_spec {r : Register} (hwf : RegWF r) (s : PullState) (ref : String) :
    (pullParent r s ref).graph = s.graph ∧
    (∀ n, n ∈ (pullParent r s ref).todo ↔
      n ∈ s.todo ∨ (n = ref ∧ (∃ g, r.Lookup ref = some g) ∧ ref ∉ s.graph)) ∧
    (∀ n, n ∈ (pullParent r s ref).unknown ↔
      n ∈ s.unknown ∨ (n = ref ∧ r.Lookup ref = none)) := by
  unfold pullParent
  split
  · rename_i parent hp
    have hname : parent.Name = ref := hwf ref parent hp
    subst hname
    split
    · rename_i hsome
      have hin : parent.Name ∈ s.graph := AList.lookup_isSome.mp hsome
      refine ⟨rfl, fun n => ?_, fun n => ?_⟩
      · simp [hin]
      · simp [hp]
    · rename_i hsome
      have hin : parent.Name ∉ s.graph := fun h => hsome (AList.lookup_isSome.mpr h)
      refine ⟨rfl, fun n => ?_, fun n => ?_⟩
      · simp only [AList.mem_insert, hp, hin, not_false_eq_true, and_true]
        constructor
        · rintro (h | h)
          · exact Or.inr ⟨h, ⟨parent, rfl⟩⟩
          · exact Or.inl h
        · rintro (h | ⟨h, _⟩)
          · exact Or.inr h
          · exact Or.inl h
      · simp [hp]
  · rename_i hp
    refine ⟨rfl, fun n => ?_, fun n => ?_⟩
    · simp [hp]
    · simp only [AList.mem_insert, hp, and_true]
      tauto

/-- One round of the worklist loop of `Pull`, on a register storing each record
under its own name: the visited name resolves, the invariant is kept, the
visited name enters the graph and the graph only grows. -/
theorem pullVisit_inv {r : Register} (hwf : RegWF r) {roots : List String} {s : PullState}
    (inv : PullInv r roots s) {name : String} (hname : name ∈ s.todo) :
    ∃ s', pullVisit r name s = .ok s' ∧ PullInv r roots s' ∧ name ∉ s.graph ∧
      (∀ n, n ∈ s'.graph ↔ n = name ∨ n ∈ s.graph) := by
  obtain ⟨⟨g, hg⟩, hng⟩ := inv.todo_reg name hname
  have hgn : g.Name = name := hwf name g hg
  have hcl : Closure r roots name := inv.sound name (Or.inr (Or.inl hname))
  set s1 : PullState := { s with graph := s.graph.insert g.Name [g.Seed, g.Pollen] } with hs1
  obtain ⟨a1, a2, a3⟩ := pullParent_spec hwf s1 g.Seed
  obtain ⟨b1, b2, b3⟩ := pullParent_spec hwf (pullParent r s1 g.Seed) g.Pollen
  set s3 := pullParent r (pullParent r s1 g.Seed) g.Pollen with hs3
  have hgraph : s3.graph = s.graph.insert name [g.Seed, g.Pollen] := by
    rw [b1, a1, hs1, hgn]
  have hmemg : ∀ n, n ∈ s3.graph ↔ n = name ∨ n ∈ s.graph := by
    intro n; rw [hgraph, AList.mem_insert]
  have hs1g : ∀ n, n ∈ s1.graph ↔ n = name ∨ n ∈ s.graph := by
    intro n; rw [hs1]; simp only; rw [hgn, AList.mem_insert]
  have htodo : ∀ n, n ∈ s3.todo ↔ n ∈ s.todo ∨
      ((n = g.Seed ∨ n = g.Pollen) ∧ (∃ g', r.Lookup n = some g') ∧ n ≠ name ∧ n ∉ s.graph) := by
    intro n
    rw [b2 n, a2 n, a1]
    have e1 : g.Seed ∉ s1.graph ↔ (g.Seed ≠ name ∧ g.Seed ∉ s.graph) := by
      rw [hs1g]; tauto
    have e2 : g.Pollen ∉ s1.graph ↔ (g.Pollen ≠ name ∧ g.Pollen ∉ s.graph) := by
      rw [hs1g]; tauto
    rw [e1, e2]
    constructor
    · rintro ((h | ⟨h, h', h''⟩) | ⟨h, h', h''⟩)
      · exact Or.inl h
      · subst h; exact Or.inr ⟨Or.inl rfl, h', h''⟩
      · subst h; exact Or.inr ⟨Or.inr rfl, h', h''⟩
    · rintro (h | ⟨h | h, h', h''⟩)
      · exact Or.inl (Or.inl h)
      · subst h; exact Or.inl (Or.inr ⟨rfl, h', h''⟩)
      · subst h; exact Or.inr ⟨rfl, h', h''⟩
  have hunk : ∀ n, n ∈ s3.unknown ↔ n ∈ s.unknown ∨
      ((n = g.Seed ∨ n = g.Pollen) ∧ r.Lookup n = none) := by
    intro n
    rw [b3 n, a3 n]
    constructor
    · rintro ((h | ⟨h, h'⟩) | ⟨h, h'⟩)
      · exact Or.inl h
      · subst h; exact Or.inr ⟨Or.inl rfl, h'⟩
      · subst h; exact Or.inr ⟨Or.inr rfl, h'⟩
    · rintro (h | ⟨h | h, h'⟩)
      · exact Or.inl (Or.inl h)
      · subst h; exact Or.inl (Or.inr ⟨rfl, h'⟩)
      · subst h; exact Or.inr ⟨rfl, h'⟩
  have hpar : ∀ p, p = g.Seed ∨ p = g.Pollen → Closure r roots p := by
    rintro p (h | h)
    · subst h; exact Closure.seed hcl hg
    · subst h; exact Closure.pollen hcl hg
  have hnew : ∀ p, p = g.Seed ∨ p = g.Pollen →
      p ∈ s3.graph ∨ p ∈ s3.todo.erase name ∨ p ∈ s3.unknown := by
    intro p hp
    by_cases h1 : p = name
    · exact Or.inl ((hmemg p).mpr (Or.inl h1))
    · by_cases h2 : p ∈ s.graph
      · exact Or.inl ((hmemg p).mpr (Or.inr h2))
      · cases h3 : r.Lookup p with
        | none => exact Or.inr (Or.inr ((hunk p).mpr (Or.inr ⟨hp, h3⟩)))
        | some g' =>
          refine Or.inr (Or.inl ?_)
          rw [AList.mem_erase]
          exact ⟨h1, (htodo p).mpr (Or.inr ⟨hp, ⟨g', h3⟩, h1, h2⟩)⟩
  refine ⟨{ s3 with todo := s3.todo.erase name }, ?_, ?_, hng, hmemg⟩
  · unfold pullVisit
    rw [hg]
  · refine ⟨?_, ?_, ?_, ?_, ?_, ?_⟩
    · intro n deps hn
      simp only at hn
      rw [hgraph, lookup_insert_ite] at hn
      by_cases h : n = name
      · subst h
        simp only [if_true, Option.some.injEq] at hn
        exact ⟨g, hg, hn.symm⟩
      · simp only [h, if_false] at hn
        exact inv.graph_reg n deps hn
    · intro n hn
      simp only at hn ⊢
      rw [AList.mem_erase, htodo] at hn
      obtain ⟨hne, h | ⟨_, h, _, h'⟩⟩ := hn
      · refine ⟨(inv.todo_reg n h).1, ?_⟩
        rw [hmemg]
        exact fun hc => hc.elim hne (inv.todo_reg n h).2
      · refine ⟨h, ?_⟩
        rw [hmemg]
        exact fun hc => hc.elim hne h'
    · intro n hn
      simp only at hn
      rcases (hunk n).mp hn with h | ⟨_, h⟩
      · exact inv.unknown_reg n h
      · exact h
    · intro n g' hn hg' p hp
      simp only at hn ⊢
      rcases (hmemg n).mp hn with h | h
      · subst h
        rw [hg] at hg'
        simp only [Option.some.injEq] at hg'
        subst hg'
        exact hnew p hp
      · rcases inv.closed n g' h hg' p hp with h1 | h1 | h1
        · exact Or.inl ((hmemg p).mpr (Or.inr h1))
        · by_cases hpn : p = name
          · exact Or.inl ((hmemg p).mpr (Or.inl hpn))
          · refine Or.inr (Or.inl ?_)
            rw [AList.mem_erase]
            exact ⟨hpn, (htodo p).mpr (Or.inl h1)⟩
        · exact Or.inr (Or.inr ((hunk p).mpr (Or.inl h1)))
    · intro n hn
      simp only
      rcases inv.roots_in n hn with h | h
      · exact Or.inl ((hmemg n).mpr (Or.inr h))
      · by_cases hpn : n = name
        · exact Or.inl ((hmemg n).mpr (Or.inl hpn))
        · refine Or.inr ?_
          rw [AList.mem_erase]
          exact ⟨hpn, (htodo n).mpr (Or.inl h)⟩
    · intro n hn
      simp only at hn
      rcases hn with h | h | h
      · rcases (hmemg n).mp h with h | h
        · subst h; exact hcl
        · exact inv.sound n (Or.inl h)
      · rw [AList.mem_erase, htodo] at h
        rcases h.2 with h | ⟨h, _⟩
        · exact inv.sound n (Or.inr (Or.inl h))
        · exact hpar n h
      · rcases (hunk n).mp h with h | ⟨h, _⟩
        · exact inv.sound n (Or.inr (Or.inr h))
        · exact hpar n h

/-- Number of register records that are not yet in the graph: the variant of
the worklist loop of `Pull`. -/
theorem pullVisit_measure {r : Register} {graph graph' : Graph} {name : String}
    (hreg : name ∈ r.Grexes) (hng : name ∉ graph)
    (hmem : ∀ n, n ∈ graph' ↔ n = name ∨ n ∈ graph) :
    (r.Grexes.keys.filter (fun k => decide (k ∉ graph'))).length <
      (r.Grexes.keys.filter (fun k => decide (k ∉ graph))).length := by
  have hsub : r.Grexes.keys.filter (fun k => decide (k ∉ graph')) =
      (r.Grexes.keys.filter (fun k => decide (k ∉ graph))).filter
        (fun k => decide (k ∉ graph')) := by
    rw [List.filter_filter]
    apply List.filter_congr
    intro x _
    by_cases hx : x ∈ graph
    · have : x ∈ graph' := (hmem x).mpr (Or.inr hx)
      simp [hx, this]
    · simp [hx]
  rw [hsub, List.length_filter_lt_length_iff_exists]
  refine ⟨name, ?_, ?_⟩
  · rw [List.mem_filter]
    exact ⟨AList.mem_keys.mp hreg, by simpa using hng⟩
  · have : name ∈ graph' := (hmem name).mpr (Or.inl rfl)
    simpa using this

theorem pullLoop_inv {r : Register} (hwf : RegWF r) {roots : List String} :
    ∀ (fuel : Nat) (picks : List Nat) (s : PullState) (res : Except String PullState),
      PullInv r roots s → pullLoop r fuel picks s = .done res →
      ∃ s', res = .ok s' ∧ PullInv r roots s' ∧ s'.todo.keys = [] := by
  intro fuel
  induction fuel with
  | zero =>
    intro picks s res inv h
    unfold pullLoop at h
    split at h
    · rename_i hk
      simp only [Run.done.injEq] at h
      exact ⟨s, h.symm, inv, hk⟩
    · simp at h
  | succ fuel ih =>
    intro picks s res inv h
    unfold pullLoop at h
    split at h
    · rename_i hk
      simp only [Run.done.injEq] at h
      exact ⟨s, h.symm, inv, hk⟩
    · rename_i t ts hk
      have hmem : (t :: ts).getD (picks.headD 0 % (ts.length + 1)) t ∈ s.todo := by
        rw [AList.mem_keys, hk]; exact getD_mod_mem t ts _
      obtain ⟨s', hv, inv', _⟩ := pullVisit_inv hwf inv hmem
      simp only [hv] at h
      exact ih _ _ _ inv' h

theorem pullLoop_terminates {r : Register} (hwf : RegWF r) {roots : List String} :
    ∀ (fuel : Nat) (picks : List Nat) (s : PullState), PullInv r roots s →
      (r.Grexes.keys.filter (fun k => decide (k ∉ s.graph))).length ≤ fuel →
      ∃ res, pullLoop r fuel picks s = .done res := by
  intro fuel
  induction fuel with
  | zero =>
    intro picks s inv hlen
    unfold pullLoop
    split
    · exact ⟨_, rfl⟩
    · rename_i t ts hk
      exfalso
      have ht : t ∈ s.todo := by rw [AList.mem_keys, hk]; simp
      obtain ⟨⟨g, hg⟩, hng⟩ := inv.todo_reg t ht
      have : t ∈ r.Grexes.keys.filter (fun k => decide (k ∉ s.graph)) := by
        rw [List.mem_filter]
        exact ⟨AList.mem_keys.mp (mem_of_lookup_eq_some hg), by simpa using hng⟩
      have := List.length_pos_of_mem this
      omega
  | succ fuel ih =>
    intro picks s inv hlen
    unfold pullLoop
    split
    · exact ⟨_, rfl⟩
    · rename_i t ts hk
      have hmem : (t :: ts).getD (picks.headD 0 % (ts.length + 1)) t ∈ s.todo := by
        rw [AList.mem_keys, hk]; exact getD_mod_mem t ts _
      obtain ⟨s', hv, inv', hng, hg⟩ := pullVisit_inv hwf inv hmem
      obtain ⟨⟨g, hreg⟩, _⟩ := inv.todo_reg _ hmem
      have hlt := pullVisit_measure (r := r) (mem_of_lookup_eq_some hreg) hng hg
      simp only [hv]
      exact ih _ _ inv' (by omega)

theorem pullExpanded_nodup {r : Register} (hwf : RegWF r) {roots : List String} :
    ∀ (fuel : Nat) (picks : List Nat) (s : PullState), PullInv r roots s →
      (pullExpanded r fuel picks s).Nodup ∧
      (∀ n ∈ pullExpanded r fuel picks s, n ∉ s.graph) ∧
      (pullExpanded r fuel picks s).length ≤
        (r.Grexes.keys.filter (fun k => decide (k ∉ s.graph))).length := by
  intro fuel
  induction fuel with
  | zero =>
    intro picks s _
    unfold pullExpanded
    split <;> simp
  | succ fuel ih =>
    intro picks s inv
    unfold pullExpanded
    split
    · simp
    · rename_i t ts hk
      have hmem : (t :: ts).getD (picks.headD 0 % (ts.length + 1)) t ∈ s.todo := by
        rw [AList.mem_keys, hk]; exact getD_mod_mem t ts _
      obtain ⟨s', hv, inv', hng, hg⟩ := pullVisit_inv hwf inv hmem
      obtain ⟨⟨g, hreg⟩, _⟩ := inv.todo_reg _ hmem
      have hlt := pullVisit_measure (r := r) (mem_of_lookup_eq_some hreg) hng hg
      obtain ⟨h1, h2, h3⟩ := ih picks.tail s' inv'
      simp only [hv]
      refine ⟨?_, ?_, ?_⟩
      · rw [List.nodup_cons]
        refine ⟨fun hc => ?_, h1⟩
        exact h2 _ hc ((hg _).mpr (Or.inl rfl))
      · intro n hn
        rcases List.mem_cons.mp hn with h | h
        · rw [h]; exact hng
        · exact fun hc => h2 n h ((hg n).mpr (Or.inr hc))
      · rw [List.length_cons]
        omega

theorem pullSeed_inv {lower : String → String} {r : Register} (hwf : RegWF r)
    {os : List (List Nat)} {qs : List String} {todo : GoMap Bool}
    (h : pullSeed lower r os qs ∅ = .ok todo) :
    PullInv r (fuzzyNames lower r os qs) ⟨∅, todo, ∅⟩ := by
  obtain ⟨_, hmem⟩ := pullSeed_ok lower r qs os ∅ todo h
  have hmem' : ∀ n, n ∈ todo ↔ n ∈ fuzzyNames lower r os qs := by
    intro n; rw [hmem n]; simp
  refine ⟨?_, ?_, ?_, ?_, ?_, ?_⟩
  · intro n deps hn; simp at hn
  · intro n hn
    exact ⟨fuzzyNames_lookup hwf qs os n ((hmem' n).mp hn), AList.not_mem_empty n⟩
  · intro n hn; simp at hn
  · intro n g hn; simp at hn
  · intro n hn; exact Or.inr ((hmem' n).mpr hn)
  · intro n hn
    rcases hn with h | h | h
    · simp at h
    · exact Closure.root ((hmem' n).mp h)
    · simp at h

theorem lookup_foldl_insert_nil (l : List String) :
    ∀ (graph : Graph) (n : String),
      (l.foldl (fun graph name => graph.insert name []) graph).lookup n =
        if n ∈ l then some [] else graph.lookup n := by
  induction l with
  | nil => intro graph n; simp
  | cons a l ih =>
    intro graph n
    simp only [List.foldl_cons]
    rw [ih, lookup_insert_ite]
    by_cases h1 : n ∈ l
    · simp [h1]
    · by_cases h2 : n = a
      · simp [h2]
      · simp [h1, h2]

/-- What a successful `Pull` returns on a register storing each record under
its own name: the keys are the ancestry closure of the names `FuzzyLookup`
returned, a register record is mapped to its `[Seed, Pollen]` and any other
name to the empty list; every query name has a match. -/
theorem pull_ok_spec {lower : String → String} {σ : PullSched} {fuel : Nat} {r : Register}
    {qs : List String} {graph : Graph} (hwf : RegWF r)
    (h : r.Pull lower σ fuel qs = .done (some graph, none)) :
    (∀ n, n ∈ graph ↔ Closure r (fuzzyNames lower r σ.fuzzy qs) n) ∧
    (∀ n, n ∈ graph → graph.lookup n = some
      (match r.Lookup n with
        | some g => [g.Seed, g.Pollen]
        | none => [])) ∧
    (∀ q ∈ qs, hasMatch lower r q = true) := by
  unfold Register.Pull at h
  split at h
  · simp at h
  · rename_i todo hseed
    have inv0 := pullSeed_inv hwf hseed
    split at h
    · simp at h
    · simp at h
    · simp at h
    · rename_i s hloop
      obtain ⟨s', hs', inv, htodo⟩ := pullLoop_inv hwf fuel σ.picks _ _ inv0 hloop
      simp only [Except.ok.injEq] at hs'
      subst hs'
      simp only [Run.done.injEq, Prod.mk.injEq, Option.some.injEq, and_true] at h
      have hnt : ∀ n, n ∉ s.todo := (keys_eq_nil_iff s.todo).mp htodo
      have hlk : ∀ n, graph.lookup n =
          if n ∈ s.unknown then some [] else s.graph.lookup n := by
        intro n
        rw [← h, lookup_foldl_insert_nil]
        have : n ∈ rangeOrder σ.unknown s.unknown.keys ↔ n ∈ s.unknown := by
          rw [(rangeOrder_perm σ.unknown s.unknown.keys).mem_iff, AList.mem_keys]
        simp only [this]
      have hmem : ∀ n, n ∈ graph ↔ n ∈ s.unknown ∨ n ∈ s.graph := by
        intro n
        rw [mem_iff_lookup_ne_none, hlk n]
        by_cases hu : n ∈ s.unknown
        · simp [hu]
        · simp [hu, mem_iff_lookup_ne_none]
      refine ⟨fun n => ⟨fun hn => ?_, fun hn => ?_⟩, fun n hn => ?_,
        (pullSeed_ok lower r qs σ.fuzzy ∅ todo hseed).1⟩
      · rcases (hmem n).mp hn with hu | hg
        · exact inv.sound n (Or.inr (Or.inr hu))
        · exact inv.sound n (Or.inl hg)
      · rw [hmem]
        induction hn with
        | root hr =>
          rcases inv.roots_in _ hr with h1 | h1
          · exact Or.inr h1
          · exact absurd h1 (hnt _)
        | @seed m g _ hg ih =>
          rcases ih with hu | hgm
          · rw [inv.unknown_reg m hu] at hg; simp at hg
          · rcases inv.closed m g hgm hg g.Seed (Or.inl rfl) with h1 | h1 | h1
            · exact Or.inr h1
            · exact absurd h1 (hnt _)
            · exact Or.inl h1
        | @pollen m g _ hg ih =>
          rcases ih with hu | hgm
          · rw [inv.unknown_reg m hu] at hg; simp at hg
          · rcases inv.closed m g hgm hg g.Pollen (Or.inr rfl) with h1 | h1 | h1
            · exact Or.inr h1
            · exact absurd h1 (hnt _)
            · exact Or.inl h1
      · rw [hlk n]
        by_cases hu : n ∈ s.unknown
        · simp [hu, inv.unknown_reg n hu]
        · have hg : n ∈ s.graph := ((hmem n).mp hn).resolve_left hu
          obtain ⟨deps, hdeps⟩ := exists_lookup_of_mem hg
          obtain ⟨g, hg1, hg2⟩ := inv.graph_reg n deps hdeps
          simp [hu, hdeps, hg1, hg2]

/-! ## What `Pull` returns -/

theorem mkRegister_wf (gs : List Grex) : RegWF (mkRegister gs) := by
  unfold mkRegister RegWF
  simp only
  suffices hgen : ∀ (m : GoMap Grex), (∀ k g, m.lookup k = some g → g.Name = k) →
      ∀ k g, (gs.foldl (fun m g => m.insert g.Name g) m).lookup k = some g → g.Name = k from
    hgen ∅ (fun k g h => by simp at h)
  induction gs with
  | nil => intro m hm; exact hm
  | cons a gs ih =>
    intro m hm
    simp only [List.foldl_cons]
    apply ih
    intro k g hk
    rw [lookup_insert_ite] at hk
    by_cases h : k = a.Name
    · simp only [h, if_true, Option.some.injEq] at hk
      rw [← hk, h]
    · simp only [h, if_false] at hk
      exact hm k g hk

/-- An unmatched query name makes `Pull` fail in its first loop, whatever the fuel. -/
theorem pull_error_of_unmatched (lower : String → String) (σ : PullSched) (fuel : Nat)
    (r : Register) (qs : List String) (hq : ∃ q ∈ qs, hasMatch lower r q = false) :
    ∃ q, qs.find? (fun q => !hasMatch lower r q) = some q ∧
      r.Pull lower σ fuel qs = .done (none, some ("not found: " ++ q)) := by
  cases hseed : pullSeed lower r σ.fuzzy qs ∅ with
  | ok todo =>
    obtain ⟨q, hq1, hq2⟩ := hq
    have := (pullSeed_ok lower r qs σ.fuzzy ∅ todo hseed).1 q hq1
    rw [hq2] at this
    simp at this
  | error e =>
    obtain ⟨q, hfind, he⟩ := pullSeed_error lower r qs σ.fuzzy ∅ e hseed
    refine ⟨q, hfind, ?_⟩
    unfold Register.Pull
    rw [hseed, he]

/-- The possible results of `Pull` on a register storing each record under its
own name: the error for the first unmatched query name, or a graph. -/
theorem pull_done_cases {lower : String → String} {σ : PullSched} {fuel : Nat} {r : Register}
    {qs : List String} (hwf : RegWF r) {res : Option Graph × Option String}
    (h : r.Pull lower σ fuel qs = .done res) :
    (∃ q, qs.find? (fun q => !hasMatch lower r q) = some q ∧
        res = (none, some ("not found: " ++ q))) ∨
      ((∀ q ∈ qs, hasMatch lower r q = true) ∧ ∃ graph, res = (some graph, none)) := by
  unfold Register.Pull at h
  split at h
  · rename_i e hseed
    obtain ⟨q, hfind, he⟩ := pullSeed_error lower r qs σ.fuzzy ∅ e hseed
    simp only [Run.done.injEq] at h
    exact Or.inl ⟨q, hfind, by rw [← h, he]⟩
  · rename_i todo hseed
    have inv0 := pullSeed_inv hwf hseed
    split at h
    · simp at h
    · simp at h
    · rename_i e hloop
      obtain ⟨s', hs', _⟩ := pullLoop_inv hwf fuel σ.picks _ _ inv0 hloop
      simp at hs'
    · simp only [Run.done.injEq] at h
      exact Or.inr ⟨(pullSeed_ok lower r qs σ.fuzzy ∅ todo hseed).1, _, h.symm⟩

/-- The function `Pull` returns on a register storing each record under its own name, given
one unit of fuel per record. -/
theorem pull_total (lower : String → String) (σ : PullSched) (fuel : Nat) (r : Register)
    (qs : List String) (hwf : RegWF r) (hfuel : r.Grexes.keys.length ≤ fuel) :
    ∃ res, r.Pull lower σ fuel qs = .done res := by
  unfold Register.Pull
  split
  · exact ⟨_, rfl⟩
  · rename_i todo hseed
    have inv0 := pullSeed_inv hwf hseed
    obtain ⟨res, hres⟩ := pullLoop_terminates hwf fuel σ.picks _ inv0
      (le_trans (List.length_filter_le _ _) hfuel)
    rw [hres]
    cases res with
    | error e => exact ⟨_, rfl⟩
    | ok s => exact ⟨_, rfl⟩

theorem fuzzyNames_eq_of_uniqueMatch {lower : String → String} {r : Register} :
    ∀ (qs : List String) (os1 os2 : List (List Nat)), UniqueMatch lower r qs →
      fuzzyNames lower r os1 qs = fuzzyNames lower r os2 qs := by
  intro qs
  induction qs with
  | nil => intro os1 os2 _; simp [fuzzyNames]
  | cons q qs ih =>
    intro os1 os2 hu
    have hu' : UniqueMatch lower r qs := fun q' hq' => hu q' (List.mem_cons_of_mem _ hq')
    have ih' := ih os1.tail os2.tail hu'
    unfold fuzzyNames
    cases h1 : r.FuzzyLookup lower (os1.headD []) q with
    | none =>
      have := (fuzzyLookup_eq_none_iff lower (os1.headD []) r q).mp h1
      rw [(fuzzyLookup_eq_none_iff lower (os2.headD []) r q).mpr this]
      exact ih'
    | some g1 =>
      cases h2 : r.FuzzyLookup lower (os2.headD []) q with
      | none =>
        have := (fuzzyLookup_eq_none_iff lower (os2.headD []) r q).mp h2
        rw [(fuzzyLookup_eq_none_iff lower (os1.headD []) r q).mpr this] at h1
        simp at h1
      | some g2 =>
        obtain ⟨⟨k1, hk1⟩, hl1⟩ := fuzzyLookup_some h1
        obtain ⟨⟨k2, hk2⟩, hl2⟩ := fuzzyLookup_some h2
        have hn := hu q (List.mem_cons_self _ _) ⟨k1, g1⟩
          ((mem_entries_iff_lookup r.Grexes k1 g1).mpr hk1) ⟨k2, g2⟩
          ((mem_entries_iff_lookup r.Grexes k2 g2).mpr hk2) hl1 hl2
        simp only at hn
        simp only [hn, ih']

theorem pull_parents {lower : String → String} {σ : PullSched} {fuel : Nat} {r : Register}
    {qs : List String} {graph : Graph} (hwf : RegWF r)
    (h : r.Pull lower σ fuel qs = .done (some graph, none)) (n : String) (hn : n ∈ graph) :
    parents graph n =
      (match r.Lookup n with
        | some g => [g.Seed, g.Pollen]
        | none => []) := by
  unfold parents
  rw [(pull_ok_spec hwf h).2.1 n hn]
  rfl

/-- The graph `Pull` returns on a register storing each record under its own
name is closed. -/
theorem pull_closed {lower : String → String} {σ : PullSched} {fuel : Nat} {r : Register}
    {qs : List String} {graph : Graph} (hwf : RegWF r)
    (h : r.Pull lower σ fuel qs = .done (some graph, none)) : Closed graph := by
  intro n p hp
  have hn : n ∈ graph := mem_graph_of_mem_parents hp
  have hcl := ((pull_ok_spec hwf h).1 n).mp hn
  rw [pull_parents hwf h n hn] at hp
  rw [(pull_ok_spec hwf h).1 p]
  cases hg : r.Lookup n with
  | none => simp [hg] at hp
  | some g =>
    simp only [hg, List.mem_cons, List.mem_singleton, List.not_mem_nil, or_false] at hp
    rcases hp with rfl | rfl
    · exact Closure.seed hcl hg
    · exact Closure.pollen hcl hg

/-! ## Properties of `Pull` -/

/-- C5. On a register storing each record under its own name, every name that
appears as a parent value in the graph returned by a successful `Pull` is a key
of that graph; a parent that is not a register record is a key mapped to the
empty parent list. -/
theorem pull_parent_is_key (lower : String → String) (σ : PullSched) (fuel : Nat)
    (r : Register) (qs : List String) (graph : Graph) (hwf : RegWF r)
    (h : r.Pull lower σ fuel qs = .done (some graph, none)) (n p : String)
    (hp : p ∈ parents graph n) :
    p ∈ graph ∧ (r.Lookup p = none → graph.lookup p = some []) := by
  have hpg : p ∈ graph := pull_closed hwf h n p hp
  refine ⟨hpg, fun hnone => ?_⟩
  rw [(pull_ok_spec hwf h).2.1 p hpg, hnone]

theorem pull_parent_is_key_witness :
    "B" ∈ mkGraph [("A", ["B", "C"]), ("C", []), ("B", [])] ∧
      (regRoot.Lookup "B" = none →
        (mkGraph [("A", ["B", "C"]), ("C", []), ("B", [])]).lookup "B" = some []) :=
  pull_parent_is_key asciiLower pullSched0 1 regRoot ["a"]
    (mkGraph [("A", ["B", "C"]), ("C", []), ("B", [])]) (mkRegister_wf _) (by rfl)
    "A" "B" (by decide)

/-- C6. On a register storing each record under its own name, the key set of
the graph returned by a successful `Pull` is exactly the ancestry closure of the
queries: the smallest set containing the canonical names `FuzzyLookup` returned
for the query names and, with the name of a register record, its `Seed` and
`Pollen` references (names absent from the register are members but are not
expanded). -/
theorem pull_keys_eq_closure (lower : String → String) (σ : PullSched) (fuel : Nat)
    (r : Register) (qs : List String) (graph : Graph) (hwf : RegWF r)
    (h : r.Pull lower σ fuel qs = .done (some graph, none)) (n : String) :
    n ∈ graph ↔ Closure r (fuzzyNames lower r σ.fuzzy qs) n :=
  ⟨fun hn => ((pull_ok_spec hwf h).1 n).mp hn, fun hn => ((pull_ok_spec hwf h).1 n).mpr hn⟩

theorem pull_keys_eq_closure_witness :
    "C" ∈ mkGraph [("A", ["B", "C"]), ("C", []), ("B", [])] ↔
      Closure regRoot (fuzzyNames asciiLower regRoot pullSched0.fuzzy ["a"]) "C" :=
  pull_keys_eq_closure asciiLower pullSched0 1 regRoot ["a"]
    (mkGraph [("A", ["B", "C"]), ("C", []), ("B", [])]) (mkRegister_wf _) (by rfl) "C"

/-- C7. On a register storing each record under its own name, `Pull` returns an
error if and only if some query name has no case-insensitive match; the error
is then "not found: q" for the first such query name `q` in list order, with no
graph; the not-found branch inside the worklist loop is never taken. -/
theorem pull_error_iff (lower : String → String) (σ : PullSched) (fuel : Nat)
    (r : Register) (qs : List String) (hwf : RegWF r) :
    ((∃ g e, r.Pull lower σ fuel qs = .done (g, some e)) ↔
        ∃ q ∈ qs, hasMatch lower r q = false) ∧
    (∀ g e, r.Pull lower σ fuel qs = .done (g, some e) → g = none ∧
        ∃ q, qs.find? (fun q => !hasMatch lower r q) = some q ∧ e = "not found: " ++ q) ∧
    (∀ todo e, pullSeed lower r σ.fuzzy qs ∅ = .ok todo →
        pullLoop r fuel σ.picks ⟨∅, todo, ∅⟩ ≠ .done (.error e)) := by
  have hsecond : ∀ g e, r.Pull lower σ fuel qs = .done (g, some e) → g = none ∧
      ∃ q, qs.find? (fun q => !hasMatch lower r q) = some q ∧ e = "not found: " ++ q := by
    intro g e h
    rcases pull_done_cases hwf h with ⟨q, hfind, hres⟩ | ⟨_, graph, hres⟩
    · simp only [Prod.mk.injEq, Option.some.injEq] at hres
      exact ⟨hres.1, q, hfind, hres.2⟩
    · simp at hres
  refine ⟨⟨?_, ?_⟩, hsecond, ?_⟩
  · rintro ⟨g, e, h⟩
    obtain ⟨_, q, hfind, _⟩ := hsecond g e h
    refine ⟨q, List.mem_of_find?_eq_some hfind, ?_⟩
    simpa using List.find?_some hfind
  · intro hq
    obtain ⟨q, _, h⟩ := pull_error_of_unmatched lower σ fuel r qs hq
    exact ⟨none, _, h⟩
  · intro todo e hseed hloop
    obtain ⟨s', hs', _⟩ := pullLoop_inv hwf fuel σ.picks _ _ (pullSeed_inv hwf hseed) hloop
    simp at hs'

theorem pull_error_iff_witness :
    ((∃ g e, regRoot.Pull asciiLower pullSched0 1 ["a", "zz", "yy"] = .done (g, some e)) ↔
        ∃ q ∈ ["a", "zz", "yy"], hasMatch asciiLower regRoot q = false) ∧
    (∀ g e, regRoot.Pull asciiLower pullSched0 1 ["a", "zz", "yy"] = .done (g, some e) →
        g = none ∧ ∃ q, ["a", "zz", "yy"].find? (fun q => !hasMatch asciiLower regRoot q)
          = some q ∧ e = "not found: " ++ q) ∧
    (∀ todo e, pullSeed asciiLower regRoot pullSched0.fuzzy ["a", "zz", "yy"] ∅ = .ok todo →
        pullLoop regRoot 1 pullSched0.picks ⟨∅, todo, ∅⟩ ≠ .done (.error e)) :=
  pull_error_iff asciiLower pullSched0 1 regRoot ["a", "zz", "yy"] (mkRegister_wf _)

/-- C8. On a finite register storing each record under its own name (cyclic
parent references included), the worklist loop of `Pull` terminates: with one
unit of fuel per record `Pull` returns; and no name is taken from the worklist
and expanded twice. -/
theorem pull_terminates (lower : String → String) (σ : PullSched) (fuel : Nat)
    (r : Register) (qs : List String) (hwf : RegWF r)
    (hfuel : r.Grexes.keys.length ≤ fuel) :
    (∃ res, r.Pull lower σ fuel qs = .done res) ∧
    (∀ todo, pullSeed lower r σ.fuzzy qs ∅ = .ok todo →
      (∃ res, pullLoop r fuel σ.picks ⟨∅, todo, ∅⟩ = .done res) ∧
      (pullExpanded r fuel σ.picks ⟨∅, todo, ∅⟩).Nodup ∧
      (pullExpanded r fuel σ.picks ⟨∅, todo, ∅⟩).length ≤ r.Grexes.keys.length) := by
  refine ⟨pull_total lower σ fuel r qs hwf hfuel, fun todo hseed => ?_⟩
  have inv0 := pullSeed_inv hwf hseed
  obtain ⟨h1, _, h3⟩ := pullExpanded_nodup hwf fuel σ.picks _ inv0
  exact ⟨pullLoop_terminates hwf fuel σ.picks _ inv0
    (le_trans (List.length_filter_le _ _) hfuel), h1,
    le_trans h3 (List.length_filter_le _ _)⟩

theorem pull_terminates_witness :
    (∃ res, regLoop.Pull asciiLower pullSched0 1 ["a"] = .done res) ∧
    (∀ todo, pullSeed asciiLower regLoop pullSched0.fuzzy ["a"] ∅ = .ok todo →
      (∃ res, pullLoop regLoop 1 pullSched0.picks ⟨∅, todo, ∅⟩ = .done res) ∧
      (pullExpanded regLoop 1 pullSched0.picks ⟨∅, todo, ∅⟩).Nodup ∧
      (pullExpanded regLoop 1 pullSched0.picks ⟨∅, todo, ∅⟩).length
        ≤ regLoop.Grexes.keys.length) :=
  pull_terminates asciiLower pullSched0 1 regLoop ["a"] (mkRegister_wf _) (by decide)

/-! ## `Pull` followed by `Sort` -/

/-- After `Pull` and `Sort`, the nodes of layer 0 are the names that are not
register records. -/
theorem pull_sort_layer_zero {lower : String → String} {σ : PullSched} {fuel : Nat}
    {r : Register} {qs : List String} {graph : Graph} {σ' : SortSched} {fuel' : Nat}
    {layers : List (List String)} (hwf : RegWF r)
    (hp : r.Pull lower σ fuel qs = .done (some graph, none))
    (hs : GoSort σ' fuel' graph = .done (some layers, none)) (n : String) (hn : n ∈ graph) :
    layerOf n layers = some 0 ↔ r.Lookup n = none := by
  have hl := (GoSort_layer_eq σ' fuel' graph layers hs n hn).1
  have hpar := pull_parents hwf hp n hn
  rw [hl, hpar]
  cases hg : r.Lookup n with
  | none => simp
  | some g => simp

/-- C9 fails as stated.  In the register holding the single record `A` (seed
`B`, pollen `C`, neither registered), `Pull` of `A` and `Sort` succeed, no
parent reference of `A` is a register record, and yet `A` is in layer 1: the
untraced parents are nodes of the graph and fill layer 0. -/
theorem pull_sort_true_root_counterexample :
    regRoot.Pull asciiLower pullSched0 1 ["A"] =
        .done (some (mkGraph [("A", ["B", "C"]), ("C", []), ("B", [])]), none) ∧
      GoSort sched0 3 (mkGraph [("A", ["B", "C"]), ("C", []), ("B", [])]) =
        .done (some [["B", "C"], ["A"]], none) ∧
      (∀ p ∈ parents (mkGraph [("A", ["B", "C"]), ("C", []), ("B", [])]) "A",
        regRoot.Lookup p = none) ∧
      layerOf "A" [["B", "C"], ["A"]] = some 1 ∧
      ¬ (layerOf "A" [["B", "C"], ["A"]] = some 0 ↔
          ∀ p ∈ parents (mkGraph [("A", ["B", "C"]), ("C", []), ("B", [])]) "A",
            regRoot.Lookup p = none) := by
  refine ⟨by rfl, by decide, by decide, by decide, by decide⟩

/-- C9, amended.  After a successful `Pull` and `Sort`, a node is in layer 0 if
and only if its parent list in the graph is empty.  On a register storing each
record under its own name this is the case exactly for the untraced leaves
(names that are not register records), and a node is in layer 1 if and only if
it is a register record none of whose parent references is a register record:
true roots get layer 1. -/
theorem pull_sort_layer_zero_one (lower : String → String) (σ : PullSched) (fuel : Nat)
    (r : Register) (qs : List String) (graph : Graph) (σ' : SortSched) (fuel' : Nat)
    (layers : List (List String))
    (hp : r.Pull lower σ fuel qs = .done (some graph, none))
    (hs : GoSort σ' fuel' graph = .done (some layers, none)) (n : String) (hn : n ∈ graph) :
    (layerOf n layers = some 0 ↔ parents graph n = []) ∧
    (RegWF r →
      (layerOf n layers = some 0 ↔ r.Lookup n = none) ∧
      (layerOf n layers = some 1 ↔
        ∃ g, r.Lookup n = some g ∧ r.Lookup g.Seed = none ∧ r.Lookup g.Pollen = none)) := by
  have hl := (GoSort_layer_eq σ' fuel' graph layers hs n hn).1
  refine ⟨?_, fun hwf => ⟨pull_sort_layer_zero hwf hp hs n hn, ?_⟩⟩
  · rw [hl]
    by_cases hnil : parents graph n = []
    · simp [hnil]
    · simp [hnil]
  have hpar := pull_parents hwf hp n hn
  cases hg : r.Lookup n with
  | none =>
    rw [hg] at hpar
    simp only at hpar
    rw [hl, hpar]
    simp
  | some g =>
    rw [hg] at hpar
    simp only at hpar
    have hzero : ∀ p, p ∈ parents graph n →
        ((layerOf p layers).getD 0 = 0 ↔ r.Lookup p = none) := by
      intro p hpp
      have hpg : p ∈ graph := pull_closed hwf hp n p hpp
      obtain ⟨j, hj⟩ := (GoSort_layer_eq σ' fuel' graph layers hs n hn).2 p hpp
      rw [← pull_sort_layer_zero hwf hp hs p hpg, hj]
      simp
    have hs1 := hzero g.Seed (by rw [hpar]; simp)
    have hs2 := hzero g.Pollen (by rw [hpar]; simp)
    rw [hl, hpar]
    simp only [maxLayer, List.map_cons, List.map_nil, List.foldr_cons, List.foldr_nil,
      Option.some.injEq, reduceCtorEq, if_false]
    constructor
    · intro h
      refine ⟨g, rfl, hs1.mp ?_, hs2.mp ?_⟩ <;> omega
    · rintro ⟨g', hg', h1, h2⟩
      subst hg'
      have e1 := hs1.mpr h1
      have e2 := hs2.mpr h2
      omega

theorem pull_sort_layer_zero_one_witness :
    (layerOf "A" [["B", "C"], ["A"]] = some 0 ↔
      parents (mkGraph [("A", ["B", "C"]), ("C", []), ("B", [])]) "A" = []) ∧
    (layerOf "A" [["B", "C"], ["A"]] = some 0 ↔ regRoot.Lookup "A" = none) ∧
    (layerOf "A" [["B", "C"], ["A"]] = some 1 ↔
      ∃ g, regRoot.Lookup "A" = some g ∧ regRoot.Lookup g.Seed = none ∧
        regRoot.Lookup g.Pollen = none) :=
  have h := pull_sort_layer_zero_one asciiLower pullSched0 1 regRoot ["A"]
    (mkGraph [("A", ["B", "C"]), ("C", []), ("B", [])]) sched0 3 [["B", "C"], ["A"]]
    (by rfl) (by decide) "A" (by decide)
  ⟨h.1, h.2 (mkRegister_wf _)⟩

/-! ## Determinism of `Pull` -/

/-- C10 fails as stated, in two ways.  In a register with the two records `Ab`
and `ab`, the query `aB` is resolved by `FuzzyLookup` to whichever record the
iteration over the register meets first, and the two runs of `Pull` return
graphs with different keys.  In a register whose records `P2` and `Q2` are not
stored under their own names, the worklist holds two names that cannot be
fetched and the error names whichever the iteration over the worklist meets
first. -/
theorem pull_fuzzy_order_counterexample :
    (regCase.Pull asciiLower ⟨[[0]], [], []⟩ 2 ["aB"] =
        .done (some (mkGraph [("ab", ["Y", ""]), ("", []), ("Y", [])]), none) ∧
      regCase.Pull asciiLower ⟨[[1]], [], []⟩ 2 ["aB"] =
        .done (some (mkGraph [("Ab", ["X", ""]), ("", []), ("X", [])]), none) ∧
      (mkGraph [("ab", ["Y", ""]), ("", []), ("Y", [])]).lookup "ab" ≠
        (mkGraph [("Ab", ["X", ""]), ("", []), ("X", [])]).lookup "ab") ∧
    (regMisfiled.Pull asciiLower ⟨[], [0, 0], []⟩ 3 ["A"] =
        .done (none, some "not found: Q2") ∧
      regMisfiled.Pull asciiLower ⟨[], [0, 1], []⟩ 3 ["A"] =
        .done (none, some "not found: P2")) := by
  refine ⟨⟨by rfl, by rfl, by decide⟩, by rfl, by rfl⟩

/-- C10, amended.  On a register storing each record under its own name in
which every query name matches at most one record name up to case, two runs of
`Pull` on the same inputs return, whatever the iteration orders of the register,
the worklist and the unknown set, either the same error or graphs with the
same keys and the same parent list for every key. -/
theorem pull_deterministic (lower : String → String) (r : Register) (qs : List String)
    (σ1 σ2 : PullSched) (fuel1 fuel2 : Nat) (hwf : RegWF r)
    (huniq : UniqueMatch lower r qs)
    (hfuel1 : r.Grexes.keys.length ≤ fuel1) (hfuel2 : r.Grexes.keys.length ≤ fuel2) :
    (∃ e, r.Pull lower σ1 fuel1 qs = .done (none, some e) ∧
        r.Pull lower σ2 fuel2 qs = .done (none, some e)) ∨
    (∃ g1 g2, r.Pull lower σ1 fuel1 qs = .done (some g1, none) ∧
        r.Pull lower σ2 fuel2 qs = .done (some g2, none) ∧
        ∀ n, g1.lookup n = g2.lookup n) := by
  obtain ⟨res1, h1⟩ := pull_total lower σ1 fuel1 r qs hwf hfuel1
  obtain ⟨res2, h2⟩ := pull_total lower σ2 fuel2 r qs hwf hfuel2
  rcases pull_done_cases hwf h1 with ⟨q1, hf1, hr1⟩ | ⟨hm1, g1, hr1⟩
  · rcases pull_done_cases hwf h2 with ⟨q2, hf2, hr2⟩ | ⟨hm2, g2, hr2⟩
    · rw [hf1] at hf2
      simp only [Option.some.injEq] at hf2
      subst hf2
      exact Or.inl ⟨_, by rw [h1, hr1], by rw [h2, hr2]⟩
    · have := hm2 q1 (List.mem_of_find?_eq_some hf1)
      have h' := List.find?_some hf1
      simp [this] at h'
  · rcases pull_done_cases hwf h2 with ⟨q2, hf2, hr2⟩ | ⟨hm2, g2, hr2⟩
    · have := hm1 q2 (List.mem_of_find?_eq_some hf2)
      have h' := List.find?_some hf2
      simp [this] at h'
    · rw [hr1] at h1
      rw [hr2] at h2
      refine Or.inr ⟨g1, g2, h1, h2, fun n => ?_⟩
      obtain ⟨a1, a2, _⟩ := pull_ok_spec hwf h1
      obtain ⟨b1, b2, _⟩ := pull_ok_spec hwf h2
      have hroots := fuzzyNames_eq_of_uniqueMatch qs σ1.fuzzy σ2.fuzzy huniq
      have hmem : n ∈ g1 ↔ n ∈ g2 := by rw [a1 n, b1 n, hroots]
      by_cases hn : n ∈ g1
      · rw [a2 n hn, b2 n (hmem.mp hn)]
      · have hn2 : n ∉ g2 := fun h => hn (hmem.mpr h)
        rw [AList.lookup_eq_none.mpr hn, AList.lookup_eq_none.mpr hn2]

theorem pull_deterministic_witness :
    (∃ e, regRoot.Pull asciiLower pullSched0 1 ["a"] = .done (none, some e) ∧
        regRoot.Pull asciiLower ⟨[[3]], [2], [1]⟩ 5 ["a"] = .done (none, some e)) ∨
    (∃ g1 g2, regRoot.Pull asciiLower pullSched0 1 ["a"] = .done (some g1, none) ∧
        regRoot.Pull asciiLower ⟨[[3]], [2], [1]⟩ 5 ["a"] = .done (some g2, none) ∧
        ∀ n, g1.lookup n = g2.lookup n) :=
  pull_deterministic asciiLower regRoot ["a"] pullSched0 ⟨[[3]], [2], [1]⟩ 1 5
    (mkRegister_wf _) (by unfold UniqueMatch; decide) (by decide) (by decide)

/-! ## The output of `Plot` -/

theorem entries_length_insert_of_not_mem {V : Type} {m : GoMap V} {a : String} (b : V)
    (h : a ∉ m) : (m.insert a b).entries.length = m.entries.length + 1 := by
  rw [AList.insert_entries_of_neg h, List.length_cons]

theorem highlight_lookup (lower : String → String) (sources : List String) :
    ∀ (hl0 : GoMap Bool) (x : String),
      ((sources.foldl (fun (hl : GoMap Bool) name => hl.insert (lower name) true) hl0).lookup
        x).getD false = (sources.any (fun s => decide (lower s = x)) || (hl0.lookup x).getD false) := by
  induction sources with
  | nil => intro hl0 x; simp
  | cons a l ih =>
    intro hl0 x
    simp only [List.foldl_cons, List.any_cons]
    rw [ih, lookup_insert_ite]
    by_cases h : x = lower a
    · subst h; simp
    · have h' : ¬ lower a = x := fun e => h e.symm
      simp [h, h']

theorem plotNode_chunk (lower : String → String) (r : Register) (highlight : GoMap Bool)
    (s : PlotState) (node : String) :
    (plotNode lower r highlight s node).buff = s.buff ++
      [nodeDecl r s.id.entries.length node ((highlight.lookup (lower node)).getD false)] := by
  simp only [plotNode, nodeDecl, plotLabel, AList.lookup_insert, Option.getD_some]
  rfl

theorem plotNode_foldl (lower : String → String) (r : Register) (highlight : GoMap Bool) :
    ∀ (nodes : List String) (s : PlotState), (∀ n ∈ nodes, n ∉ s.id) → nodes.Nodup →
      (nodes.foldl (plotNode lower r highlight) s).buff = s.buff ++
          (nodes.enumFrom s.id.entries.length).map
            (fun kn => nodeDecl r kn.1 kn.2 ((highlight.lookup (lower kn.2)).getD false)) ∧
      (nodes.foldl (plotNode lower r highlight) s).id.entries.length =
          s.id.entries.length + nodes.length ∧
      (∀ n, (nodes.foldl (plotNode lower r highlight) s).id.lookup n =
          if n ∈ nodes then some ((s.id.entries.length + nodes.indexOf n : Nat) : Int)
          else s.id.lookup n) := by
  intro nodes
  induction nodes with
  | nil => intro s _ _; simp
  | cons a l ih =>
    intro s hnew hnd
    rw [List.nodup_cons] at hnd
    have ha : a ∉ s.id := hnew a (List.mem_cons_self _ _)
    have hid : (plotNode lower r highlight s a).id = s.id.insert a (s.id.entries.length : Int) := rfl
    have hlen : (plotNode lower r highlight s a).id.entries.length = s.id.entries.length + 1 := by
      rw [hid, entries_length_insert_of_not_mem _ ha]
    have hnew' : ∀ n ∈ l, n ∉ (plotNode lower r highlight s a).id := by
      intro n hn
      rw [hid, AList.mem_insert]
      have hne : n ≠ a := fun e => hnd.1 (e ▸ hn)
      simp [hne, hnew n (List.mem_cons_of_mem _ hn)]
    obtain ⟨h1, h2, h3⟩ := ih (plotNode lower r highlight s a) hnew' hnd.2
    simp only [List.foldl_cons]
    refine ⟨?_, ?_, fun n => ?_⟩
    · rw [h1, plotNode_chunk, hlen]
      simp [List.enumFrom_cons]
    · rw [h2, hlen, List.length_cons]; omega
    · rw [h3 n, hlen, hid, lookup_insert_ite]
      by_cases hna : n = a
      · subst hna
        simp [hnd.1]
      · have hne : ¬ a = n := fun e => hna e.symm
        by_cases hnl : n ∈ l
        · simp only [hnl, if_true, List.mem_cons, or_true, List.indexOf_cons_ne _ hne]
          congr 2
          omega
        · simp [hnl, hna]

theorem numberLayers_flatten :
    ∀ (layers : List (List String)) (k : Nat),
      (numberLayers k layers).flatten = layers.flatten.enumFrom k := by
  intro layers
  induction layers with
  | nil => intro k; simp [numberLayers]
  | cons l ls ih =>
    intro k
    simp only [numberLayers, List.flatten_cons, ih, List.enumFrom_append]

theorem plotLayer_foldl (lower : String → String) (r : Register) (highlight : GoMap Bool) :
    ∀ (layers : List (List String)) (s : PlotState), (∀ n ∈ layers.flatten, n ∉ s.id) →
      layers.flatten.Nodup →
      (layers.foldl (plotLayer lower r highlight) s).buff = s.buff ++
          layerBlocks r (fun n => (highlight.lookup (lower n)).getD false)
            (numberLayers s.id.entries.length layers) ∧
      (layers.foldl (plotLayer lower r highlight) s).id.entries.length =
          s.id.entries.length + layers.flatten.length ∧
      (∀ n, (layers.foldl (plotLayer lower r highlight) s).id.lookup n =
          if n ∈ layers.flatten
            then some ((s.id.entries.length + layers.flatten.indexOf n : Nat) : Int)
          else s.id.lookup n) := by
  intro layers
  induction layers with
  | nil => intro s _ _; simp [numberLayers, layerBlocks]
  | cons l ls ih =>
    intro s hnew hnd
    simp only [List.flatten_cons] at hnew hnd
    rw [List.nodup_append] at hnd
    obtain ⟨hndl, hndls, hdisj⟩ := hnd
    obtain ⟨a1, a2, a3⟩ := plotNode_foldl lower r highlight l
      ⟨s.id, s.buff ++ ["\t\x7brank=same;\n"]⟩
      (fun n hn => hnew n (List.mem_append_left _ hn)) hndl
    have hid : (plotLayer lower r highlight s l).id =
        (l.foldl (plotNode lower r highlight) ⟨s.id, s.buff ++ ["\t\x7brank=same;\n"]⟩).id := rfl
    have hbuff : (plotLayer lower r highlight s l).buff =
        (l.foldl (plotNode lower r highlight) ⟨s.id, s.buff ++ ["\t\x7brank=same;\n"]⟩).buff
          ++ ["\t\x7d\n"] := rfl
    have hnew' : ∀ n ∈ ls.flatten, n ∉ (plotLayer lower r highlight s l).id := by
      intro n hn
      rw [mem_iff_lookup_ne_none, hid, a3 n]
      have hnl : n ∉ l := fun h => hdisj h hn
      simp only [hnl, if_false]
      rw [← mem_iff_lookup_ne_none]
      exact hnew n (List.mem_append_right _ hn)
    obtain ⟨b1, b2, b3⟩ := ih (plotLayer lower r highlight s l) hnew' hndls
    simp only [List.foldl_cons, List.flatten_cons]
    have hlen : (plotLayer lower r highlight s l).id.entries.length =
        s.id.entries.length + l.length := by rw [hid, a2]
    refine ⟨?_, ?_, fun n => ?_⟩
    · rw [b1, hbuff, a1, hlen]
      simp [numberLayers, layerBlocks]
    · rw [b2, hlen, List.length_append]; omega
    · rw [b3 n, hlen, hid, a3 n]
      by_cases hnl : n ∈ l
      · have hnls : n ∉ ls.flatten := fun h => hdisj hnl h
        simp [hnl, hnls, List.indexOf_append_of_mem hnl]
      · by_cases hnls : n ∈ ls.flatten
        · simp only [hnls, if_true, List.mem_append, or_true,
            List.indexOf_append_of_not_mem hnl]
          congr 2
          omega
        · simp [hnl, hnls]

theorem plotEdges_eq (id : GoMap Int) (e : Sigma (fun _ : String => List String)) :
    ∀ (buff : List String), plotEdges id buff e = buff ++ e.2.map (fun dep =>
      "\tN" ++ toString ((id.lookup dep).getD 0) ++ " -> N"
        ++ toString ((id.lookup e.1).getD 0) ++ "\n") := by
  unfold plotEdges
  induction e.2 with
  | nil => intro buff; simp
  | cons d ds ih => intro buff; simp [ih]

theorem plotEdges_foldl (id : GoMap Int) (es : List (Sigma (fun _ : String => List String))) :
    ∀ (buff : List String), es.foldl (plotEdges id) buff = buff ++ es.flatMap (fun e =>
      e.2.map (fun dep => "\tN" ++ toString ((id.lookup dep).getD 0) ++ " -> N"
        ++ toString ((id.lookup e.1).getD 0) ++ "\n")) := by
  induction es with
  | nil => intro buff; simp
  | cons e es ih => intro buff; simp [ih, plotEdges_eq]

theorem mem_of_layerOf_eq_some (n : String) :
    ∀ (ls : List (List String)) (k : Nat), layerOf n ls = some k → n ∈ ls.getD k []
  | [], _, h => by simp [layerOf] at h
  | l :: ls, k, h => by
    unfold layerOf at h
    split at h
    · rename_i hn
      simp only [Option.some.injEq] at h
      subst h
      simpa using hn
    · rw [Option.map_eq_some'] at h
      obtain ⟨j, hj, hjk⟩ := h
      subst hjk
      simpa using mem_of_layerOf_eq_some n ls j hj

/-- After a successful `Sort`, the layer with index `i` holds exactly the nodes
whose layer index is `i`; the layers hold every key once and nothing else. -/
theorem GoSort_mem_layer {σ : SortSched} {fuel : Nat} {graph : Graph}
    {layers : List (List String)} (h : GoSort σ fuel graph = .done (some layers, none)) :
    (∀ i n, n ∈ layers.getD i [] ↔ layerOf n layers = some i) ∧ layers.flatten.Nodup ∧
      (∀ n, n ∈ layers.flatten ↔ n ∈ graph) := by
  obtain ⟨s, _, _, hres⟩ := GoSort_done h
  obtain ⟨_, _, _, _, hperm, _⟩ := GoSort_ok h
  rcases hres with ⟨_, hres⟩ | ⟨_, layers', hres, hmem, _⟩
  · simp at hres
  · simp only [Prod.mk.injEq, Option.some.injEq, and_true] at hres
    subst hres
    refine ⟨fun i n => ⟨fun hin => ?_, mem_of_layerOf_eq_some n layers i⟩, ?_, fun n => ?_⟩
    · apply layerOf_eq_some n layers i hin
      intro j hj hc
      rw [hmem] at hin hc
      rw [hin] at hc
      simp only [Option.some.injEq, Nat.cast_inj] at hc
      omega
    · exact hperm.nodup_iff.mpr (AList.keys_nodup graph)
    · rw [hperm.mem_iff, AList.mem_keys]

/-- The text a successful `Plot` returns: the header, one block per layer of
`Sort` with the nodes numbered consecutively, one edge line per listed parent
in the order in which the graph is ranged over, the footer. -/
theorem plot_ok_spec {lower : String → String} {σ : SortSched} {edgeOrder : List Nat}
    {fuel : Nat} {r : Register} {graph : Graph} {sources : List String} {out : String}
    (h : r.Plot lower σ edgeOrder fuel graph sources = .done (out, none)) :
    ∃ layers, GoSort σ fuel graph = .done (some layers, none) ∧
      out = String.join (["digraph \x7b\n"]
        ++ layerBlocks r (isSource lower sources) (numberLayers 0 layers)
        ++ edgeLines layers.flatten (rangeOrder edgeOrder graph.entries) ++ ["\x7d\n"]) := by
  unfold Register.Plot at h
  split at h
  · simp at h
  · simp at h
  · simp at h
  · rename_i res lyr hs
    simp only [Run.done.injEq, Prod.mk.injEq, and_true] at h
    obtain ⟨s, _, _, hcase⟩ := GoSort_done hs
    rcases hcase with ⟨_, hres⟩ | ⟨_, layers, hres, _⟩
    · simp at hres
    · simp only [Prod.mk.injEq, and_true] at hres
      subst hres
      refine ⟨layers, hs, ?_⟩
      obtain ⟨_, hnd, hflat⟩ := GoSort_mem_layer hs
      obtain ⟨_, _, hh, _⟩ := GoSort_ok hs
      rw [← h]
      simp only [Option.getD_some, plotChunks]
      obtain ⟨b1, _, b3⟩ := plotLayer_foldl lower r
        (sources.foldl (fun (hl : GoMap Bool) name => hl.insert (lower name) true) ∅)
        layers ⟨∅, ["digraph \x7b\n"]⟩ (fun n _ => AList.not_mem_empty n) hnd
      rw [plotEdges_foldl, b1]
      have hhl : (fun n => ((sources.foldl (fun (hl : GoMap Bool) name =>
          hl.insert (lower name) true) ∅).lookup (lower n)).getD false)
          = isSource lower sources := by
        funext n
        rw [highlight_lookup]
        simp [isSource]
      rw [hhl]
      have hclosed : ∀ n p, p ∈ parents graph n → p ∈ layers.flatten := by
        intro n p hp
        have hn : n ∈ graph := mem_graph_of_mem_parents hp
        obtain ⟨height, hkeys, hh', _⟩ := GoSort_ok hs
        obtain ⟨v, hv⟩ := exists_lookup_of_mem ((hkeys n).mpr hn)
        exact (hflat p).mpr ((hkeys p).mp ((hh' n v hv).2.2.1 p hp))
      have hid : ∀ n, n ∈ layers.flatten →
          (((layers.foldl (plotLayer lower r (sources.foldl (fun (hl : GoMap Bool) name =>
            hl.insert (lower name) true) ∅)) ⟨∅, ["digraph \x7b\n"]⟩).id.lookup n).getD 0 : Int)
            = ((layers.flatten.indexOf n : Nat) : Int) := by
        intro n hn
        rw [b3 n]
        simp [hn]
      have hedges : (rangeOrder edgeOrder graph.entries).flatMap (fun e =>
          e.2.map (fun dep => "\tN" ++ toString (((layers.foldl (plotLayer lower r
            (sources.foldl (fun (hl : GoMap Bool) name => hl.insert (lower name) true) ∅))
            ⟨∅, ["digraph \x7b\n"]⟩).id.lookup dep).getD 0) ++ " -> N"
            ++ toString (((layers.foldl (plotLayer lower r (sources.foldl
              (fun (hl : GoMap Bool) name => hl.insert (lower name) true) ∅))
              ⟨∅, ["digraph \x7b\n"]⟩).id.lookup e.1).getD 0) ++ "\n"))
          = edgeLines layers.flatten (rangeOrder edgeOrder graph.entries) := by
        unfold edgeLines
        apply List.flatMap_congr
        rintro ⟨x, deps⟩ he
        have hx := (mem_rangeOrder_entries edgeOrder graph x deps).mp he
        have hxg : x ∈ layers.flatten := (hflat x).mpr (mem_of_lookup_eq_some hx)
        apply List.map_congr_left
        intro dep hdep
        have hdg : dep ∈ layers.flatten := hclosed x dep (by simp [parents, hx, hdep])
        simp only
        rw [hid dep hdg, hid x hxg]
        rfl
      rw [hedges]
      simp [List.append_assoc]

/-! ## The number of layers -/

theorem sortScan_foldl_attained (height : GoMap Int) (deps : List String) :
    ∀ h0 : Int, deps.foldl (fun h dep =>
        if h < (height.lookup dep).getD 0 then (height.lookup dep).getD 0 else h) h0 = h0 ∨
      ∃ p ∈ deps, (height.lookup p).getD 0 = deps.foldl (fun h dep =>
        if h < (height.lookup dep).getD 0 then (height.lookup dep).getD 0 else h) h0 := by
  induction deps with
  | nil => intro h0; simp
  | cons d ds ih =>
    intro h0
    simp only [List.foldl_cons]
    rcases ih (if h0 < (height.lookup d).getD 0 then (height.lookup d).getD 0 else h0) with h | h
    · rw [h]
      by_cases hlt : h0 < (height.lookup d).getD 0
      · right
        exact ⟨d, List.mem_cons_self _ _, by simp [hlt]⟩
      · left
        simp [hlt]
    · obtain ⟨p, hp, hpe⟩ := h
      exact Or.inr ⟨p, List.mem_cons_of_mem _ hp, hpe⟩

/-- A graph on which `Sort` succeeds is closed. -/
theorem GoSort_ok_closed {σ : SortSched} {fuel : Nat} {graph : Graph}
    {layers : List (List String)} (h : GoSort σ fuel graph = .done (some layers, none)) :
    Closed graph := by
  obtain ⟨height, hkeys, hh, _⟩ := GoSort_ok h
  intro n p hp
  obtain ⟨v, hv⟩ := exists_lookup_of_mem ((hkeys n).mpr (mem_graph_of_mem_parents hp))
  exact (hkeys p).mp ((hh n v hv).2.2.1 p hp)

/-- After a successful `Sort` of a non-empty graph the layer indices in use are
exactly `0..m` where `m + 1` is the number of layers. -/
theorem GoSort_levels {σ : SortSched} {fuel : Nat} {graph : Graph}
    {layers : List (List String)} (h : GoSort σ fuel graph = .done (some layers, none))
    (hne : graph.keys ≠ []) :
    ∃ m, layers.length = m + 1 ∧ (∀ i, i ≤ m → ∃ n, layerOf n layers = some i) ∧
      (∀ n i, layerOf n layers = some i → i ≤ m) := by
  obtain ⟨height, hkeys, hh, _, _, maxHeight, hlen, hbound, hatt⟩ := GoSort_ok h
  have hdown : ∀ (k : Nat) (n : String) (v : Int), height.lookup n = some v → v.toNat = k →
      ∀ i, i ≤ k → ∃ n', layerOf n' layers = some i := by
    intro k
    induction k with
    | zero =>
      intro n v hv hk i hi
      have : i = 0 := by omega
      subst this
      exact ⟨n, by rw [(hh n v hv).2.1, hk]⟩
    | succ k ih =>
      intro n v hv hk i hi
      by_cases hik : i = k + 1
      · subst hik
        exact ⟨n, by rw [(hh n v hv).2.1, hk]⟩
      · obtain ⟨hv0, _, hpar, hveq⟩ := hh n v hv
        rcases sortScan_foldl_attained height (parents graph n) (-1) with hs | ⟨p, hp, hpe⟩
        · have : sortScan height (parents graph n) = -1 := hs
          omega
        · obtain ⟨w, hw⟩ := exists_lookup_of_mem (hpar p hp)
          have hscan : sortScan height (parents graph n) = w := by
            rw [hw] at hpe
            exact hpe.symm
          have hw0 := (hh p w hw).1
          exact ih p w hw (by omega) i (by omega)
  obtain ⟨x, hx⟩ : ∃ x, x ∈ graph := by
    cases hk : graph.keys with
    | nil => exact absurd hk hne
    | cons a l => exact ⟨a, AList.mem_keys.mpr (by rw [hk]; simp)⟩
  obtain ⟨vx, hvx⟩ := exists_lookup_of_mem ((hkeys x).mpr hx)
  have hvx0 := (hh x vx hvx).1
  have hvxb := hbound x vx hvx
  obtain ⟨top, vtop, htop, htopeq⟩ : ∃ top vtop, height.lookup top = some vtop ∧
      vtop = maxHeight := by
    rcases hatt with h0 | ⟨y, hy⟩
    · exact ⟨x, vx, hvx, by omega⟩
    · exact ⟨y, maxHeight, hy, rfl⟩
  have hmax0 : 0 ≤ maxHeight := by omega
  refine ⟨maxHeight.toNat, by rw [hlen]; omega, ?_, ?_⟩
  · intro i hi
    exact hdown maxHeight.toNat top vtop htop (by rw [htopeq]) i hi
  · intro n i hn
    have hmem := mem_of_layerOf_eq_some n layers i hn
    have hlt : i < layers.length := by
      by_contra hc
      rw [List.getD_eq_default _ _ (by omega)] at hmem
      simp at hmem
    rw [hlen] at hlt
    omega

theorem rangeOrder_nil {α : Type} (o : List Nat) : rangeOrder o ([] : List α) = [] := by
  cases o <;> rfl

/-- On the empty graph `Sort` returns the single empty layer, whatever the fuel. -/
theorem GoSort_empty (σ : SortSched) (fuel : Nat) :
    GoSort σ fuel (∅ : Graph) = .done (some [[]], none) := by
  have hloop : sortLoop (∅ : Graph) ((rangeOrder σ.second (∅ : Graph).entries).foldl sortOut ∅)
      fuel σ.picks ⟨∅, ∅, ∅, 0⟩ = some ⟨∅, ∅, ∅, 0⟩ := by
    cases fuel <;> simp [sortLoop]
  unfold GoSort
  simp only [AList.empty_entries, rangeOrder_nil, List.foldl_nil] at hloop ⊢
  rw [hloop]
  simp [rangeOrder_nil]

/-! ## Comparing a layering with an expected one -/

theorem getD_nodup_of_flatten_nodup {L : List (List String)} (h : L.flatten.Nodup) (i : Nat) :
    (L.getD i []).Nodup := by
  by_cases hi : i < L.length
  · rw [List.getD_eq_getElem _ _ hi]
    exact (List.sublist_flatten_of_mem (List.getElem_mem hi)).nodup h
  · rw [List.getD_eq_default _ _ (by omega)]
    exact List.nodup_nil

theorem mem_getD_iff_layerOf (n : String) :
    ∀ (L : List (List String)) (i : Nat), L.flatten.Nodup →
      (n ∈ L.getD i [] ↔ layerOf n L = some i) := by
  intro L i hnd
  refine ⟨fun h => ?_, mem_of_layerOf_eq_some n L i⟩
  induction L generalizing i with
  | nil => simp at h
  | cons l ls ih =>
    rw [List.flatten_cons, List.nodup_append] at hnd
    obtain ⟨_, hls, hdisj⟩ := hnd
    cases i with
    | zero =>
      simp only [List.getD_cons_zero] at h
      simp [layerOf, h]
    | succ i =>
      simp only [List.getD_cons_succ] at h
      have hmem : n ∈ ls.flatten := by
        rw [List.mem_flatten]
        by_cases hi : i < ls.length
        · rw [List.getD_eq_getElem _ _ hi] at h
          exact ⟨_, List.getElem_mem hi, h⟩
        · rw [List.getD_eq_default _ _ (by omega)] at h
          simp at h
      have hnl : n ∉ l := fun hc => hdisj hc hmem
      simp [layerOf, hnl, ih i hls h]

/-- A successful `Sort` whose layer indices agree with those of a layering `L0`
without repetition and without empty layer returns the layers of `L0`, each up
to the order of its nodes. -/
theorem layers_perm_of_layerOf_eq {σ : SortSched} {fuel : Nat} {graph : Graph}
    {layers : List (List String)} (h : GoSort σ fuel graph = .done (some layers, none))
    (hne : graph.keys ≠ []) (L0 : List (List String)) (hnd0 : L0.flatten.Nodup)
    (hne0 : ∀ l ∈ L0, l ≠ []) (hL : ∀ n, layerOf n layers = layerOf n L0) :
    layers.length = L0.length ∧ ∀ i, (layers.getD i []).Perm (L0.getD i []) := by
  obtain ⟨hmem, hnd, _⟩ := GoSort_mem_layer h
  obtain ⟨m, hlen, hall, hle⟩ := GoSort_levels h hne
  refine ⟨?_, fun i => ?_⟩
  · have h1 : m < L0.length := by
      obtain ⟨n, hn⟩ := hall m (le_refl m)
      rw [hL n] at hn
      have := mem_of_layerOf_eq_some n L0 m hn
      by_contra hc
      rw [List.getD_eq_default _ _ (by omega)] at this
      simp at this
    have h2 : L0.length ≤ m + 1 := by
      by_contra hc
      have hi : m + 1 < L0.length := by omega
      have hl : L0[m + 1] ≠ [] := hne0 _ (List.getElem_mem hi)
      obtain ⟨n, hn⟩ := List.exists_mem_of_ne_nil _ hl
      have hn' : n ∈ L0.getD (m + 1) [] := by rw [List.getD_eq_getElem _ _ hi]; exact hn
      have := (mem_getD_iff_layerOf n L0 (m + 1) hnd0).mp hn'
      rw [← hL n] at this
      have := hle n (m + 1) this
      omega
    omega
  · rw [List.perm_ext_iff_of_nodup (getD_nodup_of_flatten_nodup hnd i)
      (getD_nodup_of_flatten_nodup hnd0 i)]
    intro n
    rw [hmem i n, mem_getD_iff_layerOf n L0 i hnd0, hL n]

/-! ## Graphs with the same entries -/

theorem parents_congr {g g0 : Graph} (h : ∀ n, g.lookup n = g0.lookup n) (n : String) :
    parents g n = parents g0 n := by
  unfold parents; rw [h n]

theorem mem_congr {g g0 : Graph} (h : ∀ n, g.lookup n = g0.lookup n) (n : String) :
    n ∈ g ↔ n ∈ g0 := by
  rw [mem_iff_lookup_ne_none, mem_iff_lookup_ne_none, h n]

theorem keys_perm_congr {g g0 : Graph} (h : ∀ n, g.lookup n = g0.lookup n) :
    g.keys.Perm g0.keys := by
  rw [List.perm_ext_iff_of_nodup (AList.keys_nodup _) (AList.keys_nodup _)]
  intro n
  rw [← AList.mem_keys, ← AList.mem_keys, mem_congr h n]

theorem hasCycle_congr {g g0 : Graph} (h : ∀ n, g.lookup n = g0.lookup n) :
    HasCycle g ↔ HasCycle g0 := by
  have hedge : ∀ a b, Edge g a b ↔ Edge g0 a b := by
    intro a b; unfold Edge; rw [parents_congr h b]
  constructor
  · rintro ⟨k, hk⟩
    exact ⟨k, Relation.TransGen.mono (fun a b hab => (hedge a b).mp hab) hk⟩
  · rintro ⟨k, hk⟩
    exact ⟨k, Relation.TransGen.mono (fun a b hab => (hedge a b).mpr hab) hk⟩

/-- On a closed graph without cycle `Sort` succeeds, given one unit of fuel per key. -/
theorem GoSort_closed_acyclic (σ : SortSched) (fuel : Nat) (graph : Graph)
    (hclosed : Closed graph) (hacyc : ¬ HasCycle graph) (hfuel : graph.keys.length ≤ fuel) :
    ∃ layers, GoSort σ fuel graph = .done (some layers, none) := by
  obtain ⟨res, hres⟩ := GoSort_total σ fuel graph hfuel
  obtain ⟨s, inv, htodo, hcase⟩ := GoSort_done hres
  rcases hcase with ⟨hne, _⟩ | ⟨_, layers, h, _⟩
  · exact absurd (sortInv_complete inv htodo hclosed hacyc) hne
  · exact ⟨layers, by rw [hres, h]⟩

/-- Two successful runs of `Pull` on a register storing each record under its own
name, without case tie for the queries, return graphs with the same entries. -/
theorem pull_graph_congr {lower : String → String} {r : Register} {qs : List String}
    {σ1 σ2 : PullSched} {fuel1 fuel2 : Nat} {g1 g2 : Graph} (hwf : RegWF r)
    (huniq : UniqueMatch lower r qs)
    (h1 : r.Pull lower σ1 fuel1 qs = .done (some g1, none))
    (h2 : r.Pull lower σ2 fuel2 qs = .done (some g2, none)) (n : String) :
    g1.lookup n = g2.lookup n := by
  obtain ⟨a1, a2, _⟩ := pull_ok_spec hwf h1
  obtain ⟨b1, b2, _⟩ := pull_ok_spec hwf h2
  have hroots := fuzzyNames_eq_of_uniqueMatch qs σ1.fuzzy σ2.fuzzy huniq
  have hmem : n ∈ g1 ↔ n ∈ g2 := by rw [a1 n, b1 n, hroots]
  by_cases hn : n ∈ g1
  · rw [a2 n hn, b2 n (hmem.mp hn)]
  · have hn2 : n ∉ g2 := fun h => hn (hmem.mpr h)
    rw [AList.lookup_eq_none.mpr hn, AList.lookup_eq_none.mpr hn2]

/-- A run of `Pull` with enough fuel succeeds when every query name has a match. -/
theorem pull_ok_of_match (lower : String → String) (σ : PullSched) (fuel : Nat) (r : Register)
    (qs : List String) (hwf : RegWF r) (hfuel : r.Grexes.keys.length ≤ fuel)
    (hm : ∀ q ∈ qs, hasMatch lower r q = true) :
    ∃ graph, r.Pull lower σ fuel qs = .done (some graph, none) := by
  obtain ⟨res, hres⟩ := pull_total lower σ fuel r qs hwf hfuel
  rcases pull_done_cases hwf hres with ⟨q, hfind, _⟩ | ⟨_, graph, hg⟩
  · have := hm q (List.mem_of_find?_eq_some hfind)
    have h' := List.find?_some hfind
    simp [this] at h'
  · exact ⟨graph, by rw [hres, hg]⟩

/-! ## The scenario `A(seed = B, pollen = C)`, `B()`, `C()` -/

theorem plot_of_sort_ok {lower : String → String} {σ : SortSched} {edgeOrder : List Nat}
    {fuel : Nat} {r : Register} {graph : Graph} {sources : List String}
    {layers : List (List String)} (h : GoSort σ fuel graph = .done (some layers, none)) :
    r.Plot lower σ edgeOrder fuel graph sources =
      .done (String.join (plotChunks lower edgeOrder r graph sources layers), none) := by
  unfold Register.Plot
  rw [h]
  rfl

/-- A successful `Sort` makes `Plot` succeed with the text described by
`layerBlocks` and `edgeLines`. -/
theorem plot_of_sort_ok_spec {lower : String → String} {σ : SortSched} {edgeOrder : List Nat}
    {fuel : Nat} {r : Register} {graph : Graph} {sources : List String}
    {layers : List (List String)} (h : GoSort σ fuel graph = .done (some layers, none)) :
    r.Plot lower σ edgeOrder fuel graph sources =
      .done (String.join (["digraph \x7b\n"]
        ++ layerBlocks r (isSource lower sources) (numberLayers 0 layers)
        ++ edgeLines layers.flatten (rangeOrder edgeOrder graph.entries) ++ ["\x7d\n"]), none) := by
  have hp : r.Plot lower σ edgeOrder fuel graph sources =
      .done (String.join (plotChunks lower edgeOrder r graph sources layers), none) :=
    plot_of_sort_ok h
  obtain ⟨layers', hs', hout⟩ := plot_ok_spec hp
  rw [h] at hs'
  simp only [Run.done.injEq, Prod.mk.injEq, Option.some.injEq, and_true] at hs'
  subst hs'
  rw [hp, hout]

/-- C11 fails as stated.  The records `B` and `C` have empty `Seed` and `Pollen`
fields, which `Pull` records as the parent list `["", ""]` and as the untraced
name `""`: the graph has four keys, not three, and `Sort` returns three layers,
not two. -/
theorem scenario_abc_counterexample :
    regABC.Pull asciiLower pullSched0 3 ["A"] = .done (some graphABCFull, none) ∧
      graphABCFull.lookup "B" = some ["", ""] ∧ graphABCFull.lookup "" = some [] ∧
      graphABCFull.lookup "B" ≠ graphABC.lookup "B" ∧ "" ∉ graphABC ∧
      GoSort sched0 4 graphABCFull = .done (some [[""], ["B", "C"], ["A"]], none) := by
  refine ⟨by rfl, by decide, by decide, by decide, by decide, by decide⟩

/-- C11, amended.  For the register with exactly the records `A` (seed `B`,
pollen `C`), `B` and `C` (no parents recorded), whatever the iteration orders:
`Pull` of `A` returns the graph `{A: [B, C], B: ["", ""], C: ["", ""], "": []}`;
`Sort` of that graph returns exactly three layers, `{""}`, `{B, C}` and `{A}`;
and in the text `Plot` returns, `A` and only `A` is declared with the highlight
attribute. -/
theorem scenario_abc (σ : PullSched) (fuel : Nat) (σ' : SortSched) (fuel' : Nat)
    (edgeOrder : List Nat) (hfuel : 3 ≤ fuel) (hfuel' : 4 ≤ fuel') :
    ∃ graph layers,
      regABC.Pull asciiLower σ fuel ["A"] = .done (some graph, none) ∧
      (∀ n, graph.lookup n = graphABCFull.lookup n) ∧
      GoSort σ' fuel' graph = .done (some layers, none) ∧
      layers.length = 3 ∧ (layers.getD 0 []).Perm [""] ∧
      (layers.getD 1 []).Perm ["B", "C"] ∧ (layers.getD 2 []).Perm ["A"] ∧
      regABC.Plot asciiLower σ' edgeOrder fuel' graph ["A"] =
        .done (String.join (["digraph \x7b\n"]
          ++ layerBlocks regABC (isSource asciiLower ["A"]) (numberLayers 0 layers)
          ++ edgeLines layers.flatten (rangeOrder edgeOrder graph.entries) ++ ["\x7d\n"]),
          none) ∧
      (∀ n, n ∈ graph → (isSource asciiLower ["A"] n = true ↔ n = "A")) := by
  have hwf : RegWF regABC := mkRegister_wf _
  have huniq : UniqueMatch asciiLower regABC ["A"] := by unfold UniqueMatch; decide
  obtain ⟨graph, hgraph⟩ := pull_ok_of_match asciiLower σ fuel regABC ["A"] hwf
    (le_trans (by decide) hfuel) (by decide)
  have href : regABC.Pull asciiLower pullSched0 3 ["A"] = .done (some graphABCFull, none) := by
    rfl
  have hlk : ∀ n, graph.lookup n = graphABCFull.lookup n :=
    pull_graph_congr hwf huniq hgraph href
  have hmemk : ∀ n, n ∈ graph ↔ n = "" ∨ n = "B" ∨ n = "C" ∨ n = "A" := by
    intro n
    rw [mem_congr hlk n, AList.mem_keys]
    have : graphABCFull.keys = ["", "B", "C", "A"] := by decide
    rw [this]
    simp
  have hacyc : ¬ HasCycle graph := by
    rw [hasCycle_congr hlk]
    exact not_hasCycle_of_rank graphABCFull
      (fun n => if n = "" then 0 else if n = "A" then 2 else 1) (by decide)
  have hlen : graph.keys.length ≤ fuel' := by
    rw [(keys_perm_congr hlk).length_eq]
    exact le_trans (by decide) hfuel'
  obtain ⟨layers, hsort⟩ := GoSort_closed_acyclic σ' fuel' graph (pull_closed hwf hgraph)
    hacyc hlen
  have hlay : ∀ n, n ∈ graph → layerOf n layers =
      some (if parents graphABCFull n = [] then 0
        else 1 + maxLayer layers (parents graphABCFull n)) := by
    intro n hn
    rw [← parents_congr hlk n]
    exact (GoSort_layer_eq σ' fuel' graph layers hsort n hn).1
  have h0 : layerOf "" layers = some 0 := by
    rw [hlay "" ((hmemk "").mpr (Or.inl rfl))]
    have : parents graphABCFull "" = [] := by decide
    simp [this]
  have hB : layerOf "B" layers = some 1 := by
    rw [hlay "B" ((hmemk "B").mpr (Or.inr (Or.inl rfl)))]
    have : parents graphABCFull "B" = ["", ""] := by decide
    simp [this, maxLayer, h0]
  have hC : layerOf "C" layers = some 1 := by
    rw [hlay "C" ((hmemk "C").mpr (Or.inr (Or.inr (Or.inl rfl))))]
    have : parents graphABCFull "C" = ["", ""] := by decide
    simp [this, maxLayer, h0]
  have hA : layerOf "A" layers = some 2 := by
    rw [hlay "A" ((hmemk "A").mpr (Or.inr (Or.inr (Or.inr rfl))))]
    have : parents graphABCFull "A" = ["B", "C"] := by decide
    simp [this, maxLayer, hB, hC]
  have hL : ∀ n, layerOf n layers = layerOf n [[""], ["B", "C"], ["A"]] := by
    intro n
    by_cases hn : n ∈ graph
    · rcases (hmemk n).mp hn with rfl | rfl | rfl | rfl
      · rw [h0]; decide
      · rw [hB]; decide
      · rw [hC]; decide
      · rw [hA]; decide
    · obtain ⟨_, _, _, hnone, _⟩ := GoSort_ok hsort
      rw [hnone n hn]
      rw [hmemk] at hn
      simp only [not_or] at hn
      obtain ⟨n0, nB, nC, nA⟩ := hn
      simp [layerOf, n0, nB, nC, nA]
  have hkne : graph.keys ≠ [] := by
    intro hk
    have := AList.mem_keys.mp ((hmemk "A").mpr (Or.inr (Or.inr (Or.inr rfl))))
    rw [hk] at this
    simp at this
  obtain ⟨hlen3, hperm⟩ := layers_perm_of_layerOf_eq hsort hkne [[""], ["B", "C"], ["A"]]
    (by decide) (by decide) hL
  refine ⟨graph, layers, hgraph, hlk, hsort, hlen3, hperm 0, hperm 1, hperm 2,
    plot_of_sort_ok_spec hsort, ?_⟩
  intro n hn
  rcases (hmemk n).mp hn with rfl | rfl | rfl | rfl <;> decide

theorem scenario_abc_witness :
    ∃ graph layers,
      regABC.Pull asciiLower pullSched0 3 ["A"] = .done (some graph, none) ∧
      (∀ n, graph.lookup n = graphABCFull.lookup n) ∧
      GoSort sched0 4 graph = .done (some layers, none) ∧
      layers.length = 3 ∧ (layers.getD 0 []).Perm [""] ∧
      (layers.getD 1 []).Perm ["B", "C"] ∧ (layers.getD 2 []).Perm ["A"] ∧
      regABC.Plot asciiLower sched0 [] 4 graph ["A"] =
        .done (String.join (["digraph \x7b\n"]
          ++ layerBlocks regABC (isSource asciiLower ["A"]) (numberLayers 0 layers)
          ++ edgeLines layers.flatten (rangeOrder [] graph.entries) ++ ["\x7d\n"]),
          none) ∧
      (∀ n, n ∈ graph → (isSource asciiLower ["A"] n = true ↔ n = "A")) :=
  scenario_abc pullSched0 3 sched0 4 [] (by decide) (by decide)

/-! ## Failure of `Sort` -/

/-- With one unit of fuel per key, a run of `Sort` that cannot succeed returns
the cycle error. -/
theorem GoSort_error_of_not_ok (σ : SortSched) (fuel : Nat) (graph : Graph)
    (hfuel : graph.keys.length ≤ fuel)
    (hno : ∀ layers, GoSort σ fuel graph ≠ .done (some layers, none)) :
    GoSort σ fuel graph = .done (none, some "graph has cycles") := by
  obtain ⟨res, hres⟩ := GoSort_total σ fuel graph hfuel
  obtain ⟨s, _, _, hcase⟩ := GoSort_done hres
  rcases hcase with ⟨_, h⟩ | ⟨_, layers, h, _⟩
  · rw [hres, h]
  · rw [h] at hres
    exact absurd hres (hno layers)

theorem plot_of_sort_error {lower : String → String} {σ : SortSched} {edgeOrder : List Nat}
    {fuel : Nat} {r : Register} {graph : Graph} {sources : List String} {e : String}
    (h : GoSort σ fuel graph = .done (none, some e)) :
    r.Plot lower σ edgeOrder fuel graph sources = .done ("", some e) := by
  unfold Register.Plot
  rw [h]

/-! ## The scenario `A(seed = A, pollen = X)` -/

/-- C12. For the register with exactly the record `A` (seed `A`, pollen `X`, `X`
not registered), whatever the iteration orders: `Pull` of `A` succeeds and
returns the graph `{A: [A, X], X: []}`, with `X` an untraced leaf, and `Sort`,
hence `Plot`, on that graph fails with the cycle error. -/
theorem scenario_self_cycle (σ : PullSched) (fuel : Nat) (σ' : SortSched) (fuel' : Nat)
    (edgeOrder : List Nat) (sources : List String) (hfuel : 1 ≤ fuel) (hfuel' : 2 ≤ fuel') :
    ∃ graph,
      regLoop.Pull asciiLower σ fuel ["A"] = .done (some graph, none) ∧
      (∀ n, graph.lookup n = graphLoop.lookup n) ∧
      GoSort σ' fuel' graph = .done (none, some "graph has cycles") ∧
      regLoop.Plot asciiLower σ' edgeOrder fuel' graph sources =
        .done ("", some "graph has cycles") := by
  have hwf : RegWF regLoop := mkRegister_wf _
  have huniq : UniqueMatch asciiLower regLoop ["A"] := by unfold UniqueMatch; decide
  obtain ⟨graph, hgraph⟩ := pull_ok_of_match asciiLower σ fuel regLoop ["A"] hwf
    (le_trans (by decide) hfuel) (by decide)
  have href : regLoop.Pull asciiLower pullSched0 1 ["A"] = .done (some graphLoop, none) := by
    rfl
  have hlk : ∀ n, graph.lookup n = graphLoop.lookup n :=
    pull_graph_congr hwf huniq hgraph href
  have hcyc : HasCycle graph := by
    rw [hasCycle_congr hlk]
    exact ⟨"A", Relation.TransGen.single (show "A" ∈ parents graphLoop "A" by decide)⟩
  have hlen : graph.keys.length ≤ fuel' := by
    rw [(keys_perm_congr hlk).length_eq]
    exact le_trans (by decide) hfuel'
  have hsort := GoSort_error_of_not_ok σ' fuel' graph hlen
    (fun layers => GoSort_cycle_not_ok hcyc layers)
  exact ⟨graph, hgraph, hlk, hsort, plot_of_sort_error hsort⟩

theorem scenario_self_cycle_witness :
    ∃ graph,
      regLoop.Pull asciiLower pullSched0 1 ["A"] = .done (some graph, none) ∧
      (∀ n, graph.lookup n = graphLoop.lookup n) ∧
      GoSort sched0 2 graph = .done (none, some "graph has cycles") ∧
      regLoop.Plot asciiLower sched0 [] 2 graph ["A"] =
        .done ("", some "graph has cycles") :=
  scenario_self_cycle pullSched0 1 sched0 2 [] ["A"] (by decide) (by decide)

/-! ## Graphs that are not closed -/

/-- C18. On every graph in which some node lists a parent name that is not a
key, `Sort` returns the error "graph has cycles", whether or not the graph has
a cycle: the graph `{A: [X]}` has none and gets the error. -/
theorem sort_open_graph_error (σ : SortSched) (fuel : Nat) (graph : Graph) (n p : String)
    (hp : p ∈ parents graph n) (hnp : p ∉ graph) (hfuel : graph.keys.length ≤ fuel) :
    GoSort σ fuel graph = .done (none, some "graph has cycles") ∧
    (¬ HasCycle graphOpen ∧ ∀ (τ : SortSched) (k : Nat),
      GoSort τ (k + 1) graphOpen = .done (none, some "graph has cycles")) := by
  have hopen : ∀ (τ : SortSched) (k : Nat) (g : Graph) (a b : String),
      b ∈ parents g a → b ∉ g → g.keys.length ≤ k →
      GoSort τ k g = .done (none, some "graph has cycles") := by
    intro τ k g a b hb hnb hk
    apply GoSort_error_of_not_ok τ k g hk
    intro layers hok
    exact hnb (GoSort_ok_closed hok a b hb)
  refine ⟨hopen σ fuel graph n p hp hnp hfuel, ?_, fun τ k => ?_⟩
  · exact not_hasCycle_of_rank graphOpen (fun x => if x = "A" then 1 else 0) (by decide)
  · exact hopen τ (k + 1) graphOpen "A" "X" (by decide) (by decide)
      (by
        have : graphOpen.keys.length = 1 := by decide
        omega)

theorem sort_open_graph_error_witness :
    GoSort sched0 1 graphOpen = .done (none, some "graph has cycles") ∧
    (¬ HasCycle graphOpen ∧ ∀ (τ : SortSched) (k : Nat),
      GoSort τ (k + 1) graphOpen = .done (none, some "graph has cycles")) :=
  sort_open_graph_error sched0 1 graphOpen "A" "X" (by decide) (by decide) (by decide)

/-! ## The number of layers and their content -/

theorem eq_empty_of_keys_eq_nil {V : Type} {m : GoMap V} (h : m.keys = []) : m = ∅ := by
  apply AList.ext
  have : m.entries.map Sigma.fst = [] := h
  simpa using this

/-- C19. After a successful `Sort` of a non-empty graph no layer is empty and
the number of layers is one more than the largest layer index of a node; on
the empty graph `Sort` succeeds and returns exactly one layer, which is empty. -/
theorem sort_layer_count (σ : SortSched) (fuel : Nat) (graph : Graph) :
    (graph.keys = [] → GoSort σ fuel graph = .done (some [[]], none)) ∧
    (∀ layers, graph.keys ≠ [] → GoSort σ fuel graph = .done (some layers, none) →
      (∀ l ∈ layers, l ≠ []) ∧
      ∃ m, layers.length = m + 1 ∧ (∃ n, n ∈ graph ∧ layerOf n layers = some m) ∧
        ∀ n i, layerOf n layers = some i → i ≤ m) := by
  refine ⟨fun hk => ?_, fun layers hne hs => ?_⟩
  · rw [eq_empty_of_keys_eq_nil hk]
    exact GoSort_empty σ fuel
  · obtain ⟨m, hlen, hall, hle⟩ := GoSort_levels hs hne
    obtain ⟨hmem, _, hflat⟩ := GoSort_mem_layer hs
    refine ⟨fun l hl hnil => ?_, m, hlen, ?_, hle⟩
    · obtain ⟨i, hi, hget⟩ := List.mem_iff_getElem.mp hl
      obtain ⟨n, hn⟩ := hall i (by omega)
      have := (hmem i n).mpr hn
      rw [List.getD_eq_getElem _ _ hi, hget, hnil] at this
      simp at this
    · obtain ⟨n, hn⟩ := hall m (le_refl m)
      refine ⟨n, ?_, hn⟩
      have hin := (hmem m n).mpr hn
      have hlt : m < layers.length := by omega
      rw [List.getD_eq_getElem _ _ hlt] at hin
      exact (hflat n).mp (List.mem_flatten.mpr ⟨_, List.getElem_mem hlt, hin⟩)

theorem sort_layer_count_witness :
    GoSort sched0 0 (∅ : Graph) = .done (some [[]], none) ∧
    ((∀ l ∈ [["C", "B"], ["A"]], l ≠ []) ∧
      ∃ m, [["C", "B"], ["A"]].length = m + 1 ∧
        (∃ n, n ∈ graphABC ∧ layerOf n [["C", "B"], ["A"]] = some m) ∧
        ∀ n i, layerOf n [["C", "B"], ["A"]] = some i → i ≤ m) :=
  ⟨(sort_layer_count sched0 0 ∅).1 (by decide),
    (sort_layer_count sched0 3 graphABC).2 [["C", "B"], ["A"]] (by decide) (by decide)⟩

/-! ## Properties of the text `Plot` returns -/

theorem edgeLines_length (nodes : List String)
    (es : List (Sigma (fun _ : String => List String))) :
    (edgeLines nodes es).length = (es.map (fun e => e.2.length)).sum := by
  unfold edgeLines
  induction es with
  | nil => rfl
  | cons e es ih => simp [List.flatMap_cons, ih]

theorem edgeLines_eq_map (nodes : List String)
    (es : List (Sigma (fun _ : String => List String))) :
    edgeLines nodes es =
      (edgePairs es).map (fun pc => edgeLine (nodes.indexOf pc.1) (nodes.indexOf pc.2)) := by
  unfold edgeLines edgePairs
  induction es with
  | nil => rfl
  | cons e es ih => simp [List.flatMap_cons, ih]

theorem count_map_pair (deps : List String) (p c k : String) :
    (deps.map (fun dep => (dep, k))).count (p, c) = if k = c then deps.count p else 0 := by
  induction deps with
  | nil => simp
  | cons d ds ih =>
    rw [List.map_cons, List.count_cons, ih, List.count_cons]
    by_cases hk : k = c
    · by_cases hd : d = p
      · simp [hk, hd]
      · simp [hk, hd]
    · simp [hk]

theorem count_edgePairs_dlookup (p c : String) :
    ∀ es : List (Sigma (fun _ : String => List String)), es.NodupKeys →
      (edgePairs es).count (p, c) = ((List.dlookup c es).getD []).count p := by
  intro es
  induction es with
  | nil => intro _; simp [edgePairs]
  | cons e es ih =>
    intro hnd
    obtain ⟨k, deps⟩ := e
    rw [List.nodupKeys_cons] at hnd
    have hcons : edgePairs (⟨k, deps⟩ :: es) = deps.map (fun dep => (dep, k)) ++ edgePairs es := by
      simp [edgePairs, List.flatMap_cons]
    rw [hcons, List.count_append, count_map_pair, ih hnd.2]
    by_cases hk : k = c
    · subst hk
      have hnone : List.dlookup k es = none := List.dlookup_eq_none.mpr hnd.1
      simp [hnone]
    · have hne : c ≠ k := fun h => hk h.symm
      rw [List.dlookup_cons_ne _ _ hne]
      simp [hk]

/-- The number of pairs `(p, c)` among the edge pairs of a graph is the number
of times `p` occurs in the parent list of `c`. -/
theorem count_edgePairs (graph : Graph) (p c : String) :
    (edgePairs graph.entries).count (p, c) = (parents graph c).count p :=
  count_edgePairs_dlookup p c graph.entries graph.nodupKeys

/-- C13 fails as stated.  In the graph `{A: [B, B], B: []}` the only
parent→child relation is `B → A`, yet the text `Plot` returns has the edge
line `N0 -> N1` twice: one for each of the two entries of the parent list of
`A`. -/
theorem plot_edge_lines_counterexample :
    (mkRegister []).Plot asciiLower sched0 [] 2 graphSelfing [] =
      .done ("digraph \x7b\n\t\x7brank=same;\n\t\tN0 [label=\"B\"]\n\t\x7d\n\t\x7brank=same;\n\t\tN1 [label=\"A\"]\n\t\x7d\n\tN0 -> N1\n\tN0 -> N1\n\x7d\n", none) ∧
    (∀ p c, Edge graphSelfing p c ↔ (p = "B" ∧ c = "A")) ∧
    (edgePairs graphSelfing.entries).dedup = [("B", "A")] ∧
    "digraph \x7b\n\t\x7brank=same;\n\t\tN0 [label=\"B\"]\n\t\x7d\n\t\x7brank=same;\n\t\tN1 [label=\"A\"]\n\t\x7d\n\tN0 -> N1\n\tN0 -> N1\n\x7d\n"
      = String.join (["digraph \x7b\n"]
        ++ layerBlocks (mkRegister []) (isSource asciiLower []) (numberLayers 0 [["B"], ["A"]])
        ++ [edgeLine 0 1, edgeLine 0 1] ++ ["\x7d\n"]) := by
  refine ⟨by decide, fun p c => ?_, by decide, by decide⟩
  simp only [Edge, parents, graphSelfing, mkGraph, List.foldl_cons, List.foldl_nil,
    lookup_insert_ite, AList.lookup_empty]
  by_cases hB : c = "B"
  · subst hB
    simp
  · by_cases hA : c = "A"
    · subst hA
      simp
    · simp [hB, hA]

/-- C13, amended.  When `Plot` succeeds, its text ends, after all the node
declarations, with the edge lines, followed only by the closing brace: for each
parent→child relation of the graph one line `N<id(parent)> -> N<id(child)>` per
occurrence of the parent in the parent list of the child (a node that lists the
same parent twice gets two lines), with the parent as source and the child as
target; the identifiers are the positions of the nodes in the concatenated
layers, in which every node and every parent occurs exactly once. -/
theorem plot_edge_lines (lower : String → String) (σ : SortSched) (edgeOrder : List Nat)
    (fuel : Nat) (r : Register) (graph : Graph) (sources : List String) (out : String)
    (h : r.Plot lower σ edgeOrder fuel graph sources = .done (out, none)) :
    ∃ layers decls edges, GoSort σ fuel graph = .done (some layers, none) ∧
      out = String.join (decls ++ edges ++ ["\x7d\n"]) ∧
      decls = ["digraph \x7b\n"]
        ++ layerBlocks r (isSource lower sources) (numberLayers 0 layers) ∧
      edges.Perm (edgeLines layers.flatten graph.entries) ∧
      edges.length = (graph.entries.map (fun e => e.2.length)).sum ∧
      layers.flatten.Nodup ∧
      (∀ e ∈ graph.entries, e.1 ∈ layers.flatten ∧ ∀ dep ∈ e.2, dep ∈ layers.flatten) ∧
      ∃ pairs : List (String × String),
        edges = pairs.map
          (fun pc => edgeLine (layers.flatten.indexOf pc.1) (layers.flatten.indexOf pc.2)) ∧
        ∀ (p c : String), pairs.count (p, c) = (parents graph c).count p := by
  obtain ⟨layers, hs, hout⟩ := plot_ok_spec h
  obtain ⟨_, hnd, hflat⟩ := GoSort_mem_layer hs
  have hpermE : (rangeOrder edgeOrder graph.entries).Perm graph.entries :=
    rangeOrder_perm edgeOrder graph.entries
  have hperm : (edgeLines layers.flatten (rangeOrder edgeOrder graph.entries)).Perm
      (edgeLines layers.flatten graph.entries) :=
    List.Perm.flatMap_right _ hpermE
  have hpairs : (edgePairs (rangeOrder edgeOrder graph.entries)).Perm
      (edgePairs graph.entries) :=
    List.Perm.flatMap_right _ hpermE
  refine ⟨layers, _, edgeLines layers.flatten (rangeOrder edgeOrder graph.entries), hs,
    hout, rfl, hperm, ?_, hnd, ?_, edgePairs (rangeOrder edgeOrder graph.entries),
    edgeLines_eq_map _ _, fun p c => ?_⟩
  · rw [hperm.length_eq, edgeLines_length]
  · rintro ⟨x, deps⟩ he
    have hx := (mem_entries_iff_lookup graph x deps).mp he
    refine ⟨(hflat x).mpr (mem_of_lookup_eq_some hx), fun dep hdep => ?_⟩
    exact (hflat dep).mpr (GoSort_ok_closed hs x dep (by simp [parents, hx, hdep]))
  · have hc : (edgePairs (rangeOrder edgeOrder graph.entries)).count (p, c) =
        (edgePairs graph.entries).count (p, c) :=
      hpairs.countP_eq (fun x => x == (p, c))
    rw [hc, count_edgePairs]

theorem plot_edge_lines_witness :
    ∃ layers decls edges, GoSort sched0 2 graphSelfing = .done (some layers, none) ∧
      "digraph \x7b\n\t\x7brank=same;\n\t\tN0 [label=\"B\"]\n\t\x7d\n\t\x7brank=same;\n\t\tN1 [label=\"A\"]\n\t\x7d\n\tN0 -> N1\n\tN0 -> N1\n\x7d\n"
        = String.join (decls ++ edges ++ ["\x7d\n"]) ∧
      decls = ["digraph \x7b\n"]
        ++ layerBlocks (mkRegister []) (isSource asciiLower []) (numberLayers 0 layers) ∧
      edges.Perm (edgeLines layers.flatten graphSelfing.entries) ∧
      edges.length = (graphSelfing.entries.map (fun e => e.2.length)).sum ∧
      layers.flatten.Nodup ∧
      (∀ e ∈ graphSelfing.entries,
        e.1 ∈ layers.flatten ∧ ∀ dep ∈ e.2, dep ∈ layers.flatten) ∧
      ∃ pairs : List (String × String),
        edges = pairs.map
          (fun pc => edgeLine (layers.flatten.indexOf pc.1) (layers.flatten.indexOf pc.2)) ∧
        ∀ (p c : String), pairs.count (p, c) = (parents graphSelfing c).count p :=
  plot_edge_lines asciiLower sched0 [] 2 (mkRegister []) graphSelfing [] _ (by decide)

/-- C14. When `Plot` succeeds, the declaration of a node carries the attribute
` style=filled` exactly when the lower-cased name of the node equals the
lower-cased form of one of the source names, whether or not the node is a
register record (the register only determines the label). -/
theorem plot_highlight (lower : String → String) (σ : SortSched) (edgeOrder : List Nat)
    (fuel : Nat) (r : Register) (graph : Graph) (sources : List String) (out : String)
    (h : r.Plot lower σ edgeOrder fuel graph sources = .done (out, none)) :
    ∃ layers edges, GoSort σ fuel graph = .done (some layers, none) ∧
      out = String.join (["digraph \x7b\n"]
        ++ layerBlocks r (isSource lower sources) (numberLayers 0 layers)
        ++ edges ++ ["\x7d\n"]) ∧
      (∀ node, isSource lower sources node = true ↔ ∃ s ∈ sources, lower s = lower node) ∧
      (∀ k node, nodeDecl r k node true =
          "\t\tN" ++ toString k ++ " [label=\"" ++ plotLabel r node ++ "\""
            ++ " style=filled" ++ "]\n" ∧
        nodeDecl r k node false =
          "\t\tN" ++ toString k ++ " [label=\"" ++ plotLabel r node ++ "\"" ++ "" ++ "]\n") := by
  obtain ⟨layers, hs, hout⟩ := plot_ok_spec h
  refine ⟨layers, edgeLines layers.flatten (rangeOrder edgeOrder graph.entries), hs, hout,
    fun node => ?_, fun k node => ⟨rfl, rfl⟩⟩
  simp [isSource, List.any_eq_true]

theorem plot_highlight_witness :
    ∃ layers edges, GoSort sched0 3 graphABC = .done (some layers, none) ∧
      "digraph \x7b\n\t\x7brank=same;\n\t\tN0 [label=\"C\"]\n\t\tN1 [label=\"B\"]\n\t\x7d\n\t\x7brank=same;\n\t\tN2 [label=\"A\\nO\\n1900\" style=filled]\n\t\x7d\n\tN1 -> N2\n\tN0 -> N2\n\x7d\n"
        = String.join (["digraph \x7b\n"]
        ++ layerBlocks regRoot (isSource asciiLower ["a"]) (numberLayers 0 layers)
        ++ edges ++ ["\x7d\n"]) ∧
      (∀ node, isSource asciiLower ["a"] node = true ↔
        ∃ s ∈ ["a"], asciiLower s = asciiLower node) ∧
      (∀ k node, nodeDecl regRoot k node true =
          "\t\tN" ++ toString k ++ " [label=\"" ++ plotLabel regRoot node ++ "\""
            ++ " style=filled" ++ "]\n" ∧
        nodeDecl regRoot k node false =
          "\t\tN" ++ toString k ++ " [label=\"" ++ plotLabel regRoot node ++ "\"" ++ ""
            ++ "]\n") :=
  plot_highlight asciiLower sched0 [] 3 regRoot graphABC ["a"] _ (by decide)

/-- C17. When `Plot` succeeds, the node declarations are numbered in the order
in which the layers are visited, layer by layer and node by node within a
layer: the declaration at position `k` carries the identifier `k` and is that
of the node at position `k` of the concatenated layers of `Sort`; the
identifiers are distinct and are exactly `0..n-1` for `n` nodes. -/
theorem plot_node_ids (lower : String → String) (σ : SortSched) (edgeOrder : List Nat)
    (fuel : Nat) (r : Register) (graph : Graph) (sources : List String) (out : String)
    (h : r.Plot lower σ edgeOrder fuel graph sources = .done (out, none)) :
    ∃ layers edges, GoSort σ fuel graph = .done (some layers, none) ∧
      out = String.join (["digraph \x7b\n"]
        ++ layerBlocks r (isSource lower sources) (numberLayers 0 layers)
        ++ edges ++ ["\x7d\n"]) ∧
      (numberLayers 0 layers).flatten = layers.flatten.enum ∧
      (∀ (k : Nat) (node : String), layers.flatten[k]? = some node →
        (numberLayers 0 layers).flatten[k]? = some (k, node)) ∧
      ((numberLayers 0 layers).flatten.map Prod.fst = List.range graph.keys.length) ∧
      ((numberLayers 0 layers).flatten.map Prod.snd).Perm graph.keys := by
  obtain ⟨layers, hs, hout⟩ := plot_ok_spec h
  obtain ⟨_, _, _, _, hperm, _⟩ := GoSort_ok hs
  have hnum : (numberLayers 0 layers).flatten = layers.flatten.enum :=
    numberLayers_flatten layers 0
  refine ⟨layers, edgeLines layers.flatten (rangeOrder edgeOrder graph.entries), hs, hout,
    hnum, fun k node hk => ?_, ?_, ?_⟩
  · rw [hnum, List.enum, List.getElem?_enumFrom, hk]
    simp
  · rw [hnum, List.enum_map_fst, hperm.length_eq]
  · rw [hnum, List.enum_map_snd]
    exact hperm

theorem plot_node_ids_witness :
    ∃ layers edges, GoSort sched0 3 graphABC = .done (some layers, none) ∧
      "digraph \x7b\n\t\x7brank=same;\n\t\tN0 [label=\"C\"]\n\t\tN1 [label=\"B\"]\n\t\x7d\n\t\x7brank=same;\n\t\tN2 [label=\"A\\nO\\n1900\" style=filled]\n\t\x7d\n\tN1 -> N2\n\tN0 -> N2\n\x7d\n"
        = String.join (["digraph \x7b\n"]
        ++ layerBlocks regRoot (isSource asciiLower ["a"]) (numberLayers 0 layers)
        ++ edges ++ ["\x7d\n"]) ∧
      (numberLayers 0 layers).flatten = layers.flatten.enum ∧
      (∀ (k : Nat) (node : String), layers.flatten[k]? = some node →
        (numberLayers 0 layers).flatten[k]? = some (k, node)) ∧
      ((numberLayers 0 layers).flatten.map Prod.fst = List.range graphABC.keys.length) ∧
      ((numberLayers 0 layers).flatten.map Prod.snd).Perm graphABC.keys :=
  plot_node_ids asciiLower sched0 [] 3 regRoot graphABC ["a"] _ (by decide)

/-! ## The name list of the request handler -/

theorem utf8ByteSize_pos_iff (s : String) : s.utf8ByteSize > 0 ↔ s ≠ "" := by
  obtain ⟨cs⟩ := s
  cases cs with
  | nil => simp [String.utf8ByteSize, String.utf8ByteSize.go]
  | cons c cs =>
    have hc := Char.utf8Size_pos c
    have hne : (String.mk (c :: cs)) ≠ "" := by
      intro h
      have := congrArg String.data h
      simp at this
    simp only [String.utf8ByteSize, String.utf8ByteSize.go, gt_iff_lt, ne_eq, hne,
      not_false_eq_true, iff_true]
    omega

theorem handlerStep_foldl (pieces : List String) :
    ∀ (s : List String × GoMap Bool),
      (∀ x, (s.2.lookup x).getD false = true ↔ x ∈ s.1) → s.1.Nodup →
      (∀ x, (((pieces.foldl handlerStep s).2.lookup x).getD false = true ↔
          x ∈ (pieces.foldl handlerStep s).1)) ∧
        (pieces.foldl handlerStep s).1.Nodup ∧
        (∀ x, x ∈ (pieces.foldl handlerStep s).1 ↔
          x ∈ s.1 ∨ (x ≠ "" ∧ ∃ piece ∈ pieces, trimSpace piece = x)) := by
  induction pieces with
  | nil => intro s hseen hnd; simp [hseen, hnd]
  | cons p ps ih =>
    intro s hseen hnd
    simp only [List.foldl_cons]
    by_cases hkeep : (trimSpace p).utf8ByteSize > 0 ∧
        (s.2.lookup (trimSpace p)).getD false = false
    · have hstep : handlerStep s p = (s.1 ++ [trimSpace p], s.2.insert (trimSpace p) true) := by
        unfold handlerStep; rw [if_pos hkeep]
      have hnew : trimSpace p ∉ s.1 := by
        intro hin
        have := (hseen (trimSpace p)).mpr hin
        rw [hkeep.2] at this
        simp at this
      have hne : trimSpace p ≠ "" := (utf8ByteSize_pos_iff _).mp hkeep.1
      obtain ⟨a1, a2, a3⟩ := ih (handlerStep s p)
        (by
          intro x
          rw [hstep]
          simp only [lookup_insert_ite, List.mem_append, List.mem_singleton]
          by_cases hx : x = trimSpace p
          · simp [hx]
          · simp [hx, hseen x])
        (by
          rw [hstep]
          exact List.Nodup.append hnd (List.nodup_singleton _)
            (by
              intro x hx1 hx2
              rw [List.mem_singleton] at hx2
              exact hnew (hx2 ▸ hx1)))
      refine ⟨a1, a2, fun x => ?_⟩
      rw [a3 x, hstep]
      simp only [List.mem_append, List.mem_cons, List.not_mem_nil, or_false, exists_eq_or_imp]
      constructor
      · rintro ((h | h) | ⟨h1, h2⟩)
        · exact Or.inl h
        · exact Or.inr ⟨h ▸ hne, Or.inl h.symm⟩
        · exact Or.inr ⟨h1, Or.inr h2⟩
      · rintro (h | ⟨h1, h2 | h2⟩)
        · exact Or.inl (Or.inl h)
        · exact Or.inl (Or.inr h2.symm)
        · exact Or.inr ⟨h1, h2⟩
    · have hstep : handlerStep s p = s := by
        unfold handlerStep; rw [if_neg hkeep]
      obtain ⟨a1, a2, a3⟩ := ih (handlerStep s p) (by rw [hstep]; exact hseen)
        (by rw [hstep]; exact hnd)
      refine ⟨a1, a2, fun x => ?_⟩
      rw [a3 x, hstep]
      simp only [List.mem_cons, exists_eq_or_imp]
      constructor
      · rintro (h | ⟨h1, h2⟩)
        · exact Or.inl h
        · exact Or.inr ⟨h1, Or.inr h2⟩
      · rintro (h | ⟨h1, h2 | h2⟩)
        · exact Or.inl h
        · left
          have hpos : (trimSpace p).utf8ByteSize > 0 :=
            (utf8ByteSize_pos_iff _).mpr (h2 ▸ h1)
          have hseenp : (s.2.lookup (trimSpace p)).getD false = true := by
            by_contra hc
            exact hkeep ⟨hpos, by simpa using hc⟩
          rw [← h2]
          exact (hseen _).mp hseenp
        · exact Or.inr ⟨h1, h2⟩

/-- C15 fails as stated.  The form value `,  ,Dup,dup` is split into the pieces
`""`, `"  "`, `"Dup"` and `"dup"`; the handler drops the two blanks and keeps
both `Dup` and `dup`, because `seen` is keyed by the exact trimmed name. -/
theorem handler_names_counterexample :
    splitComma ",  ,Dup,dup" = ["", "  ", "Dup", "dup"] ∧
      handlerNames ",  ,Dup,dup" ≠ ["Dup"] ∧ "dup" ∈ handlerNames ",  ,Dup,dup" := by
  refine ⟨by decide, by decide, by decide⟩

/-- C15, amended.  For the submitted names `""`, `"  "`, `"Dup"`, `"dup"` the
handler's trimming and deduplication yields exactly `["Dup", "dup"]`: blanks are
dropped and the deduplication is case-sensitive.  In general the names are,
without repetition, the non-empty trimmed pieces of the form value. -/
theorem handler_names_scenario :
    handlerNames ",  ,Dup,dup" = ["Dup", "dup"] ∧
    ∀ form, (handlerNames form).Nodup ∧
      ∀ x, x ∈ handlerNames form ↔ (x ≠ "" ∧ ∃ piece ∈ splitComma form, trimSpace piece = x) := by
  refine ⟨by decide, fun form => ?_⟩
  obtain ⟨_, h2, h3⟩ := handlerStep_foldl (splitComma form) ([], ∅) (by simp) List.nodup_nil
  refine ⟨h2, fun x => ?_⟩
  have := h3 x
  simpa using this

/-! ## Resolved nodes and untraced leaves -/

/-- C16. On a register storing each record under its own name, in the graph
returned by a successful `Pull` a key that is the name of a register record is
mapped to exactly `[Seed, Pollen]` of that record and any other key to the
empty list; at the end of the worklist loop no name is both in the graph (a
resolved node) and in `unknown` (an untraced leaf). -/
theorem pull_resolved_or_leaf (lower : String → String) (σ : PullSched) (fuel : Nat)
    (r : Register) (qs : List String) (graph : Graph) (hwf : RegWF r)
    (h : r.Pull lower σ fuel qs = .done (some graph, none)) (n : String) (hn : n ∈ graph) :
    (∀ g, r.Lookup n = some g → graph.lookup n = some [g.Seed, g.Pollen]) ∧
    (r.Lookup n = none → graph.lookup n = some []) ∧
    (∀ todo s, pullSeed lower r σ.fuzzy qs ∅ = .ok todo →
      pullLoop r fuel σ.picks ⟨∅, todo, ∅⟩ = .done (.ok s) →
      ∀ x, ¬ (x ∈ s.graph ∧ x ∈ s.unknown)) := by
  have hspec := (pull_ok_spec hwf h).2.1 n hn
  refine ⟨fun g hg => ?_, fun hg => ?_, fun todo s hseed hloop x hx => ?_⟩
  · rw [hspec, hg]
  · rw [hspec, hg]
  · obtain ⟨s', hs', inv, _⟩ := pullLoop_inv hwf fuel σ.picks _ _ (pullSeed_inv hwf hseed) hloop
    simp only [Except.ok.injEq] at hs'
    subst hs'
    obtain ⟨deps, hdeps⟩ := exists_lookup_of_mem hx.1
    obtain ⟨g, hg, _⟩ := inv.graph_reg x deps hdeps
    rw [inv.unknown_reg x hx.2] at hg
    simp at hg

theorem pull_resolved_or_leaf_witness :
    (∀ g, regRoot.Lookup "A" = some g →
      (mkGraph [("A", ["B", "C"]), ("C", []), ("B", [])]).lookup "A"
        = some [g.Seed, g.Pollen]) ∧
    (regRoot.Lookup "A" = none →
      (mkGraph [("A", ["B", "C"]), ("C", []), ("B", [])]).lookup "A" = some []) ∧
    (∀ todo s, pullSeed asciiLower regRoot pullSched0.fuzzy ["a"] ∅ = .ok todo →
      pullLoop regRoot 1 pullSched0.picks ⟨∅, todo, ∅⟩ = .done (.ok s) →
      ∀ x, ¬ (x ∈ s.graph ∧ x ∈ s.unknown)) :=
  pull_resolved_or_leaf asciiLower pullSched0 1 regRoot ["a"]
    (mkGraph [("A", ["B", "C"]), ("C", []), ("B", [])]) (mkRegister_wf _) (by rfl)
    "A" (by decide)

/-! ## Layer 0 after `Pull` -/

/-- C20. On a register storing each record under its own name, after a
successful `Pull` and `Sort` the layer 0 consists exactly of the names of the
graph that are absent from the register (the empty name among them when a
record of the graph has an empty parent field), and every register record of
the graph, having the two-entry parent list `[Seed, Pollen]`, is in a layer of
index at least 1. -/
theorem pull_sort_layer_zero_exact (lower : String → String) (σ : PullSched) (fuel : Nat)
    (r : Register) (qs : List String) (graph : Graph) (σ' : SortSched) (fuel' : Nat)
    (layers : List (List String)) (hwf : RegWF r)
    (hp : r.Pull lower σ fuel qs = .done (some graph, none))
    (hs : GoSort σ' fuel' graph = .done (some layers, none)) :
    (∀ n, n ∈ layers.getD 0 [] ↔ (n ∈ graph ∧ r.Lookup n = none)) ∧
    (∀ n g, n ∈ graph → r.Lookup n = some g →
      graph.lookup n = some [g.Seed, g.Pollen] ∧
      ∃ i, layerOf n layers = some i ∧ 1 ≤ i) ∧
    (∀ n g, n ∈ graph → r.Lookup n = some g → (g.Seed = "" ∨ g.Pollen = "") →
      r.Lookup "" = none → "" ∈ layers.getD 0 []) := by
  obtain ⟨hmem, _, hflat⟩ := GoSort_mem_layer hs
  have hzero : ∀ n, n ∈ layers.getD 0 [] ↔ (n ∈ graph ∧ r.Lookup n = none) := by
    intro n
    rw [hmem 0 n]
    constructor
    · intro h0
      have hin := mem_of_layerOf_eq_some n layers 0 h0
      have hng : n ∈ graph := by
        apply (hflat n).mp
        by_cases hl : 0 < layers.length
        · rw [List.getD_eq_getElem _ _ hl] at hin
          exact List.mem_flatten.mpr ⟨_, List.getElem_mem hl, hin⟩
        · rw [List.getD_eq_default _ _ (by omega)] at hin
          simp at hin
      exact ⟨hng, (pull_sort_layer_zero hwf hp hs n hng).mp h0⟩
    · rintro ⟨hng, hnone⟩
      exact (pull_sort_layer_zero hwf hp hs n hng).mpr hnone
  refine ⟨hzero, fun n g hn hg => ?_, fun n g hn hg hempty hnone => ?_⟩
  · have hpar := pull_parents hwf hp n hn
    rw [hg] at hpar
    simp only at hpar
    refine ⟨by rw [(pull_ok_spec hwf hp).2.1 n hn, hg], ?_⟩
    have hl := (GoSort_layer_eq σ' fuel' graph layers hs n hn).1
    rw [hpar] at hl
    exact ⟨_, hl, by simp⟩
  · rw [hzero]
    refine ⟨?_, hnone⟩
    have hpar := pull_parents hwf hp n hn
    rw [hg] at hpar
    simp only at hpar
    apply pull_closed hwf hp n ""
    rw [hpar]
    rcases hempty with h | h
    · simp [h]
    · simp [h]

theorem pull_sort_layer_zero_exact_witness :
    (∀ n, n ∈ [[""], ["B", "C"], ["A"]].getD 0 [] ↔ (n ∈ graphABCFull ∧ regABC.Lookup n = none)) ∧
    (∀ n g, n ∈ graphABCFull → regABC.Lookup n = some g →
      graphABCFull.lookup n = some [g.Seed, g.Pollen] ∧
      ∃ i, layerOf n [[""], ["B", "C"], ["A"]] = some i ∧ 1 ≤ i) ∧
    (∀ n g, n ∈ graphABCFull → regABC.Lookup n = some g → (g.Seed = "" ∨ g.Pollen = "") →
      regABC.Lookup "" = none → "" ∈ [[""], ["B", "C"], ["A"]].getD 0 []) :=
  pull_sort_layer_zero_exact asciiLower pullSched0 3 regABC ["A"] graphABCFull sched0 4
    [[""], ["B", "C"], ["A"]] (mkRegister_wf _) (by rfl) (by decide)

end Gorchid
